import Mathlib

/-!
# SoftPWM: channel pool, registry, duty-cycle multiplexer and fade controller

A shallow embedding of `SoftPWM.cpp` / `SoftPWM.h`.

* The static array `_softpwm_channels[SOFTPWM_MAXCHANNELS]` is a function from
  `Fin SOFTPWM_MAXCHANNELS` to channel records; a pointer into the array is an
  `Option (Fin SOFTPWM_MAXCHANNELS)` (`none` is `NULL`).
* `uint8_t` / `uint16_t` values are `Nat`, `int8_t` / `int16_t` values are `Int`;
  stores that truncate are written with an explicit `% 256`.
* `while (l_it)` loops run on fuel and return `none` when the fuel runs out;
  a `NULL` dereference is `none` as well.
* The AVR I/O registers written through `outport` are a map from register
  address to byte.
-/

namespace SoftPWM

/-! ## Constants of `SoftPWM.h` -/

abbrev SOFTPWM_MAXCHANNELS : Nat := 20

def SOFTPWM_NORMAL : Nat := 0

def SOFTPWM_INVERTED : Nat := 1

def ALL : Int := -1

/-! ## Constants of the Arduino core used by the source -/

def LOW : Nat := 0

def HIGH : Nat := 1

def INPUT : Nat := 0

def OUTPUT : Nat := 1

/-- Pointer to an element of `_softpwm_channels`; `none` is `NULL`. -/
abbrev Ptr := Option (Fin SOFTPWM_MAXCHANNELS)

/-- The record `softPWMChannel`. -/
structure softPWMChannel where
  pin : Int
  polarity : Nat
  outport : Nat
  pinmask : Nat
  pwmvalue : Nat
  checkval : Nat
  fadeuprate : Nat
  fadedownrate : Nat
  next : Ptr
  prev : Ptr

/-- The array `_softpwm_channels`. -/
abbrev Channels := Fin SOFTPWM_MAXCHANNELS → softPWMChannel

/-- Build parameters the source takes from the tool chain and the Arduino core:
the clock rate `F_CPU`, and the pin mapping
`portOutputRegister(digitalPinToPort(pin))` / `digitalPinToBitMask(pin)`. -/
structure Board where
  F_CPU : Nat
  portOutputRegister : Int → Nat
  digitalPinToBitMask : Int → Nat

/-- The global variables of `SoftPWM.cpp` together with the hardware registers
the library writes: the I/O memory `io` (output registers, by address), the pin
directions `pinmode`, the timer counter `TCNT` and the compare value `OCR`. -/
structure State where
  _isr_softcount : Nat
  _softpwm_defaultPolarity : Nat
  _softpwm_channels : Channels
  g_used : Ptr
  g_free : Ptr
  io : Nat → Nat
  pinmode : Int → Nat
  TCNT : Nat
  OCR : Nat

/-- The memory image at program start: statics are zero-initialised,
`_isr_softcount = 0xff`, `_softpwm_defaultPolarity = SOFTPWM_NORMAL`. -/
def boot : State where
  _isr_softcount := 0xff
  _softpwm_defaultPolarity := SOFTPWM_NORMAL
  _softpwm_channels := fun _ =>
    { pin := 0, polarity := 0, outport := 0, pinmask := 0, pwmvalue := 0, checkval := 0,
      fadeuprate := 0, fadedownrate := 0, next := none, prev := none }
  g_used := none
  g_free := none
  io := fun _ => 0
  pinmode := fun _ => INPUT
  TCNT := 0
  OCR := 0

/-! ## Field stores into the array -/

def setNext (ch : Channels) (i : Fin SOFTPWM_MAXCHANNELS) (p : Ptr) : Channels :=
  Function.update ch i { ch i with next := p }

def setPrev (ch : Channels) (i : Fin SOFTPWM_MAXCHANNELS) (p : Ptr) : Channels :=
  Function.update ch i { ch i with prev := p }

/-! ## Intrusive list primitives -/

/-- The function `ch_push(p_head, p_item)`: returns the array and the new head. -/
def ch_push (ch : Channels) (p_head : Ptr) (p_item : Fin SOFTPWM_MAXCHANNELS) :
    Channels × Ptr :=
  let ch := setNext ch p_item p_head
  let ch := setPrev ch p_item none
  match p_head with
  | none => (ch, some p_item)
  | some h => (setPrev ch h (some p_item), some p_item)

/-- The function `ch_remove(p_head, p_item)`: returns the array and the new head, or
`none` when `l_prev` is dereferenced while `NULL`. -/
def ch_remove (ch : Channels) (p_head : Ptr) (p_item : Fin SOFTPWM_MAXCHANNELS) :
    Option (Channels × Ptr) :=
  match p_head with
  | none => some (ch, none)
  | some h =>
    if h = p_item then
      -- remove head
      match (ch p_item).next with
      | none => some (ch, none)
      | some n =>
        let ch := setPrev ch n none
        let ch := setNext ch p_item none
        some (ch, some n)
    else
      match (ch p_item).prev with
      | none => none
      | some l_prev =>
        let ch := setNext ch l_prev (ch p_item).next
        match (ch p_item).next with
        | none =>
          -- remove tail
          some (setPrev ch p_item none, some h)
        | some n =>
          -- remove middle
          let ch := setPrev ch n (some l_prev)
          let ch := setPrev ch p_item none
          let ch := setNext ch p_item none
          some (ch, some h)

/-- The function `ch_pop(p_head)`: returns the array, the new head and the popped item. -/
def ch_pop (ch : Channels) (p_head : Ptr) : Channels × Ptr × Ptr :=
  match p_head with
  | none => (ch, none, none)
  | some l_item => (setNext ch l_item none, (ch l_item).next, some l_item)

/-- The `for` loop of `ch_find`, with `n` iterations left. -/
def ch_find_loop (ch : Channels) (p_pin : Int) : Nat → Ptr → Ptr
  | 0, _ => none
  | _ + 1, none => none
  | n + 1, some l_it =>
    if p_pin = (ch l_it).pin then some l_it else ch_find_loop ch p_pin n (ch l_it).next

/-- The function `ch_find(p_head, p_pin)`. -/
def ch_find (ch : Channels) (p_head : Ptr) (p_pin : Int) : Ptr :=
  ch_find_loop ch p_pin SOFTPWM_MAXCHANNELS p_head

/-- The function `ch_reset(p_ch)` on the record itself. -/
def ch_reset (c : softPWMChannel) : softPWMChannel :=
  { c with pin := -1, polarity := SOFTPWM_NORMAL, outport := 0, fadeuprate := 0,
           fadedownrate := 0 }

/-! ## Hardware primitives -/

/-- The statement `*(outport) |= pinmask`. -/
def portSet (io : Nat → Nat) (outport pinmask : Nat) : Nat → Nat :=
  Function.update io outport (io outport ||| pinmask)

/-- The statement `*(outport) &= ~(pinmask)` on a byte register. -/
def portClear (io : Nat → Nat) (outport pinmask : Nat) : Nat → Nat :=
  Function.update io outport (io outport &&& (0xff ^^^ pinmask))

/-- Modelled from the spec: `digitalWrite(pin, val)` of the Arduino core ("write a pin to a
logic level"): clears the pin's bit in its output register for `LOW`, sets it otherwise. -/
def digitalWrite (b : Board) (io : Nat → Nat) (pin : Int) (val : Nat) : Nat → Nat :=
  if val = LOW then portClear io (b.portOutputRegister pin) (b.digitalPinToBitMask pin)
  else portSet io (b.portOutputRegister pin) (b.digitalPinToBitMask pin)

/-- Modelled from the spec: `pinMode(pin, mode)` of the Arduino core ("set a pin's direction
to output/input"). -/
def pinMode (pm : Int → Nat) (pin : Int) (mode : Nat) : Int → Nat :=
  Function.update pm pin mode

/-- The logic level an output register drives on the bits of `pinmask`. -/
def lineLevel (io : Nat → Nat) (outport pinmask : Nat) : Nat :=
  if io outport &&& pinmask = 0 then LOW else HIGH

/-- The logic level driven on `pin`. -/
def pinLevel (b : Board) (s : State) (pin : Int) : Nat :=
  lineLevel s.io (b.portOutputRegister pin) (b.digitalPinToBitMask pin)

/-- The macro `SOFTPWM_OCR`. -/
def SOFTPWM_OCR (b : Board) : Nat :=
  if b.F_CPU ≠ 0 then b.F_CPU / (8 * 256 * 60) else 130

/-- The macro `HARDRESET(RST)`. -/
def HARDRESET (RST : Nat) (s : State) : State :=
  if RST ≠ 0 then { s with TCNT := 0, _isr_softcount := 0xff } else s

/-- The loop `while (l_it) { body; l_it = l_it->next; }` over a list of the array:
`none` when the fuel runs out before `l_it` is `NULL`. -/
def while_it (body : Fin SOFTPWM_MAXCHANNELS → State → State) : Nat → Ptr → State → Option State
  | _, none, s => some s
  | 0, some _, _ => none
  | fuel + 1, some l_it, s =>
    let s := body l_it s
    while_it body fuel (s._softpwm_channels l_it).next s

/-! ## The timer interrupt -/

/-- The value the interrupt stores into `checkval` at a cycle wrap
(`newvalue` and `direction` are `int16_t`; the store truncates to `uint8_t`). -/
def isr_newcheckval (c : softPWMChannel) : Nat :=
  if c.fadeuprate > 0 ∨ c.fadedownrate > 0 then
    -- we want to fade to the new value
    let direction : Int := (c.pwmvalue : Int) - (c.checkval : Int)
    let newvalue : Int :=
      if direction > 0 ∧ c.fadeuprate > 0 then
        if (c.checkval : Int) + (c.fadeuprate : Int) > (c.pwmvalue : Int) then (c.pwmvalue : Int)
        else (c.checkval : Int) + (c.fadeuprate : Int)
      else if direction < 0 ∧ c.fadedownrate > 0 then
        if (c.checkval : Int) - (c.fadedownrate : Int) < (c.pwmvalue : Int) then (c.pwmvalue : Int)
        else (c.checkval : Int) - (c.fadedownrate : Int)
      else (c.pwmvalue : Int)
    (newvalue % 256).toNat
  else
    -- just set the channel to the new value
    c.pwmvalue

/-- The pin write of the interrupt at a cycle wrap, for a channel whose `checkval` is
already updated. -/
def isr_wrap_write (c : softPWMChannel) (io : Nat → Nat) : Nat → Nat :=
  if c.checkval = 0x00 then
    if c.polarity = SOFTPWM_NORMAL then portClear io c.outport c.pinmask
    else portSet io c.outport c.pinmask
  else
    if c.polarity = SOFTPWM_NORMAL then portSet io c.outport c.pinmask
    else portClear io c.outport c.pinmask

/-- Body of the first `while` loop of the interrupt (`_isr_softcount == 0`). -/
def isr_wrap_body (l_it : Fin SOFTPWM_MAXCHANNELS) (s : State) : State :=
  let c := s._softpwm_channels l_it
  let c := { c with checkval := isr_newcheckval c }
  { s with _softpwm_channels := Function.update s._softpwm_channels l_it c,
           io := isr_wrap_write c s.io }

/-- Body of the second `while` loop of the interrupt. -/
def isr_tick_body (l_it : Fin SOFTPWM_MAXCHANNELS) (s : State) : State :=
  let c := s._softpwm_channels l_it
  -- skip hit on checkval 0 and 255
  if c.checkval ≠ 0x00 ∧ c.checkval ≠ 0xFF then
    if c.checkval = s._isr_softcount then
      -- turn off the channel
      if c.polarity = SOFTPWM_NORMAL then { s with io := portClear s.io c.outport c.pinmask }
      else { s with io := portSet s.io c.outport c.pinmask }
    else s
  else s

/-- The handler `ISR(SOFTPWM_TIMER_INTERRUPT)`. -/
def SoftPWM_Timer_Interrupt (fuel : Nat) (s : State) : Option State :=
  let s := { s with _isr_softcount := (s._isr_softcount + 1) % 256 }
  if s._isr_softcount = 0 then
    while_it isr_wrap_body fuel s.g_used s
  else
    while_it isr_tick_body fuel s.g_used s

/-! ## Public operations -/

/-- The `for` loop of `SoftPWMBegin` over the indices still to visit. -/
def SoftPWMBegin_loop : List (Fin SOFTPWM_MAXCHANNELS) → Channels × Ptr → Channels × Ptr
  | [], st => st
  | i :: rest, (ch, g_free) =>
    let ch := Function.update ch i (ch_reset (ch i))
    SoftPWMBegin_loop rest (ch_push ch g_free i)

/-- The function `SoftPWMBegin(defaultPolarity)`. -/
def SoftPWMBegin (b : Board) (defaultPolarity : Nat) (s : State) : State :=
  let r := SoftPWMBegin_loop (List.finRange SOFTPWM_MAXCHANNELS) (s._softpwm_channels, none)
  { s with _softpwm_defaultPolarity := defaultPolarity, g_used := none,
           _softpwm_channels := r.1, g_free := r.2, OCR := SOFTPWM_OCR b }

/-- Body of the `while` loop of `SoftPWMSetPolarity`. -/
def setPolarity_body (polarity : Nat) (l_it : Fin SOFTPWM_MAXCHANNELS) (s : State) : State :=
  let c := { s._softpwm_channels l_it with polarity := polarity }
  { s with _softpwm_channels := Function.update s._softpwm_channels l_it c }

/-- The function `SoftPWMSetPolarity(pin, polarity)`. -/
def SoftPWMSetPolarity (fuel : Nat) (pin : Int) (polarity : Nat) (s : State) : Option State :=
  let polarity := if polarity ≠ SOFTPWM_NORMAL then SOFTPWM_INVERTED else polarity
  -- set individual pins
  if pin > 0 then
    match ch_find s._softpwm_channels s.g_used pin with
    | some l_it => some (setPolarity_body polarity l_it s)
    | none => some s
  else
    -- set all used pins
    while_it (setPolarity_body polarity) fuel s.g_used s

/-- Body of the `while` loop of `SoftPWMSet`. -/
def set_body (value : Nat) (l_it : Fin SOFTPWM_MAXCHANNELS) (s : State) : State :=
  let c := { s._softpwm_channels l_it with pwmvalue := value }
  { s with _softpwm_channels := Function.update s._softpwm_channels l_it c }

/-- The function `SoftPWMSet(pin, value, hardset)`. -/
def SoftPWMSet (b : Board) (fuel : Nat) (pin : Int) (value : Nat) (hardset : Nat) (s : State) :
    Option State :=
  -- set individual pins
  if pin > 0 then
    match ch_find s._softpwm_channels s.g_used pin with
    | none =>
      -- not found
      match ch_pop s._softpwm_channels s.g_free with
      | (_, _, none) =>
        -- run out of pins
        some s
      | (ch, g_free, some l_it) =>
        let c : softPWMChannel :=
          { ch l_it with
            pin := pin, polarity := s._softpwm_defaultPolarity,
            outport := b.portOutputRegister pin, pinmask := b.digitalPinToBitMask pin,
            pwmvalue := value, next := none, prev := none }
        let ch := Function.update ch l_it c
        let io :=
          if c.polarity = SOFTPWM_NORMAL then digitalWrite b s.io pin LOW
          else digitalWrite b s.io pin HIGH
        let pm := pinMode s.pinmode pin OUTPUT
        let r := ch_push ch s.g_used l_it
        some (HARDRESET hardset
          { s with _softpwm_channels := r.1, g_used := r.2, g_free := g_free, io := io,
                   pinmode := pm })
    | some l_it =>
      -- found, just set the value
      some (HARDRESET hardset (set_body value l_it s))
  else
    -- set all used pins
    (while_it (set_body value) fuel s.g_used s).map (HARDRESET hardset)

/-- The function `SoftPWMSetPercent(pin, percent, hardset)`: the product is `uint16_t`, the
argument passed on is converted to `uint8_t`. -/
def SoftPWMSetPercent (b : Board) (fuel : Nat) (pin : Int) (percent : Nat) (hardset : Nat)
    (s : State) : Option State :=
  SoftPWMSet b fuel pin (((percent * 255) % 65536 / 100) % 256) hardset s

/-- The function `SoftPWMEnd(pin)`. -/
def SoftPWMEnd (b : Board) (pin : Int) (s : State) : Option State :=
  match ch_find s._softpwm_channels s.g_used pin with
  | none =>
    -- pin not found
    some s
  | some l_ch =>
    match ch_remove s._softpwm_channels s.g_used l_ch with
    | none => none
    | some (ch, g_used) =>
      let io := digitalWrite b s.io (ch l_ch).pin 1
      let pm := pinMode s.pinmode (ch l_ch).pin INPUT
      let ch := Function.update ch l_ch (ch_reset (ch l_ch))
      let r := ch_push ch s.g_free l_ch
      some { s with _softpwm_channels := r.1, g_used := g_used, g_free := r.2, io := io,
                    pinmode := pm }

/-- The expression `255UL * (SOFTPWM_OCR * 256UL / (F_CPU / 8000UL)) / fadeTime` in
`unsigned long`, assigned to the `int16_t fadeAmount` and stored into a `uint8_t` field;
`0` when `fadeTime` is `0`. -/
def fadeAmount (b : Board) (fadeTime : Nat) : Nat :=
  if fadeTime > 0 then
    ((255 * ((SOFTPWM_OCR b * 256) % 2 ^ 32 / (b.F_CPU / 8000))) % 2 ^ 32 / fadeTime) % 256
  else 0

/-- The `for` loop of `SoftPWMSetFadeTime` over the indices still to visit. -/
def SoftPWMSetFadeTime_loop (b : Board) (pin : Int) (fadeUpTime fadeDownTime : Nat) :
    List (Fin SOFTPWM_MAXCHANNELS) → Channels → Channels
  | [], ch => ch
  | i :: rest, ch =>
    if (pin < 0 ∧ (ch i).pin ≥ 0) ∨ (pin ≥ 0 ∧ (ch i).pin = pin) then
      let ch := Function.update ch i
        { ch i with fadeuprate := fadeAmount b fadeUpTime,
                    fadedownrate := fadeAmount b fadeDownTime }
      -- we've set individual pin
      if pin ≥ 0 then ch else SoftPWMSetFadeTime_loop b pin fadeUpTime fadeDownTime rest ch
    else SoftPWMSetFadeTime_loop b pin fadeUpTime fadeDownTime rest ch

/-- The function `SoftPWMSetFadeTime(pin, fadeUpTime, fadeDownTime)`. -/
def SoftPWMSetFadeTime (b : Board) (pin : Int) (fadeUpTime fadeDownTime : Nat) (s : State) :
    State :=
  let ch := SoftPWMSetFadeTime_loop b pin fadeUpTime fadeDownTime
    (List.finRange SOFTPWM_MAXCHANNELS) s._softpwm_channels
  { s with _softpwm_channels := ch }

/-! ## Calls and reachable states -/

/-- A call of a public operation after `SoftPWMBegin`, or one timer interrupt. -/
inductive Op where
  | Set (pin : Int) (value hardset : Nat)
  | SetPercent (pin : Int) (percent hardset : Nat)
  | SetFadeTime (pin : Int) (fadeUpTime fadeDownTime : Nat)
  | SetPolarity (pin : Int) (polarity : Nat)
  | End (pin : Int)
  | Tick

/-- Range of `int8_t`. -/
def isInt8 (x : Int) : Prop := -128 ≤ x ∧ x ≤ 127

instance (x : Int) : Decidable (isInt8 x) := by unfold isInt8; infer_instance

/-- The arguments of the call fit the parameter types of the C++ signature. -/
def Op.wellTyped : Op → Prop
  | Op.Set pin value hardset => isInt8 pin ∧ value < 256 ∧ hardset < 256
  | Op.SetPercent pin percent hardset => isInt8 pin ∧ percent < 256 ∧ hardset < 256
  | Op.SetFadeTime pin fadeUpTime fadeDownTime =>
    isInt8 pin ∧ fadeUpTime < 65536 ∧ fadeDownTime < 65536
  | Op.SetPolarity pin polarity => isInt8 pin ∧ polarity < 256
  | Op.End pin => isInt8 pin
  | Op.Tick => True

instance (op : Op) : Decidable op.wellTyped := by
  cases op <;> unfold Op.wellTyped <;> infer_instance

/-- Effect of a call on the state. -/
def Op.run (b : Board) (fuel : Nat) : Op → State → Option State
  | Op.Set pin value hardset, s => SoftPWMSet b fuel pin value hardset s
  | Op.SetPercent pin percent hardset, s => SoftPWMSetPercent b fuel pin percent hardset s
  | Op.SetFadeTime pin fadeUpTime fadeDownTime, s =>
    some (SoftPWMSetFadeTime b pin fadeUpTime fadeDownTime s)
  | Op.SetPolarity pin polarity, s => SoftPWMSetPolarity fuel pin polarity s
  | Op.End pin, s => SoftPWMEnd b pin s
  | Op.Tick, s => SoftPWM_Timer_Interrupt fuel s

/-- The byte-typed variables that `SoftPWMBegin` does not write hold bytes. -/
def State.wellTyped (s : State) : Prop :=
  s._isr_softcount < 256 ∧
  ∀ i, (s._softpwm_channels i).pwmvalue < 256 ∧ (s._softpwm_channels i).checkval < 256

/-- States reachable from `SoftPWMBegin(pol)`, called on any memory image, by any sequence
of public operations and timer interrupts that return. -/
inductive Reachable (b : Board) (pol : Nat) : State → Prop where
  | begin (s0 : State) (h0 : s0.wellTyped) (hpol : pol < 256) :
      Reachable b pol (SoftPWMBegin b pol s0)
  | step (op : Op) (fuel : Nat) (s s' : State) (hs : Reachable b pol s)
      (hop : op.wellTyped) (hrun : op.run b fuel s = some s') : Reachable b pol s'

/-- `n` timer interrupts in a row. -/
def ticks (fuel : Nat) : Nat → State → Option State
  | 0, s => some s
  | n + 1, s => (SoftPWM_Timer_Interrupt fuel s).bind (ticks fuel n)

/-! ## List predicates -/

/-- The `next` chain that starts at `head` visits exactly the records of `l`, in order, and
ends in `NULL`. -/
def IsList (ch : Channels) : Ptr → List (Fin SOFTPWM_MAXCHANNELS) → Prop
  | head, [] => head = none
  | head, j :: l => head = some j ∧ IsList ch (ch j).next l

/-- As `IsList`, and every record's `prev` is its predecessor (`pv` for the first). -/
def IsDList (ch : Channels) : Ptr → Ptr → List (Fin SOFTPWM_MAXCHANNELS) → Prop
  | _, head, [] => head = none
  | pv, head, j :: l => head = some j ∧ (ch j).prev = pv ∧ IsDList ch (some j) (ch j).next l

/-- The fields of a record other than its two links. -/
def softPWMChannel.data (c : softPWMChannel) :
    Int × Nat × Nat × Nat × Nat × Nat × Nat × Nat :=
  (c.pin, c.polarity, c.outport, c.pinmask, c.pwmvalue, c.checkval, c.fadeuprate,
    c.fadedownrate)

/-- The record is as `ch_reset` leaves it. -/
def softPWMChannel.isReset (c : softPWMChannel) : Prop :=
  c.pin = -1 ∧ c.polarity = SOFTPWM_NORMAL ∧ c.outport = 0 ∧ c.fadeuprate = 0 ∧
    c.fadedownrate = 0

/-- The invariant of the pool: `used` is the active list (doubly linked), `free` the free
list, every record is in exactly one of them, active records are bound to distinct
positive pins and carry that pin's register and mask, free records are reset, and every
byte-typed variable holds a byte. -/
structure Inv (b : Board) (pol : Nat) (s : State)
    (used free : List (Fin SOFTPWM_MAXCHANNELS)) : Prop where
  used_list : IsDList s._softpwm_channels none s.g_used used
  free_list : IsList s._softpwm_channels s.g_free free
  nodup : (used ++ free).Nodup
  all : ∀ i, i ∈ used ∨ i ∈ free
  used_pin : ∀ i ∈ used, 0 < (s._softpwm_channels i).pin ∧ (s._softpwm_channels i).pin ≤ 127
  used_line : ∀ i ∈ used,
    (s._softpwm_channels i).outport = b.portOutputRegister (s._softpwm_channels i).pin ∧
    (s._softpwm_channels i).pinmask = b.digitalPinToBitMask (s._softpwm_channels i).pin
  pin_inj : ∀ i ∈ used, ∀ j ∈ used,
    (s._softpwm_channels i).pin = (s._softpwm_channels j).pin → i = j
  free_reset : ∀ i ∈ free, (s._softpwm_channels i).isReset
  bytes : ∀ i, (s._softpwm_channels i).polarity < 256 ∧ (s._softpwm_channels i).pwmvalue < 256 ∧
    (s._softpwm_channels i).checkval < 256 ∧ (s._softpwm_channels i).fadeuprate < 256 ∧
    (s._softpwm_channels i).fadedownrate < 256
  count : s._isr_softcount < 256
  defpol : s._softpwm_defaultPolarity = pol ∧ pol < 256

/-! ## Definitions used in the statements and proofs below -/

/-- The array `ch_remove` leaves when the item is not the head. -/
def ch_remove_inner (ch : Channels) (p_item : Fin SOFTPWM_MAXCHANNELS) : Option Channels :=
  match (ch p_item).prev with
  | none => none
  | some l_prev =>
    match (setNext ch l_prev (ch p_item).next p_item).next with
    | none => some (setPrev (setNext ch l_prev (ch p_item).next) p_item none)
    | some n =>
      some (setNext (setPrev (setPrev (setNext ch l_prev (ch p_item).next) n (some l_prev))
        p_item none) p_item none)

/-- A loop body that replaces record `i` by `g` of it and then writes the I/O memory by `w`
(which may read `_isr_softcount` and the updated record). -/
def mapBody (g : softPWMChannel → softPWMChannel)
    (w : Nat → softPWMChannel → (Nat → Nat) → Nat → Nat)
    (i : Fin SOFTPWM_MAXCHANNELS) (s : State) : State :=
  { s with
    _softpwm_channels := Function.update s._softpwm_channels i (g (s._softpwm_channels i))
    io := w s._isr_softcount (g (s._softpwm_channels i)) s.io }

/-- The state a `mapBody` loop over the records of `l` leaves. -/
def mapResult (g : softPWMChannel → softPWMChannel)
    (w : Nat → softPWMChannel → (Nat → Nat) → Nat → Nat)
    (l : List (Fin SOFTPWM_MAXCHANNELS)) (s : State) : State :=
  { s with
    _softpwm_channels := fun j => if j ∈ l then g (s._softpwm_channels j)
                                  else s._softpwm_channels j
    io := l.foldl (fun io i => w s._isr_softcount (g (s._softpwm_channels i)) io) s.io }

/-- The write of the second loop of the interrupt, for counter value `cnt`. -/
def isr_tick_write (cnt : Nat) (c : softPWMChannel) (io : Nat → Nat) : Nat → Nat :=
  if c.checkval ≠ 0x00 ∧ c.checkval ≠ 0xFF then
    if c.checkval = cnt then
      if c.polarity = SOFTPWM_NORMAL then portClear io c.outport c.pinmask
      else portSet io c.outport c.pinmask
    else io
  else io

/-- The state `SoftPWMSet` builds before `HARDRESET` when it acquires record `k` for `pin`. -/
def acquired (b : Board) (pin : Int) (value : Nat) (k : Fin SOFTPWM_MAXCHANNELS) (s : State) :
    State :=
  { s with
    _softpwm_channels :=
      (ch_push (Function.update (setNext s._softpwm_channels k none) k
        { setNext s._softpwm_channels k none k with
          pin := pin, polarity := s._softpwm_defaultPolarity,
          outport := b.portOutputRegister pin, pinmask := b.digitalPinToBitMask pin,
          pwmvalue := value, next := none, prev := none }) s.g_used k).1
    g_used := some k
    g_free := (s._softpwm_channels k).next
    io := if s._softpwm_defaultPolarity = SOFTPWM_NORMAL then digitalWrite b s.io pin LOW
          else digitalWrite b s.io pin HIGH
    pinmode := pinMode s.pinmode pin OUTPUT }

/-- The record update of the first loop of the interrupt. -/
def isr_wrap_g (c : softPWMChannel) : softPWMChannel :=
  { c with checkval := isr_newcheckval c }

/-- The record update of `SoftPWMSet`. -/
def set_g (value : Nat) (c : softPWMChannel) : softPWMChannel := { c with pwmvalue := value }

/-- The record update of `SoftPWMSetPolarity`. -/
def pol_g (polarity : Nat) (c : softPWMChannel) : softPWMChannel :=
  { c with polarity := polarity }

/-- A pin mapping in the style of the ATmega328: eight pins per output register, one bit
per pin, `F_CPU` = 16 MHz. -/
def unoBoard : Board where
  F_CPU := 16000000
  portOutputRegister := fun pin => 0x25 + (pin / 8).toNat
  digitalPinToBitMask := fun pin => 2 ^ (pin % 8).toNat

/-- The pool right after `SoftPWMBegin(SOFTPWM_NORMAL)` at program start. -/
def freshPool : State := SoftPWMBegin unoBoard SOFTPWM_NORMAL boot

/-- The pool after `SoftPWMBegin(SOFTPWM_NORMAL); SoftPWMSet(5, 128)`. -/
def pin5Pool : State := HARDRESET 0 (acquired unoBoard 5 128 19 freshPool)

/-- Two output lines do not share a bit: different registers or disjoint masks. -/
def linesDisjoint (r a r' m : Nat) : Prop := r = r' → a &&& m = 0

/-- The board gives `pin` an output line of its own: a non-empty mask within the byte, and
no bit in common with the line of any other pin a channel can be bound to. -/
def Board.ownsLine (b : Board) (pin : Int) : Prop :=
  b.digitalPinToBitMask pin ≠ 0 ∧ b.digitalPinToBitMask pin < 256 ∧
  ∀ q : Int, 0 < q → q ≤ 127 → q ≠ pin →
    b.portOutputRegister q = b.portOutputRegister pin →
    b.digitalPinToBitMask q &&& b.digitalPinToBitMask pin = 0

/-- The level that switches a channel of the given polarity on. -/
def onLevel (polarity : Nat) : Nat := if polarity = SOFTPWM_NORMAL then HIGH else LOW

/-- The level that switches a channel of the given polarity off. -/
def offLevel (polarity : Nat) : Nat := if polarity = SOFTPWM_NORMAL then LOW else HIGH

/-- A sequence of calls, each run on the state the previous one returned. -/
def runOps (b : Board) (fuel : Nat) : List Op → State → Option State
  | [], s => some s
  | op :: ops, s => (op.run b fuel s).bind (runOps b fuel ops)

/-- The calls `SoftPWMSet(1, 0)`, ..., `SoftPWMSet(20, 0)`. -/
def fillOps : List Op := (List.range 20).map (fun n => Op.Set ((n : Int) + 1) 0 0)

/-- The pool after `SoftPWMBegin(SOFTPWM_NORMAL)` and `SoftPWMSet` on the pins 1 to 20. -/
def fullPool : State := (runOps unoBoard 0 fillOps freshPool).getD boot

/-- The `checkval` of the record `ch_find` returns for `pin`, if any. -/
def currentValue (s : State) (pin : Int) : Option Nat :=
  (ch_find s._softpwm_channels s.g_used pin).map (fun k => (s._softpwm_channels k).checkval)

/-- The pool after `SoftPWMBegin(SOFTPWM_NORMAL); SoftPWMSet(5, 128)` and one interrupt,
which is a cycle wrap. -/
def litPool : State := (runOps unoBoard 1 [Op.Set 5 128 0, Op.Tick] freshPool).getD boot

/-- The fade step in the words of the specification, over the integers: no change when
the target equals the current value, a step of the fade-up rate capped at the target when
the target is above, a step of the fade-down rate capped at the target when it is below,
and a jump to the target when the rate of the needed direction is 0. -/
def fadeSpec (c t u d : Int) : Int :=
  if t = c then c
  else if t > c then (if u > 0 then min t (c + u) else t)
  else (if d > 0 then max t (c - d) else t)

/-- The pool after `SoftPWMBegin(SOFTPWM_NORMAL); SoftPWMSet(5, 255);
SoftPWMSetFadeTime(5, 1000, 0)`: pin 5 has `checkval = 0`, `pwmvalue = 255` and
`fadeuprate = 4`. -/
def rampPool : State :=
  (runOps unoBoard 0 [Op.Set 5 255 0, Op.SetFadeTime 5 1000 0] freshPool).getD boot

/-- The level of a pin after tick `j` (1 to 256) of a cycle, for a channel of the given
polarity whose current value is `v` for the whole cycle. -/
def dutyLevel (polarity v j : Nat) : Nat :=
  if v = 0 then offLevel polarity
  else if v = 255 then onLevel polarity
  else if j ≤ v then onLevel polarity
  else offLevel polarity

/-- The pool after `SoftPWMBegin(SOFTPWM_NORMAL); SoftPWMSet(5, 0);
SoftPWMSetFadeTime(5, 1000, 1000)`: pin 5 has `checkval = 0`, `pwmvalue = 0` and both
fade rates 4. -/
def fadingPool : State :=
  (runOps unoBoard 0 [Op.Set 5 0 0, Op.SetFadeTime 5 1000 1000] freshPool).getD boot

instance IsList.decidable (ch : Channels) :
    ∀ (l : List (Fin SOFTPWM_MAXCHANNELS)) (head : Ptr), Decidable (IsList ch head l)
  | [], head => by unfold IsList; infer_instance
  | j :: l, head => by
    unfold IsList
    have := IsList.decidable ch l (ch j).next
    infer_instance

instance IsDList.decidable (ch : Channels) :
    ∀ (l : List (Fin SOFTPWM_MAXCHANNELS)) (pv head : Ptr), Decidable (IsDList ch pv head l)
  | [], _, head => by unfold IsDList; infer_instance
  | j :: l, pv, head => by
    unfold IsDList
    have := IsDList.decidable ch l (some j) (ch j).next
    infer_instance

/-- The pool after `SoftPWMBegin(SOFTPWM_NORMAL)` and `SoftPWMSet` on the pins 1, 2, 3 and
4: the active list is 16, 17, 18, 19. -/
def fourPool : State :=
  (runOps unoBoard 0 [Op.Set 1 10 0, Op.Set 2 20 0, Op.Set 3 30 0, Op.Set 4 40 0]
    freshPool).getD boot

/-- The record update of `SoftPWMSetFadeTime`. -/
def fade_g (b : Board) (fadeUpTime fadeDownTime : Nat) (c : softPWMChannel) : softPWMChannel :=
  { c with fadeuprate := fadeAmount b fadeUpTime, fadedownrate := fadeAmount b fadeDownTime }

/-- The `pwmvalue` of the record `ch_find` returns for `pin`, if any. -/
def targetValue (s : State) (pin : Int) : Option Nat :=
  (ch_find s._softpwm_channels s.g_used pin).map (fun k => (s._softpwm_channels k).pwmvalue)

/-- The `polarity` of the record `ch_find` returns for `pin`, if any. -/
def channelPolarity (s : State) (pin : Int) : Option Nat :=
  (ch_find s._softpwm_channels s.g_used pin).map (fun k => (s._softpwm_channels k).polarity)

/-! ## Lemmas on the list predicates -/

theorem IsList_congr {ch ch' : Channels} :
    ∀ (l : List (Fin SOFTPWM_MAXCHANNELS)) (h : Ptr),
      (∀ j ∈ l, (ch' j).next = (ch j).next) → IsList ch h l → IsList ch' h l
  | [], _, _, hl => hl
  | j :: l, h, hc, hl => by
    obtain ⟨h1, h2⟩ := hl
    refine ⟨h1, ?_⟩
    rw [hc j (List.mem_cons_self j l)]
    exact IsList_congr l _ (fun k hk => hc k (List.mem_cons_of_mem j hk)) h2

theorem IsDList_congr {ch ch' : Channels} :
    ∀ (l : List (Fin SOFTPWM_MAXCHANNELS)) (pv h : Ptr),
      (∀ j ∈ l, (ch' j).next = (ch j).next ∧ (ch' j).prev = (ch j).prev) →
      IsDList ch pv h l → IsDList ch' pv h l
  | [], _, _, _, hl => hl
  | j :: l, pv, h, hc, hl => by
    obtain ⟨h1, h2, h3⟩ := hl
    refine ⟨h1, ?_, ?_⟩
    · rw [(hc j (List.mem_cons_self j l)).2]; exact h2
    · rw [(hc j (List.mem_cons_self j l)).1]
      exact IsDList_congr l _ _ (fun k hk => hc k (List.mem_cons_of_mem j hk)) h3

theorem IsDList.isList {ch : Channels} :
    ∀ (l : List (Fin SOFTPWM_MAXCHANNELS)) (pv h : Ptr), IsDList ch pv h l → IsList ch h l
  | [], _, _, hl => hl
  | _ :: l, _, _, hl => ⟨hl.1, IsDList.isList l _ _ hl.2.2⟩

theorem IsList_unique {ch : Channels} :
    ∀ (l l' : List (Fin SOFTPWM_MAXCHANNELS)) (h : Ptr), IsList ch h l → IsList ch h l' → l = l'
  | [], [], _, _, _ => rfl
  | [], j :: l', h, h1, h2 => by
    have e1 : h = none := h1
    have e2 : h = some j := h2.1
    rw [e1] at e2; cases e2
  | j :: l, [], h, h1, h2 => by
    have e1 : h = none := h2
    have e2 : h = some j := h1.1
    rw [e1] at e2; cases e2
  | j :: l, k :: l', h, h1, h2 => by
    have e1 : h = some j := h1.1
    have e2 : h = some k := h2.1
    rw [e1] at e2
    cases e2
    rw [IsList_unique l l' _ h1.2 h2.2]

/-- The bounded scan of `ch_find` over a proper list is a search of the list. -/
theorem ch_find_loop_eq {ch : Channels} (p : Int) :
    ∀ (l : List (Fin SOFTPWM_MAXCHANNELS)) (n : Nat) (h : Ptr), IsList ch h l → l.length ≤ n →
      ch_find_loop ch p n h = l.find? (fun i => decide (p = (ch i).pin))
  | [], n, h, hl, _ => by
    have e : h = none := hl
    subst e
    cases n <;> simp [ch_find_loop]
  | j :: l, 0, h, _, hn => by simp at hn
  | j :: l, n + 1, h, hl, hn => by
    have e : h = some j := hl.1
    subst e
    simp only [ch_find_loop, List.find?_cons]
    by_cases hp : p = (ch j).pin
    · simp [hp]
    · simp only [hp, if_false, decide_False]
      exact ch_find_loop_eq p l n _ hl.2 (by simpa using hn)

/-- A loop whose body leaves every `next` link alone runs its body once on each record of
the list, in order, and returns. -/
theorem while_it_eq (body : Fin SOFTPWM_MAXCHANNELS → State → State)
    (hbody : ∀ i s j, ((body i s)._softpwm_channels j).next = (s._softpwm_channels j).next) :
    ∀ (l : List (Fin SOFTPWM_MAXCHANNELS)) (fuel : Nat) (h : Ptr) (s : State),
      IsList s._softpwm_channels h l → l.length ≤ fuel →
      while_it body fuel h s = some (l.foldl (fun s i => body i s) s)
  | [], fuel, h, s, hl, _ => by
    have e : h = none := hl
    subst e
    cases fuel <;> simp [while_it]
  | _ :: l, 0, h, s, _, hn => by simp at hn
  | j :: l, fuel + 1, h, s, hl, hn => by
    have e : h = some j := hl.1
    subst e
    simp only [while_it, List.foldl_cons]
    apply while_it_eq body hbody l fuel _ (body j s)
    · rw [hbody]
      exact IsList_congr l _ (fun k _ => hbody j s k) hl.2
    · simpa using hn

/-! ## Lemmas on the field stores -/

theorem setNext_self (ch : Channels) (i : Fin SOFTPWM_MAXCHANNELS) (p : Ptr) :
    setNext ch i p i = { ch i with next := p } := by
  simp [setNext]

theorem setNext_of_ne (ch : Channels) {i j : Fin SOFTPWM_MAXCHANNELS} (p : Ptr) (h : j ≠ i) :
    setNext ch i p j = ch j := by
  simp [setNext, Function.update_noteq h]

theorem setPrev_self (ch : Channels) (i : Fin SOFTPWM_MAXCHANNELS) (p : Ptr) :
    setPrev ch i p i = { ch i with prev := p } := by
  simp [setPrev]

theorem setPrev_of_ne (ch : Channels) {i j : Fin SOFTPWM_MAXCHANNELS} (p : Ptr) (h : j ≠ i) :
    setPrev ch i p j = ch j := by
  simp [setPrev, Function.update_noteq h]

theorem setNext_prev (ch : Channels) (i j : Fin SOFTPWM_MAXCHANNELS) (p : Ptr) :
    (setNext ch i p j).prev = (ch j).prev := by
  by_cases h : j = i
  · subst h; rw [setNext_self]
  · rw [setNext_of_ne ch p h]

theorem setPrev_next (ch : Channels) (i j : Fin SOFTPWM_MAXCHANNELS) (p : Ptr) :
    (setPrev ch i p j).next = (ch j).next := by
  by_cases h : j = i
  · subst h; rw [setPrev_self]
  · rw [setPrev_of_ne ch p h]

theorem setNext_data (ch : Channels) (i j : Fin SOFTPWM_MAXCHANNELS) (p : Ptr) :
    (setNext ch i p j).data = (ch j).data := by
  by_cases h : j = i
  · subst h; rw [setNext_self]; rfl
  · rw [setNext_of_ne ch p h]

theorem setPrev_data (ch : Channels) (i j : Fin SOFTPWM_MAXCHANNELS) (p : Ptr) :
    (setPrev ch i p j).data = (ch j).data := by
  by_cases h : j = i
  · subst h; rw [setPrev_self]; rfl
  · rw [setPrev_of_ne ch p h]

theorem setNext_next_self (ch : Channels) (i : Fin SOFTPWM_MAXCHANNELS) (p : Ptr) :
    (setNext ch i p i).next = p := by
  rw [setNext_self]

theorem setPrev_prev_self (ch : Channels) (i : Fin SOFTPWM_MAXCHANNELS) (p : Ptr) :
    (setPrev ch i p i).prev = p := by
  rw [setPrev_self]

/-! ## Lemmas on `ch_push` -/

theorem ch_push_head (ch : Channels) (head : Ptr) (item : Fin SOFTPWM_MAXCHANNELS) :
    (ch_push ch head item).2 = some item := by
  cases head <;> rfl

theorem ch_push_data (ch : Channels) (head : Ptr) (item j : Fin SOFTPWM_MAXCHANNELS) :
    ((ch_push ch head item).1 j).data = (ch j).data := by
  cases head <;> simp [ch_push, setPrev_data, setNext_data]

theorem ch_push_next_self (ch : Channels) (head : Ptr) (item : Fin SOFTPWM_MAXCHANNELS) :
    ((ch_push ch head item).1 item).next = head := by
  cases head <;> simp [ch_push, setPrev_next, setNext_next_self]

theorem ch_push_next_of_ne (ch : Channels) (head : Ptr) {item j : Fin SOFTPWM_MAXCHANNELS}
    (h : j ≠ item) : ((ch_push ch head item).1 j).next = (ch j).next := by
  cases head <;> simp [ch_push, setPrev_next, setNext_of_ne ch _ h]

theorem ch_push_prev_self (ch : Channels) (head : Ptr) (item : Fin SOFTPWM_MAXCHANNELS)
    (h : head ≠ some item) : ((ch_push ch head item).1 item).prev = none := by
  cases head with
  | none => simp [ch_push, setPrev_prev_self]
  | some k =>
    have hk : item ≠ k := fun e => h (by rw [e])
    simp [ch_push, setPrev_of_ne _ _ hk, setPrev_prev_self]

theorem ch_push_prev_head (ch : Channels) (k item : Fin SOFTPWM_MAXCHANNELS) :
    ((ch_push ch (some k) item).1 k).prev = some item := by
  simp [ch_push, setPrev_prev_self]

theorem ch_push_prev_of_ne (ch : Channels) (head : Ptr) {item j : Fin SOFTPWM_MAXCHANNELS}
    (h : j ≠ item) (hh : head ≠ some j) : ((ch_push ch head item).1 j).prev = (ch j).prev := by
  cases head with
  | none => simp [ch_push, setPrev_of_ne _ _ h, setNext_prev]
  | some k =>
    have hk : j ≠ k := fun e => hh (by rw [e])
    simp [ch_push, setPrev_of_ne _ _ hk, setPrev_of_ne _ _ h, setNext_prev]

/-- Pushing a record that is not in the list puts it in front (singly linked view). -/
theorem ch_push_isList {ch : Channels} {head : Ptr} {l : List (Fin SOFTPWM_MAXCHANNELS)}
    (item : Fin SOFTPWM_MAXCHANNELS) (hl : IsList ch head l) (hni : item ∉ l) :
    IsList (ch_push ch head item).1 (ch_push ch head item).2 (item :: l) := by
  refine ⟨ch_push_head ch head item, ?_⟩
  rw [ch_push_next_self]
  refine IsList_congr l head (fun j hj => ?_) hl
  exact ch_push_next_of_ne ch head (fun e => hni (e ▸ hj))

/-- Pushing a record that is not in the list puts it in front (doubly linked view). -/
theorem ch_push_isDList {ch : Channels} {head : Ptr} {l : List (Fin SOFTPWM_MAXCHANNELS)}
    (item : Fin SOFTPWM_MAXCHANNELS) (hl : IsDList ch none head l) (hnd : l.Nodup)
    (hni : item ∉ l) :
    IsDList (ch_push ch head item).1 none (ch_push ch head item).2 (item :: l) := by
  cases l with
  | nil =>
    have e : head = none := hl
    subst e
    exact ⟨rfl, ch_push_prev_self ch none item (by simp), by rw [ch_push_next_self]; rfl⟩
  | cons k l =>
    obtain ⟨e, hp, hrest⟩ := hl
    subst e
    have hik : item ≠ k := fun e => hni (by simp [e])
    have hkl : k ∉ l := (List.nodup_cons.mp hnd).1
    refine ⟨rfl, ch_push_prev_self ch _ item (by simpa using hik.symm), ?_⟩
    rw [ch_push_next_self]
    refine ⟨rfl, ch_push_prev_head ch k item, ?_⟩
    rw [ch_push_next_of_ne ch _ hik.symm]
    refine IsDList_congr l _ _ (fun j hj => ?_) hrest
    have hji : j ≠ item := fun e => hni (by simp [← e, hj])
    have hjk : j ≠ k := fun e => hkl (e ▸ hj)
    exact ⟨ch_push_next_of_ne ch _ hji, ch_push_prev_of_ne ch _ hji (by simpa using hjk.symm)⟩

/-! ## Lemmas on `ch_pop` -/

theorem ch_pop_nil (ch : Channels) : ch_pop ch none = (ch, none, none) := rfl

theorem ch_pop_cons (ch : Channels) (k : Fin SOFTPWM_MAXCHANNELS) :
    ch_pop ch (some k) = (setNext ch k none, (ch k).next, some k) := rfl

/-- Popping leaves the tail of the list as the list. -/
theorem ch_pop_isList {ch : Channels} {k : Fin SOFTPWM_MAXCHANNELS}
    {l : List (Fin SOFTPWM_MAXCHANNELS)} (hl : IsList ch (some k) (k :: l)) (hk : k ∉ l) :
    IsList (setNext ch k none) (ch k).next l :=
  IsList_congr l _ (fun j hj => by
    have hjk : j ≠ k := fun e => hk (e ▸ hj)
    rw [setNext_of_ne ch _ hjk]) hl.2

/-! ## Lemmas on `ch_remove` -/

theorem ch_remove_of_ne (ch : Channels) {h item : Fin SOFTPWM_MAXCHANNELS} (hne : h ≠ item) :
    ch_remove ch (some h) item = (ch_remove_inner ch item).map (fun c => (c, some h)) := by
  unfold ch_remove ch_remove_inner
  simp only [hne, if_false]
  cases (ch item).prev with
  | none => rfl
  | some lp =>
    simp only
    cases (setNext ch lp (ch item).next item).next <;> rfl

theorem ch_remove_inner_spec {ch : Channels} (item : Fin SOFTPWM_MAXCHANNELS) :
    ∀ (rest : List (Fin SOFTPWM_MAXCHANNELS)) (a : Fin SOFTPWM_MAXCHANNELS) (pv : Ptr),
      IsDList ch pv (some a) (a :: rest) → (a :: rest).Nodup → item ∈ rest →
      ∃ ch', ch_remove_inner ch item = some ch' ∧
        IsDList ch' pv (some a) (a :: rest.erase item) ∧
        (∀ j, j ∉ a :: rest → ch' j = ch j) ∧ (∀ j, (ch' j).data = (ch j).data) ∧
        (ch' item).next = none ∧ (ch' item).prev = none
  | [], _, _, _, _, hm => by simp at hm
  | b :: rest, a, pv, hl, hnd, hm => by
    obtain ⟨-, hap, hb, hbp, hrest⟩ := hl
    have hab : a ≠ b := fun e => (List.nodup_cons.mp hnd).1 (by simp [e])
    have hnd' : (b :: rest).Nodup := (List.nodup_cons.mp hnd).2
    have har : a ∉ rest := fun h => (List.nodup_cons.mp hnd).1 (List.mem_cons_of_mem b h)
    have hbr : b ∉ rest := (List.nodup_cons.mp hnd').1
    by_cases hib : item = b
    · subst hib
      cases rest with
      | nil =>
        have hn : (ch item).next = none := hrest
        refine ⟨setPrev (setNext ch a none) item none, ?_, ?_, ?_, ?_, ?_, ?_⟩
        · simp [ch_remove_inner, hbp, hn, setNext_of_ne ch _ hab.symm]
        · simp only [List.erase_cons_head]
          refine ⟨rfl, ?_, ?_⟩
          · rw [setPrev_of_ne _ _ hab, setNext_prev]; exact hap
          · rw [setPrev_next, setNext_next_self]; rfl
        · intro j hj
          have h1 : j ≠ a := fun e => hj (by simp [e])
          have h2 : j ≠ item := fun e => hj (by simp [e])
          rw [setPrev_of_ne _ _ h2, setNext_of_ne _ _ h1]
        · intro j; rw [setPrev_data, setNext_data]
        · rw [setPrev_next, setNext_of_ne _ _ hab.symm]; exact hn
        · rw [setPrev_prev_self]
      | cons n r =>
        obtain ⟨hn, hnp, hr⟩ := hrest
        have hna : n ≠ a := fun e => har (by simp [← e])
        have hnb : n ≠ item := fun e => hbr (by simp [← e])
        have hnr : n ∉ r := (List.nodup_cons.mp (List.nodup_cons.mp hnd').2).1
        refine ⟨setNext (setPrev (setPrev (setNext ch a (some n)) n (some a)) item none)
          item none, ?_, ?_, ?_, ?_, ?_, ?_⟩
        · simp [ch_remove_inner, hbp, hn, setNext_of_ne ch _ hab.symm]
        · simp only [List.erase_cons_head]
          refine ⟨rfl, ?_, ?_, ?_⟩
          · rw [setNext_prev, setPrev_of_ne _ _ hab, setPrev_of_ne _ _ hna.symm, setNext_prev]
            exact hap
          · rw [setNext_of_ne _ _ hab, setPrev_next, setPrev_next, setNext_next_self]
          · refine ⟨?_, ?_⟩
            · rw [setNext_prev, setPrev_of_ne _ _ hnb, setPrev_prev_self]
            · rw [setNext_of_ne _ _ hnb, setPrev_next, setPrev_next, setNext_of_ne _ _ hna]
              refine IsDList_congr r _ _ (fun j hj => ?_) hr
              have h1 : j ≠ a := fun e => har (by simp [← e, hj])
              have h2 : j ≠ item := fun e => hbr (by simp [← e, hj])
              have h3 : j ≠ n := fun e => hnr (e ▸ hj)
              rw [setNext_of_ne _ _ h2, setPrev_of_ne _ _ h2, setPrev_of_ne _ _ h3,
                setNext_of_ne _ _ h1]
              exact ⟨rfl, rfl⟩
        · intro j hj
          have h1 : j ≠ a := fun e => hj (by simp [e])
          have h2 : j ≠ item := fun e => hj (by simp [e])
          have h3 : j ≠ n := fun e => hj (by simp [e])
          rw [setNext_of_ne _ _ h2, setPrev_of_ne _ _ h2, setPrev_of_ne _ _ h3,
            setNext_of_ne _ _ h1]
        · intro j; rw [setNext_data, setPrev_data, setPrev_data, setNext_data]
        · rw [setNext_next_self]
        · rw [setNext_prev, setPrev_prev_self]
    · have hm' : item ∈ rest := by
        rcases List.mem_cons.mp hm with h | h
        · exact absurd h hib
        · exact h
      obtain ⟨ch', h1, h2, h3, h4, h5, h6⟩ :=
        ch_remove_inner_spec item rest b (some a) ⟨rfl, hbp, hrest⟩ hnd' hm'
      have hab' : a ∉ b :: rest := (List.nodup_cons.mp hnd).1
      refine ⟨ch', h1, ?_, ?_, h4, h5, h6⟩
      · have he : (b :: rest).erase item = b :: rest.erase item := by
          rw [List.erase_cons_tail]; simpa using Ne.symm hib
        rw [he]
        refine ⟨rfl, ?_, ?_⟩
        · rw [h3 a hab']; exact hap
        · rw [h3 a hab', hb]; exact h2
      · intro j hj
        exact h3 j (fun h => hj (List.mem_cons_of_mem a h))

/-- Removing a member of a well-formed doubly linked list deletes exactly that record from
the sequence, keeps the links well-formed, touches no record outside the list and no data
field, and clears the links of the removed record. -/
theorem ch_remove_spec {ch : Channels} {head : Ptr} {l : List (Fin SOFTPWM_MAXCHANNELS)}
    (item : Fin SOFTPWM_MAXCHANNELS) (hl : IsDList ch none head l) (hnd : l.Nodup)
    (hm : item ∈ l) :
    ∃ ch' head', ch_remove ch head item = some (ch', head') ∧
      IsDList ch' none head' (l.erase item) ∧
      (∀ j, j ∉ l → ch' j = ch j) ∧ (∀ j, (ch' j).data = (ch j).data) ∧
      (ch' item).next = none ∧ (ch' item).prev = none := by
  cases l with
  | nil => simp at hm
  | cons a rest =>
    obtain ⟨e, hap, hrest⟩ := hl
    subst e
    by_cases hia : a = item
    · subst hia
      cases rest with
      | nil =>
        have hn : (ch a).next = none := hrest
        refine ⟨ch, none, ?_, ?_, fun _ _ => rfl, fun _ => rfl, hn, hap⟩
        · simp [ch_remove, hn]
        · simp only [List.erase_cons_head]; rfl
      | cons n r =>
        obtain ⟨hn, hnp, hr⟩ := hrest
        have han : a ≠ n := fun e => (List.nodup_cons.mp hnd).1 (by simp [e])
        have hnr : n ∉ r := (List.nodup_cons.mp (List.nodup_cons.mp hnd).2).1
        have har : a ∉ r := fun h => (List.nodup_cons.mp hnd).1 (List.mem_cons_of_mem n h)
        refine ⟨setNext (setPrev ch n none) a none, some n, ?_, ?_, ?_, ?_, ?_, ?_⟩
        · simp [ch_remove, hn]
        · simp only [List.erase_cons_head]
          refine ⟨rfl, ?_, ?_⟩
          · rw [setNext_prev, setPrev_prev_self]
          · rw [setNext_of_ne _ _ han.symm, setPrev_next]
            refine IsDList_congr r _ _ (fun j hj => ?_) hr
            have h1 : j ≠ a := fun e => har (e ▸ hj)
            have h3 : j ≠ n := fun e => hnr (e ▸ hj)
            rw [setNext_of_ne _ _ h1, setPrev_of_ne _ _ h3]
            exact ⟨rfl, rfl⟩
        · intro j hj
          have h1 : j ≠ a := fun e => hj (by simp [e])
          have h3 : j ≠ n := fun e => hj (by simp [e])
          rw [setNext_of_ne _ _ h1, setPrev_of_ne _ _ h3]
        · intro j; rw [setNext_data, setPrev_data]
        · rw [setNext_next_self]
        · rw [setNext_prev, setPrev_of_ne _ _ han]; exact hap
    · have hm' : item ∈ rest := by
        rcases List.mem_cons.mp hm with h | h
        · exact absurd h.symm hia
        · exact h
      obtain ⟨ch', h1, h2, h3, h4, h5, h6⟩ :=
        ch_remove_inner_spec item rest a none ⟨rfl, hap, hrest⟩ hnd hm'
      refine ⟨ch', some a, ?_, ?_, h3, h4, h5, h6⟩
      · rw [ch_remove_of_ne ch hia, h1]; rfl
      · have he : (a :: rest).erase item = a :: rest.erase item := by
          rw [List.erase_cons_tail]; simpa using hia
        rw [he]; exact h2

/-! ## Records that agree on their data fields -/

theorem data_eq_iff (c c' : softPWMChannel) :
    c'.data = c.data ↔
      c'.pin = c.pin ∧ c'.polarity = c.polarity ∧ c'.outport = c.outport ∧
      c'.pinmask = c.pinmask ∧ c'.pwmvalue = c.pwmvalue ∧ c'.checkval = c.checkval ∧
      c'.fadeuprate = c.fadeuprate ∧ c'.fadedownrate = c.fadedownrate := by
  simp [softPWMChannel.data, Prod.ext_iff]

theorem isReset_of_data {c c' : softPWMChannel} (h : c'.data = c.data) (hr : c.isReset) :
    c'.isReset := by
  obtain ⟨h1, h2, h3, -, -, -, h7, h8⟩ := (data_eq_iff c c').mp h
  unfold softPWMChannel.isReset
  rw [h1, h2, h3, h7, h8]
  exact hr

theorem ch_reset_isReset (c : softPWMChannel) : (ch_reset c).isReset :=
  ⟨rfl, rfl, rfl, rfl, rfl⟩

/-! ## `SoftPWMBegin` -/

theorem SoftPWMBegin_loop_spec :
    ∀ (rest : List (Fin SOFTPWM_MAXCHANNELS)) (ch : Channels) (g : Ptr)
      (l : List (Fin SOFTPWM_MAXCHANNELS)),
      IsList ch g l → (∀ j ∈ l, (ch j).isReset) → (rest ++ l).Nodup →
      IsList (SoftPWMBegin_loop rest (ch, g)).1 (SoftPWMBegin_loop rest (ch, g)).2
          (rest.reverse ++ l) ∧
        (∀ j ∈ rest.reverse ++ l, ((SoftPWMBegin_loop rest (ch, g)).1 j).isReset) ∧
        (∀ j, ((SoftPWMBegin_loop rest (ch, g)).1 j).pwmvalue = (ch j).pwmvalue ∧
          ((SoftPWMBegin_loop rest (ch, g)).1 j).checkval = (ch j).checkval)
  | [], ch, g, l, hl, hr, _ => by
    refine ⟨?_, ?_, fun _ => ⟨rfl, rfl⟩⟩
    · simpa [SoftPWMBegin_loop] using hl
    · simpa [SoftPWMBegin_loop] using hr
  | i :: rest, ch, g, l, hl, hr, hnd => by
    have hil : i ∉ l := by
      intro h
      have := (List.nodup_cons.mp hnd).1
      exact this (List.mem_append_right rest h)
    have hnd' : (rest ++ i :: l).Nodup := by
      refine List.Nodup.perm hnd ?_
      exact (List.perm_middle).symm
    have hl1 : IsList (Function.update ch i (ch_reset (ch i))) g l := by
      refine IsList_congr l g (fun j hj => ?_) hl
      have hji : j ≠ i := fun e => hil (e ▸ hj)
      rw [Function.update_noteq hji]
    have hl2 := ch_push_isList i hl1 hil
    have hr2 : ∀ j ∈ i :: l,
        ((ch_push (Function.update ch i (ch_reset (ch i))) g i).1 j).isReset := by
      intro j hj
      refine isReset_of_data (ch_push_data _ g i j) ?_
      rcases List.mem_cons.mp hj with e | h
      · subst e; rw [Function.update_same]; exact ch_reset_isReset _
      · have hji : j ≠ i := fun e => hil (e ▸ h)
        rw [Function.update_noteq hji]; exact hr j h
    have ih := SoftPWMBegin_loop_spec rest
      (ch_push (Function.update ch i (ch_reset (ch i))) g i).1
      (ch_push (Function.update ch i (ch_reset (ch i))) g i).2 (i :: l) hl2 hr2 hnd'
    have he : (i :: rest).reverse ++ l = rest.reverse ++ i :: l := by simp
    rw [he]
    simp only [SoftPWMBegin_loop]
    refine ⟨ih.1, ih.2.1, fun j => ?_⟩
    have hd := (data_eq_iff _ _).mp (ch_push_data (Function.update ch i (ch_reset (ch i))) g i j)
    have hu : (Function.update ch i (ch_reset (ch i)) j).pwmvalue = (ch j).pwmvalue ∧
        (Function.update ch i (ch_reset (ch i)) j).checkval = (ch j).checkval := by
      by_cases hji : j = i
      · subst hji; rw [Function.update_same]; exact ⟨rfl, rfl⟩
      · rw [Function.update_noteq hji]; exact ⟨rfl, rfl⟩
    exact ⟨(ih.2.2 j).1.trans (hd.2.2.2.2.1.trans hu.1),
      (ih.2.2 j).2.trans (hd.2.2.2.2.2.1.trans hu.2)⟩

/-- After `SoftPWMBegin`, called on any memory image, the invariant holds with an empty
active list and all records in the free list. -/
theorem SoftPWMBegin_inv (b : Board) (pol : Nat) (s0 : State) (h0 : s0.wellTyped)
    (hpol : pol < 256) :
    Inv b pol (SoftPWMBegin b pol s0) [] (List.finRange SOFTPWM_MAXCHANNELS).reverse := by
  have h := SoftPWMBegin_loop_spec (List.finRange SOFTPWM_MAXCHANNELS) s0._softpwm_channels
    none [] rfl (by simp) (by simpa using List.nodup_finRange SOFTPWM_MAXCHANNELS)
  simp only [List.append_nil] at h
  obtain ⟨h1, h2, h3⟩ := h
  have hall : ∀ i : Fin SOFTPWM_MAXCHANNELS, i ∈ (List.finRange SOFTPWM_MAXCHANNELS).reverse :=
    fun i => List.mem_reverse.mpr (List.mem_finRange i)
  refine
    { used_list := rfl
      free_list := h1
      nodup := by simpa using List.nodup_finRange SOFTPWM_MAXCHANNELS
      all := fun i => Or.inr (hall i)
      used_pin := by simp
      used_line := by simp
      pin_inj := by simp
      free_reset := h2
      bytes := fun i => ?_
      count := h0.1
      defpol := ⟨rfl, hpol⟩ }
  obtain ⟨-, r2, -, r4, r5⟩ := h2 i (hall i)
  have hb := h0.2 i
  have hc : (SoftPWMBegin b pol s0)._softpwm_channels =
      (SoftPWMBegin_loop (List.finRange SOFTPWM_MAXCHANNELS) (s0._softpwm_channels, none)).1 :=
    rfl
  rw [hc, r2, r4, r5, (h3 i).1, (h3 i).2]
  exact ⟨by decide, hb.1, hb.2, by decide, by decide⟩

/-! ## Loops that update every record of a list in place -/

theorem foldl_mapBody (g : softPWMChannel → softPWMChannel)
    (w : Nat → softPWMChannel → (Nat → Nat) → Nat → Nat) :
    ∀ (l : List (Fin SOFTPWM_MAXCHANNELS)) (s : State), l.Nodup →
      l.foldl (fun s i => mapBody g w i s) s = mapResult g w l s
  | [], s, _ => by
    simp [mapResult]
  | a :: l, s, hnd => by
    have hal : a ∉ l := (List.nodup_cons.mp hnd).1
    rw [List.foldl_cons, foldl_mapBody g w l _ (List.nodup_cons.mp hnd).2]
    have hio : l.foldl (fun io i => w (mapBody g w a s)._isr_softcount
          (g ((mapBody g w a s)._softpwm_channels i)) io) (mapBody g w a s).io =
        l.foldl (fun io i => w s._isr_softcount (g (s._softpwm_channels i)) io)
          (w s._isr_softcount (g (s._softpwm_channels a)) s.io) := by
      refine List.foldl_ext _ _ _ (fun io i hi => ?_)
      have hia : i ≠ a := fun e => hal (e ▸ hi)
      show w s._isr_softcount (g (Function.update s._softpwm_channels a _ i)) io = _
      rw [Function.update_noteq hia]
    have hch : (fun j => if j ∈ l then g ((mapBody g w a s)._softpwm_channels j)
          else (mapBody g w a s)._softpwm_channels j) =
        fun j => if j ∈ a :: l then g (s._softpwm_channels j) else s._softpwm_channels j := by
      funext j
      by_cases hja : j = a
      · subst hja
        simp [hal, mapBody]
      · have : (mapBody g w a s)._softpwm_channels j = s._softpwm_channels j := by
          show Function.update s._softpwm_channels a _ j = _
          rw [Function.update_noteq hja]
        simp [this, hja]
    unfold mapResult
    rw [hio, hch]
    rfl

theorem while_mapBody (g : softPWMChannel → softPWMChannel)
    (w : Nat → softPWMChannel → (Nat → Nat) → Nat → Nat) (hg : ∀ c, (g c).next = c.next)
    {s : State} {h : Ptr} {l : List (Fin SOFTPWM_MAXCHANNELS)} {fuel : Nat}
    (hl : IsList s._softpwm_channels h l) (hnd : l.Nodup) (hf : l.length ≤ fuel) :
    while_it (mapBody g w) fuel h s = some (mapResult g w l s) := by
  rw [while_it_eq (mapBody g w) ?_ l fuel h s hl hf, foldl_mapBody g w l s hnd]
  intro i s j
  show (Function.update s._softpwm_channels i _ j).next = _
  by_cases hji : j = i
  · subst hji; rw [Function.update_same, hg]
  · rw [Function.update_noteq hji]

theorem set_body_eq (value : Nat) :
    set_body value = mapBody (fun c => { c with pwmvalue := value }) (fun _ _ io => io) := rfl

theorem setPolarity_body_eq (polarity : Nat) :
    setPolarity_body polarity =
      mapBody (fun c => { c with polarity := polarity }) (fun _ _ io => io) := rfl

theorem isr_wrap_body_eq :
    isr_wrap_body =
      mapBody (fun c => { c with checkval := isr_newcheckval c })
        (fun _ c io => isr_wrap_write c io) := rfl

theorem isr_tick_body_eq : isr_tick_body = mapBody id isr_tick_write := by
  funext i s
  cases s
  simp only [isr_tick_body, mapBody, isr_tick_write, id, Function.update_eq_self]
  split_ifs <;> rfl

/-! ## Consequences of the invariant -/

theorem Inv.used_nodup {b : Board} {pol : Nat} {s : State}
    {used free : List (Fin SOFTPWM_MAXCHANNELS)} (hI : Inv b pol s used free) : used.Nodup :=
  (List.nodup_append.mp hI.nodup).1

theorem Inv.free_nodup {b : Board} {pol : Nat} {s : State}
    {used free : List (Fin SOFTPWM_MAXCHANNELS)} (hI : Inv b pol s used free) : free.Nodup :=
  (List.nodup_append.mp hI.nodup).2.1

theorem Inv.not_free_of_used {b : Board} {pol : Nat} {s : State}
    {used free : List (Fin SOFTPWM_MAXCHANNELS)} (hI : Inv b pol s used free)
    {i : Fin SOFTPWM_MAXCHANNELS} (hi : i ∈ used) : i ∉ free :=
  fun hf => (List.nodup_append.mp hI.nodup).2.2 hi hf

theorem Inv.length_eq {b : Board} {pol : Nat} {s : State}
    {used free : List (Fin SOFTPWM_MAXCHANNELS)} (hI : Inv b pol s used free) :
    used.length + free.length = SOFTPWM_MAXCHANNELS := by
  have h1 : (used ++ free).toFinset = Finset.univ := by
    ext i
    simp only [List.mem_toFinset, List.mem_append, Finset.mem_univ, iff_true]
    exact hI.all i
  have h2 := List.toFinset_card_of_nodup hI.nodup
  rw [h1, Finset.card_univ, Fintype.card_fin, List.length_append] at h2
  exact h2.symm

theorem Inv.used_length_le {b : Board} {pol : Nat} {s : State}
    {used free : List (Fin SOFTPWM_MAXCHANNELS)} (hI : Inv b pol s used free) :
    used.length ≤ SOFTPWM_MAXCHANNELS := by
  have := hI.length_eq
  omega

/-- In a state that satisfies the invariant, `ch_find` on the active list returns the
record bound to the pin when there is one. -/
theorem Inv.find_some {b : Board} {pol : Nat} {s : State}
    {used free : List (Fin SOFTPWM_MAXCHANNELS)} (hI : Inv b pol s used free)
    {i : Fin SOFTPWM_MAXCHANNELS} (hi : i ∈ used) :
    ch_find s._softpwm_channels s.g_used (s._softpwm_channels i).pin = some i := by
  unfold ch_find
  rw [ch_find_loop_eq _ used _ _ (hI.used_list.isList) hI.used_length_le]
  cases hf : used.find? (fun k => decide ((s._softpwm_channels i).pin = (s._softpwm_channels k).pin))
    with
  | none =>
    have := List.find?_eq_none.mp hf i hi
    simp at this
  | some k =>
    have hk := List.mem_of_find?_eq_some hf
    have hp := List.find?_some hf
    simp only [decide_eq_true_eq] at hp
    rw [hI.pin_inj i hi k hk hp]

theorem Inv.find_eq_some {b : Board} {pol : Nat} {s : State}
    {used free : List (Fin SOFTPWM_MAXCHANNELS)} (hI : Inv b pol s used free)
    {p : Int} {i : Fin SOFTPWM_MAXCHANNELS}
    (h : ch_find s._softpwm_channels s.g_used p = some i) :
    i ∈ used ∧ (s._softpwm_channels i).pin = p := by
  unfold ch_find at h
  rw [ch_find_loop_eq _ used _ _ (hI.used_list.isList) hI.used_length_le] at h
  have hp := List.find?_some h
  simp only [decide_eq_true_eq] at hp
  exact ⟨List.mem_of_find?_eq_some h, hp.symm⟩

theorem Inv.find_eq_none {b : Board} {pol : Nat} {s : State}
    {used free : List (Fin SOFTPWM_MAXCHANNELS)} (hI : Inv b pol s used free)
    {p : Int} (h : ch_find s._softpwm_channels s.g_used p = none) :
    ∀ i ∈ used, (s._softpwm_channels i).pin ≠ p := by
  unfold ch_find at h
  rw [ch_find_loop_eq _ used _ _ (hI.used_list.isList) hI.used_length_le] at h
  intro i hi e
  have := List.find?_eq_none.mp h i hi
  simp [e] at this

/-- An update that leaves the heads, the links and the pin binding of every record alone,
keeps free records reset and keeps bytes in range preserves the invariant. -/
theorem Inv.frame {b : Board} {pol : Nat} {s s' : State}
    {used free : List (Fin SOFTPWM_MAXCHANNELS)} (hI : Inv b pol s used free)
    (hu : s'.g_used = s.g_used) (hf : s'.g_free = s.g_free)
    (hc : ∀ j, (s'._softpwm_channels j).next = (s._softpwm_channels j).next ∧
      (s'._softpwm_channels j).prev = (s._softpwm_channels j).prev ∧
      (s'._softpwm_channels j).pin = (s._softpwm_channels j).pin ∧
      (s'._softpwm_channels j).outport = (s._softpwm_channels j).outport ∧
      (s'._softpwm_channels j).pinmask = (s._softpwm_channels j).pinmask)
    (hfree : ∀ j ∈ free, (s'._softpwm_channels j).isReset)
    (hb : ∀ i, (s'._softpwm_channels i).polarity < 256 ∧
      (s'._softpwm_channels i).pwmvalue < 256 ∧ (s'._softpwm_channels i).checkval < 256 ∧
      (s'._softpwm_channels i).fadeuprate < 256 ∧ (s'._softpwm_channels i).fadedownrate < 256)
    (hcount : s'._isr_softcount < 256)
    (hdef : s'._softpwm_defaultPolarity = s._softpwm_defaultPolarity) :
    Inv b pol s' used free where
  used_list := by
    rw [hu]
    exact IsDList_congr used _ _ (fun j _ => ⟨(hc j).1, (hc j).2.1⟩) hI.used_list
  free_list := by
    rw [hf]
    exact IsList_congr free _ (fun j _ => (hc j).1) hI.free_list
  nodup := hI.nodup
  all := hI.all
  used_pin := fun i hi => by rw [(hc i).2.2.1]; exact hI.used_pin i hi
  used_line := fun i hi => by
    rw [(hc i).2.2.1, (hc i).2.2.2.1, (hc i).2.2.2.2]; exact hI.used_line i hi
  pin_inj := fun i hi j hj => by
    rw [(hc i).2.2.1, (hc j).2.2.1]; exact hI.pin_inj i hi j hj
  free_reset := hfree
  bytes := hb
  count := hcount
  defpol := by rw [hdef]; exact hI.defpol

theorem mapResult_channels (g : softPWMChannel → softPWMChannel)
    (w : Nat → softPWMChannel → (Nat → Nat) → Nat → Nat)
    (l : List (Fin SOFTPWM_MAXCHANNELS)) (s : State) (j : Fin SOFTPWM_MAXCHANNELS) :
    (mapResult g w l s)._softpwm_channels j =
      if j ∈ l then g (s._softpwm_channels j) else s._softpwm_channels j := rfl

/-- The invariant after a `mapBody` loop over the active list whose record update keeps
links, pin binding and byte ranges. -/
theorem Inv.map {b : Board} {pol : Nat} {s : State}
    {used free : List (Fin SOFTPWM_MAXCHANNELS)} (hI : Inv b pol s used free)
    (g : softPWMChannel → softPWMChannel)
    (w : Nat → softPWMChannel → (Nat → Nat) → Nat → Nat)
    (hg : ∀ c, (g c).next = c.next ∧ (g c).prev = c.prev ∧ (g c).pin = c.pin ∧
      (g c).outport = c.outport ∧ (g c).pinmask = c.pinmask)
    (hgb : ∀ c, (c.polarity < 256 ∧ c.pwmvalue < 256 ∧ c.checkval < 256 ∧
      c.fadeuprate < 256 ∧ c.fadedownrate < 256) →
      ((g c).polarity < 256 ∧ (g c).pwmvalue < 256 ∧ (g c).checkval < 256 ∧
      (g c).fadeuprate < 256 ∧ (g c).fadedownrate < 256)) :
    Inv b pol (mapResult g w used s) used free := by
  refine hI.frame rfl rfl (fun j => ?_) (fun j hj => ?_) (fun j => ?_) hI.count rfl
  · rw [mapResult_channels]
    split_ifs
    · exact hg _
    · exact ⟨rfl, rfl, rfl, rfl, rfl⟩
  · have hnu : j ∉ used := fun hu => hI.not_free_of_used hu hj
    rw [mapResult_channels, if_neg hnu]
    exact hI.free_reset j hj
  · rw [mapResult_channels]
    split_ifs
    · exact hgb _ (hI.bytes j)
    · exact hI.bytes j

/-- The invariant is not affected by `HARDRESET`. -/
theorem Inv.hardreset {b : Board} {pol : Nat} {s : State}
    {used free : List (Fin SOFTPWM_MAXCHANNELS)} (hI : Inv b pol s used free) (RST : Nat) :
    Inv b pol (HARDRESET RST s) used free := by
  unfold HARDRESET
  split_ifs
  · exact hI.frame rfl rfl (fun _ => ⟨rfl, rfl, rfl, rfl, rfl⟩) hI.free_reset hI.bytes
      (show (0xff : Nat) < 256 by decide) rfl
  · exact hI

theorem HARDRESET_channels (RST : Nat) (s : State) :
    (HARDRESET RST s)._softpwm_channels = s._softpwm_channels := by
  unfold HARDRESET; split_ifs <;> rfl

theorem HARDRESET_g_used (RST : Nat) (s : State) : (HARDRESET RST s).g_used = s.g_used := by
  unfold HARDRESET; split_ifs <;> rfl

theorem HARDRESET_g_free (RST : Nat) (s : State) : (HARDRESET RST s).g_free = s.g_free := by
  unfold HARDRESET; split_ifs <;> rfl

theorem HARDRESET_io (RST : Nat) (s : State) : (HARDRESET RST s).io = s.io := by
  unfold HARDRESET; split_ifs <;> rfl

/-! ## `SoftPWMSet` on a pin that is not active -/

theorem SoftPWMSet_acquire (b : Board) (fuel : Nat) {pin : Int} (value hardset : Nat) {s : State}
    {k : Fin SOFTPWM_MAXCHANNELS} (hp : 0 < pin)
    (hfind : ch_find s._softpwm_channels s.g_used pin = none) (hfree : s.g_free = some k) :
    SoftPWMSet b fuel pin value hardset s = some (HARDRESET hardset (acquired b pin value k s)) := by
  unfold SoftPWMSet
  rw [if_pos hp, hfind, hfree]
  simp only [ch_pop, ch_push_head]
  rfl

theorem acquired_data_self (b : Board) (pin : Int) (value : Nat) (k : Fin SOFTPWM_MAXCHANNELS)
    (s : State) :
    ((acquired b pin value k s)._softpwm_channels k).data =
      (pin, s._softpwm_defaultPolarity, b.portOutputRegister pin, b.digitalPinToBitMask pin,
        value, (s._softpwm_channels k).checkval, (s._softpwm_channels k).fadeuprate,
        (s._softpwm_channels k).fadedownrate) := by
  show ((ch_push _ _ k).1 k).data = _
  rw [ch_push_data, Function.update_same, setNext_self]
  rfl

theorem acquired_data_of_ne (b : Board) (pin : Int) (value : Nat)
    {k j : Fin SOFTPWM_MAXCHANNELS} (s : State) (h : j ≠ k) :
    ((acquired b pin value k s)._softpwm_channels j).data = (s._softpwm_channels j).data := by
  show ((ch_push _ _ k).1 j).data = _
  rw [ch_push_data, Function.update_noteq h, setNext_of_ne _ _ h]

/-- Acquiring the head of the free list for a pin that is not active preserves the
invariant: the record moves to the front of the active list. -/
theorem Inv.acquired {b : Board} {pol : Nat} {s : State} {k : Fin SOFTPWM_MAXCHANNELS}
    {used free : List (Fin SOFTPWM_MAXCHANNELS)} (hI : Inv b pol s used (k :: free))
    {pin : Int} {value : Nat} (hp : 0 < pin) (hp' : pin ≤ 127) (hv : value < 256)
    (hfind : ch_find s._softpwm_channels s.g_used pin = none) :
    Inv b pol (SoftPWM.acquired b pin value k s) (k :: used) free := by
  have hnd := hI.nodup
  have hku : k ∉ used := fun h => hI.not_free_of_used h (List.mem_cons_self k free)
  have hkf : k ∉ free := (List.nodup_cons.mp hI.free_nodup).1
  have hdk := (data_eq_iff _ _).mp
    (show ((SoftPWM.acquired b pin value k s)._softpwm_channels k).data =
      ({ s._softpwm_channels k with
          pin := pin, polarity := s._softpwm_defaultPolarity,
          outport := b.portOutputRegister pin, pinmask := b.digitalPinToBitMask pin,
          pwmvalue := value } : softPWMChannel).data from acquired_data_self b pin value k s)
  have hdo : ∀ j, j ≠ k → _ := fun j hj => (data_eq_iff _ _).mp (acquired_data_of_ne b pin value s hj)
  have hbase : IsDList (Function.update (setNext s._softpwm_channels k none) k
        { setNext s._softpwm_channels k none k with
          pin := pin, polarity := s._softpwm_defaultPolarity,
          outport := b.portOutputRegister pin, pinmask := b.digitalPinToBitMask pin,
          pwmvalue := value, next := none, prev := none }) none s.g_used used := by
    refine IsDList_congr used _ _ (fun j hj => ?_) hI.used_list
    have hjk : j ≠ k := fun e => hku (e ▸ hj)
    rw [Function.update_noteq hjk, setNext_of_ne _ _ hjk]
    exact ⟨rfl, rfl⟩
  have hpush := ch_push_isDList k hbase hI.used_nodup hku
  rw [ch_push_head] at hpush
  refine
    { used_list := hpush
      free_list := ?_
      nodup := ?_
      all := ?_
      used_pin := ?_
      used_line := ?_
      pin_inj := ?_
      free_reset := ?_
      bytes := ?_
      count := hI.count
      defpol := hI.defpol }
  · have h1 : IsList (setNext s._softpwm_channels k none) (s._softpwm_channels k).next free :=
      ch_pop_isList ⟨rfl, hI.free_list.2⟩ hkf
    refine IsList_congr free _ (fun j hj => ?_) h1
    have hjk : j ≠ k := fun e => hkf (e ▸ hj)
    show ((ch_push _ _ k).1 j).next = _
    rw [ch_push_next_of_ne _ _ hjk, Function.update_noteq hjk]
  · have : (used ++ k :: free).Perm (k :: used ++ free) := List.perm_middle
    exact (List.Perm.nodup_iff this).mp hnd
  · intro i
    rcases hI.all i with h | h
    · exact Or.inl (List.mem_cons_of_mem k h)
    · rcases List.mem_cons.mp h with e | h'
      · exact Or.inl (by rw [e]; exact List.mem_cons_self k used)
      · exact Or.inr h'
  · intro i hi
    rcases List.mem_cons.mp hi with e | h
    · subst e; rw [hdk.1]; exact ⟨hp, hp'⟩
    · have hik : i ≠ k := fun e => hku (e ▸ h)
      rw [(hdo i hik).1]; exact hI.used_pin i h
  · intro i hi
    rcases List.mem_cons.mp hi with e | h
    · subst e; rw [hdk.1, hdk.2.2.1, hdk.2.2.2.1]; exact ⟨rfl, rfl⟩
    · have hik : i ≠ k := fun e => hku (e ▸ h)
      rw [(hdo i hik).1, (hdo i hik).2.2.1, (hdo i hik).2.2.2.1]; exact hI.used_line i h
  · have hne := hI.find_eq_none hfind
    intro i hi j hj
    rcases List.mem_cons.mp hi with e | h <;> rcases List.mem_cons.mp hj with e' | h'
    · intro _; rw [e, e']
    · subst e
      have hjk : j ≠ i := fun e => hku (e ▸ h')
      rw [hdk.1, (hdo j hjk).1]
      intro e; exact absurd e.symm (hne j h')
    · subst e'
      have hik : i ≠ j := fun e => hku (e ▸ h)
      rw [hdk.1, (hdo i hik).1]
      intro e; exact absurd e (hne i h)
    · have hik : i ≠ k := fun e => hku (e ▸ h)
      have hjk : j ≠ k := fun e => hku (e ▸ h')
      rw [(hdo i hik).1, (hdo j hjk).1]
      exact hI.pin_inj i h j h'
  · intro i hi
    have hik : i ≠ k := fun e => hkf (e ▸ hi)
    exact isReset_of_data (acquired_data_of_ne b pin value s hik)
      (hI.free_reset i (List.mem_cons_of_mem k hi))
  · intro i
    by_cases hik : i = k
    · subst hik
      rw [hdk.2.1, hdk.2.2.2.2.1, hdk.2.2.2.2.2.1, hdk.2.2.2.2.2.2.1, hdk.2.2.2.2.2.2.2]
      have hb := hI.bytes i
      exact ⟨by rw [hI.defpol.1]; exact hI.defpol.2, hv, hb.2.2.1, hb.2.2.2.1, hb.2.2.2.2⟩
    · have h := hdo i hik
      rw [h.2.1, h.2.2.2.2.1, h.2.2.2.2.2.1, h.2.2.2.2.2.2.1, h.2.2.2.2.2.2.2]
      exact hI.bytes i

/-! ## `SoftPWMEnd` -/

theorem IsList.head_mem {ch : Channels} {j : Fin SOFTPWM_MAXCHANNELS} :
    ∀ {l : List (Fin SOFTPWM_MAXCHANNELS)}, IsList ch (some j) l → j ∈ l
  | [], h => by cases h
  | a :: l, h => by
    have e : some j = some a := h.1
    cases e
    exact List.mem_cons_self _ _

/-- Releasing the active record `k`: the call returns, the record moves to the front of
the free list with its data reset, every other record keeps its data and the order of the
other active records is kept. -/
theorem SoftPWMEnd_spec {b : Board} {pol : Nat} {s : State}
    {used free : List (Fin SOFTPWM_MAXCHANNELS)} (hI : Inv b pol s used free)
    {k : Fin SOFTPWM_MAXCHANNELS} (hk : k ∈ used) :
    ∃ s', SoftPWMEnd b (s._softpwm_channels k).pin s = some s' ∧
      Inv b pol s' (used.erase k) (k :: free) ∧
      (s'._softpwm_channels k).data = (ch_reset (s._softpwm_channels k)).data ∧
      (∀ j, j ≠ k → (s'._softpwm_channels j).data = (s._softpwm_channels j).data) ∧
      s'._isr_softcount = s._isr_softcount ∧
      s'.io = digitalWrite b s.io (s._softpwm_channels k).pin 1 ∧
      s'.pinmode = pinMode s.pinmode (s._softpwm_channels k).pin INPUT ∧
      s'.TCNT = s.TCNT ∧ s'.OCR = s.OCR := by
  obtain ⟨ch', head', hrem, hdl, hout, hdata, -, -⟩ :=
    ch_remove_spec k hI.used_list hI.used_nodup hk
  have hkf : k ∉ free := hI.not_free_of_used hk
  have hpin : (ch' k).pin = (s._softpwm_channels k).pin := ((data_eq_iff _ _).mp (hdata k)).1
  have hfl2 : IsList (Function.update ch' k (ch_reset (ch' k))) s.g_free free := by
    refine IsList_congr free _ (fun j hj => ?_) hI.free_list
    have hju : j ∉ used := fun h => hI.not_free_of_used h hj
    have hjk : j ≠ k := fun e => hkf (e ▸ hj)
    rw [Function.update_noteq hjk, hout j hju]
  have hd : ∀ j, ((ch_push (Function.update ch' k (ch_reset (ch' k))) s.g_free k).1 j).data =
      if j = k then (ch_reset (s._softpwm_channels k)).data else (s._softpwm_channels j).data := by
    intro j
    rw [ch_push_data]
    by_cases hjk : j = k
    · subst hjk
      rw [Function.update_same, if_pos rfl]
      have := (data_eq_iff _ _).mp (hdata j)
      simp only [softPWMChannel.data, ch_reset, this.2.2.2.1, this.2.2.2.2.1, this.2.2.2.2.2.1]
    · rw [Function.update_noteq hjk, if_neg hjk, hdata]
  refine ⟨{ s with
      _softpwm_channels := (ch_push (Function.update ch' k (ch_reset (ch' k))) s.g_free k).1
      g_used := head'
      g_free := (ch_push (Function.update ch' k (ch_reset (ch' k))) s.g_free k).2
      io := digitalWrite b s.io (ch' k).pin 1
      pinmode := pinMode s.pinmode (ch' k).pin INPUT }, ?_, ?_, ?_, ?_, rfl, ?_, ?_, rfl, rfl⟩
  · unfold SoftPWMEnd
    rw [hI.find_some hk]
    simp only [hrem]
  · have hdo : ∀ j, j ≠ k → _ := fun j hj =>
      (data_eq_iff _ _).mp ((hd j).trans (if_neg hj))
    have hdk := (data_eq_iff _ _).mp ((hd k).trans (if_pos rfl))
    have hmem : ∀ j, j ∈ used.erase k → j ≠ k ∧ j ∈ used := fun j hj =>
      (List.Nodup.mem_erase_iff hI.used_nodup).mp hj
    refine
      { used_list := ?_
        free_list := ch_push_isList k hfl2 hkf
        nodup := ?_
        all := ?_
        used_pin := ?_
        used_line := ?_
        pin_inj := ?_
        free_reset := ?_
        bytes := ?_
        count := hI.count
        defpol := hI.defpol }
    · refine IsDList_congr _ _ _ (fun j hj => ?_) hdl
      obtain ⟨hjk, hju⟩ := hmem j hj
      have hgf : s.g_free ≠ some j := by
        intro e
        have hfl := hI.free_list
        rw [e] at hfl
        exact hI.not_free_of_used hju hfl.head_mem
      show ((ch_push _ _ k).1 j).next = _ ∧ ((ch_push _ _ k).1 j).prev = _
      rw [ch_push_next_of_ne _ _ hjk, ch_push_prev_of_ne _ _ hjk hgf, Function.update_noteq hjk]
      exact ⟨rfl, rfl⟩
    · have h1 : (used ++ free).Perm (k :: used.erase k ++ free) :=
        List.Perm.append_right free (List.perm_cons_erase hk)
      have h2 : (k :: used.erase k ++ free).Perm (used.erase k ++ k :: free) :=
        (List.perm_middle).symm
      exact (List.Perm.nodup_iff (h1.trans h2)).mp hI.nodup
    · intro i
      by_cases hik : i = k
      · exact Or.inr (by rw [hik]; exact List.mem_cons_self k free)
      · rcases hI.all i with h | h
        · exact Or.inl ((List.Nodup.mem_erase_iff hI.used_nodup).mpr ⟨hik, h⟩)
        · exact Or.inr (List.mem_cons_of_mem k h)
    · intro i hi
      obtain ⟨hik, hiu⟩ := hmem i hi
      show 0 < ((ch_push _ _ k).1 i).pin ∧ ((ch_push _ _ k).1 i).pin ≤ 127
      rw [(hdo i hik).1]; exact hI.used_pin i hiu
    · intro i hi
      obtain ⟨hik, hiu⟩ := hmem i hi
      show ((ch_push _ _ k).1 i).outport = b.portOutputRegister ((ch_push _ _ k).1 i).pin ∧
        ((ch_push _ _ k).1 i).pinmask = b.digitalPinToBitMask ((ch_push _ _ k).1 i).pin
      rw [(hdo i hik).1, (hdo i hik).2.2.1, (hdo i hik).2.2.2.1]; exact hI.used_line i hiu
    · intro i hi j hj
      obtain ⟨hik, hiu⟩ := hmem i hi
      obtain ⟨hjk, hju⟩ := hmem j hj
      show ((ch_push _ _ k).1 i).pin = ((ch_push _ _ k).1 j).pin → i = j
      rw [(hdo i hik).1, (hdo j hjk).1]; exact hI.pin_inj i hiu j hju
    · intro i hi
      rcases List.mem_cons.mp hi with e | h
      · subst e
        exact isReset_of_data ((hd i).trans (if_pos rfl)) (ch_reset_isReset _)
      · have hik : i ≠ k := fun e => hkf (e ▸ h)
        exact isReset_of_data ((hd i).trans (if_neg hik)) (hI.free_reset i h)
    · intro i
      show ((ch_push _ _ k).1 i).polarity < 256 ∧ ((ch_push _ _ k).1 i).pwmvalue < 256 ∧
        ((ch_push _ _ k).1 i).checkval < 256 ∧ ((ch_push _ _ k).1 i).fadeuprate < 256 ∧
        ((ch_push _ _ k).1 i).fadedownrate < 256
      by_cases hik : i = k
      · subst hik
        rw [hdk.2.1, hdk.2.2.2.2.1, hdk.2.2.2.2.2.1, hdk.2.2.2.2.2.2.1, hdk.2.2.2.2.2.2.2]
        have hb := hI.bytes i
        exact ⟨show (0 : Nat) < 256 by decide, hb.2.1, hb.2.2.1, show (0 : Nat) < 256 by decide,
          show (0 : Nat) < 256 by decide⟩
      · have h := hdo i hik
        rw [h.2.1, h.2.2.2.2.1, h.2.2.2.2.2.1, h.2.2.2.2.2.2.1, h.2.2.2.2.2.2.2]
        exact hI.bytes i
  · exact (hd k).trans (if_pos rfl)
  · intro j hj
    exact (hd j).trans (if_neg hj)
  · show digitalWrite b s.io (ch' k).pin 1 = _
    rw [hpin]
  · show pinMode s.pinmode (ch' k).pin INPUT = _
    rw [hpin]

/-- Releasing a pin that is not active returns the state unchanged. -/
theorem SoftPWMEnd_absent (b : Board) {pin : Int} {s : State}
    (h : ch_find s._softpwm_channels s.g_used pin = none) : SoftPWMEnd b pin s = some s := by
  unfold SoftPWMEnd
  rw [h]

/-! ## `SoftPWMSetFadeTime` -/

theorem fadeAmount_lt (b : Board) (t : Nat) : fadeAmount b t < 256 := by
  unfold fadeAmount
  split_ifs
  · exact Nat.mod_lt _ (by decide)
  · decide

/-- Every record after the loop of `SoftPWMSetFadeTime` is either untouched or has exactly
its two fade rates replaced, and then it was selected by the pin argument. -/
theorem SoftPWMSetFadeTime_loop_spec (b : Board) (pin : Int) (up down : Nat) :
    ∀ (rest : List (Fin SOFTPWM_MAXCHANNELS)) (ch : Channels) (j : Fin SOFTPWM_MAXCHANNELS),
      SoftPWMSetFadeTime_loop b pin up down rest ch j = ch j ∨
      (SoftPWMSetFadeTime_loop b pin up down rest ch j =
          { ch j with fadeuprate := fadeAmount b up, fadedownrate := fadeAmount b down } ∧
        j ∈ rest ∧ ((pin < 0 ∧ (ch j).pin ≥ 0) ∨ (pin ≥ 0 ∧ (ch j).pin = pin)))
  | [], _, _ => Or.inl rfl
  | i :: rest, ch, j => by
    unfold SoftPWMSetFadeTime_loop
    by_cases hc : (pin < 0 ∧ (ch i).pin ≥ 0) ∨ (pin ≥ 0 ∧ (ch i).pin = pin)
    · rw [if_pos hc]
      simp only
      by_cases hp : pin ≥ 0
      · rw [if_pos hp]
        by_cases hji : j = i
        · subst hji
          rw [Function.update_same]
          exact Or.inr ⟨rfl, List.mem_cons_self _ _, hc⟩
        · rw [Function.update_noteq hji]
          exact Or.inl rfl
      · rw [if_neg hp]
        rcases SoftPWMSetFadeTime_loop_spec b pin up down rest
          (Function.update ch i
            { ch i with fadeuprate := fadeAmount b up, fadedownrate := fadeAmount b down }) j
          with h | ⟨h, hm, hcj⟩
        · rw [h]
          by_cases hji : j = i
          · subst hji
            rw [Function.update_same]
            exact Or.inr ⟨rfl, List.mem_cons_self _ _, hc⟩
          · rw [Function.update_noteq hji]
            exact Or.inl rfl
        · rw [h]
          by_cases hji : j = i
          · subst hji
            rw [Function.update_same]
            exact Or.inr ⟨rfl, List.mem_cons_self _ _, hc⟩
          · rw [Function.update_noteq hji] at hcj ⊢
            exact Or.inr ⟨rfl, List.mem_cons_of_mem _ hm, hcj⟩
    · rw [if_neg hc]
      rcases SoftPWMSetFadeTime_loop_spec b pin up down rest ch j with h | ⟨h, hm, hcj⟩
      · exact Or.inl h
      · exact Or.inr ⟨h, List.mem_cons_of_mem _ hm, hcj⟩

theorem Inv.setFadeTime {b : Board} {pol : Nat} {s : State}
    {used free : List (Fin SOFTPWM_MAXCHANNELS)} (hI : Inv b pol s used free)
    (pin : Int) (up down : Nat) :
    Inv b pol (SoftPWMSetFadeTime b pin up down s) used free := by
  have hs : ∀ j, (SoftPWMSetFadeTime b pin up down s)._softpwm_channels j =
      SoftPWMSetFadeTime_loop b pin up down (List.finRange SOFTPWM_MAXCHANNELS)
        s._softpwm_channels j := fun _ => rfl
  refine hI.frame rfl rfl (fun j => ?_) (fun j hj => ?_) (fun j => ?_) hI.count rfl
  · rw [hs]
    rcases SoftPWMSetFadeTime_loop_spec b pin up down _ s._softpwm_channels j with h | ⟨h, -, -⟩
      <;> rw [h] <;> exact ⟨rfl, rfl, rfl, rfl, rfl⟩
  · rw [hs]
    have hr := hI.free_reset j hj
    rcases SoftPWMSetFadeTime_loop_spec b pin up down _ s._softpwm_channels j with h | ⟨-, -, hc⟩
    · rw [h]; exact hr
    · exfalso
      have hpin : (s._softpwm_channels j).pin = -1 := hr.1
      rw [hpin] at hc
      omega
  · rw [hs]
    have hb := hI.bytes j
    rcases SoftPWMSetFadeTime_loop_spec b pin up down _ s._softpwm_channels j with h | ⟨h, -, -⟩
    · rw [h]; exact hb
    · rw [h]
      exact ⟨hb.1, hb.2.1, hb.2.2.1, fadeAmount_lt b up, fadeAmount_lt b down⟩

/-! ## Updates of one active record -/

theorem Inv.update_one {b : Board} {pol : Nat} {s : State}
    {used free : List (Fin SOFTPWM_MAXCHANNELS)} (hI : Inv b pol s used free)
    {i : Fin SOFTPWM_MAXCHANNELS} (hi : i ∈ used) (g : softPWMChannel → softPWMChannel)
    (w : Nat → softPWMChannel → (Nat → Nat) → Nat → Nat)
    (hg : ∀ c, (g c).next = c.next ∧ (g c).prev = c.prev ∧ (g c).pin = c.pin ∧
      (g c).outport = c.outport ∧ (g c).pinmask = c.pinmask)
    (hgb : ∀ c, (c.polarity < 256 ∧ c.pwmvalue < 256 ∧ c.checkval < 256 ∧
      c.fadeuprate < 256 ∧ c.fadedownrate < 256) →
      ((g c).polarity < 256 ∧ (g c).pwmvalue < 256 ∧ (g c).checkval < 256 ∧
      (g c).fadeuprate < 256 ∧ (g c).fadedownrate < 256)) :
    Inv b pol (mapBody g w i s) used free := by
  have hs : ∀ j, (mapBody g w i s)._softpwm_channels j =
      Function.update s._softpwm_channels i (g (s._softpwm_channels i)) j := fun _ => rfl
  refine hI.frame rfl rfl (fun j => ?_) (fun j hj => ?_) (fun j => ?_) hI.count rfl
  · rw [hs]
    by_cases hji : j = i
    · subst hji; rw [Function.update_same]; exact hg _
    · rw [Function.update_noteq hji]; exact ⟨rfl, rfl, rfl, rfl, rfl⟩
  · have hji : j ≠ i := fun e => hI.not_free_of_used hi (e ▸ hj)
    rw [hs, Function.update_noteq hji]
    exact hI.free_reset j hj
  · rw [hs]
    by_cases hji : j = i
    · subst hji; rw [Function.update_same]; exact hgb _ (hI.bytes j)
    · rw [Function.update_noteq hji]; exact hI.bytes j

/-! ## The interrupt -/

theorem emod_256_toNat_lt (x : Int) : (x % 256).toNat < 256 := by
  have h1 := Int.emod_nonneg x (show (256 : Int) ≠ 0 by decide)
  have h2 := Int.emod_lt_of_pos x (show (0 : Int) < 256 by decide)
  omega

theorem isr_newcheckval_lt (c : softPWMChannel) (h : c.pwmvalue < 256) :
    isr_newcheckval c < 256 := by
  unfold isr_newcheckval
  by_cases h0 : c.fadeuprate > 0 ∨ c.fadedownrate > 0
  · rw [if_pos h0]
    exact emod_256_toNat_lt _
  · rw [if_neg h0]
    exact h

theorem Inv.set_count {b : Board} {pol : Nat} {s : State}
    {used free : List (Fin SOFTPWM_MAXCHANNELS)} (hI : Inv b pol s used free) (n : Nat)
    (hn : n < 256) : Inv b pol { s with _isr_softcount := n } used free :=
  hI.frame rfl rfl (fun _ => ⟨rfl, rfl, rfl, rfl, rfl⟩) hI.free_reset hI.bytes hn rfl

/-- At a cycle wrap the interrupt returns and has updated `checkval` of every active
record and written every active pin. -/
theorem tick_wrap {b : Board} {pol : Nat} {s : State}
    {used free : List (Fin SOFTPWM_MAXCHANNELS)} (hI : Inv b pol s used free) {fuel : Nat}
    (hf : used.length ≤ fuel) (hc : s._isr_softcount = 255) :
    SoftPWM_Timer_Interrupt fuel s =
      some (mapResult isr_wrap_g (fun _ c io => isr_wrap_write c io) used
        { s with _isr_softcount := 0 }) := by
  unfold SoftPWM_Timer_Interrupt
  simp only [hc, Nat.reduceAdd, Nat.mod_self, if_true]
  rw [isr_wrap_body_eq]
  exact while_mapBody isr_wrap_g (fun _ c io => isr_wrap_write c io) (fun _ => rfl)
    (s := { s with _isr_softcount := 0 }) hI.used_list.isList hI.used_nodup hf

/-- On any other tick the interrupt returns and has written the pins that reach their
width. -/
theorem tick_nowrap {b : Board} {pol : Nat} {s : State}
    {used free : List (Fin SOFTPWM_MAXCHANNELS)} (hI : Inv b pol s used free) {fuel : Nat}
    (hf : used.length ≤ fuel) (hc : s._isr_softcount ≠ 255) :
    SoftPWM_Timer_Interrupt fuel s =
      some (mapResult id isr_tick_write used
        { s with _isr_softcount := s._isr_softcount + 1 }) := by
  have hlt := hI.count
  have h1 : (s._isr_softcount + 1) % 256 = s._isr_softcount + 1 := Nat.mod_eq_of_lt (by omega)
  unfold SoftPWM_Timer_Interrupt
  simp only [h1, Nat.succ_ne_zero, if_false]
  rw [isr_tick_body_eq]
  exact while_mapBody id isr_tick_write (fun _ => rfl)
    (s := { s with _isr_softcount := s._isr_softcount + 1 }) hI.used_list.isList
    hI.used_nodup hf

theorem Inv.wrap {b : Board} {pol : Nat} {s : State}
    {used free : List (Fin SOFTPWM_MAXCHANNELS)} (hI : Inv b pol s used free) :
    Inv b pol (mapResult isr_wrap_g (fun _ c io => isr_wrap_write c io) used
      { s with _isr_softcount := 0 }) used free :=
  (hI.set_count 0 (by decide)).map _ _ (fun _ => ⟨rfl, rfl, rfl, rfl, rfl⟩)
    (fun c hc => ⟨hc.1, hc.2.1, isr_newcheckval_lt c hc.2.1, hc.2.2.2.1, hc.2.2.2.2⟩ :
      ∀ c, _ → (isr_wrap_g c).polarity < 256 ∧ (isr_wrap_g c).pwmvalue < 256 ∧
        (isr_wrap_g c).checkval < 256 ∧ (isr_wrap_g c).fadeuprate < 256 ∧
        (isr_wrap_g c).fadedownrate < 256)

theorem Inv.nowrap {b : Board} {pol : Nat} {s : State}
    {used free : List (Fin SOFTPWM_MAXCHANNELS)} (hI : Inv b pol s used free)
    (hc : s._isr_softcount ≠ 255) :
    Inv b pol (mapResult id isr_tick_write used
      { s with _isr_softcount := s._isr_softcount + 1 }) used free :=
  (hI.set_count (s._isr_softcount + 1) (by have := hI.count; omega)).map _ _
    (fun _ => ⟨rfl, rfl, rfl, rfl, rfl⟩) (fun _ hc => hc)

/-- The interrupt returns whenever the fuel covers the active list. -/
theorem tick_returns {b : Board} {pol : Nat} {s : State}
    {used free : List (Fin SOFTPWM_MAXCHANNELS)} (hI : Inv b pol s used free) {fuel : Nat}
    (hf : used.length ≤ fuel) :
    ∃ s', SoftPWM_Timer_Interrupt fuel s = some s' ∧ Inv b pol s' used free := by
  by_cases hc : s._isr_softcount = 255
  · exact ⟨_, SoftPWM.tick_wrap hI hf hc, hI.wrap⟩
  · exact ⟨_, SoftPWM.tick_nowrap hI hf hc, hI.nowrap hc⟩

/-! ## Loops that run out of fuel -/

theorem while_it_none (body : Fin SOFTPWM_MAXCHANNELS → State → State)
    (hbody : ∀ i s j, ((body i s)._softpwm_channels j).next = (s._softpwm_channels j).next) :
    ∀ (l : List (Fin SOFTPWM_MAXCHANNELS)) (fuel : Nat) (h : Ptr) (s : State),
      IsList s._softpwm_channels h l → fuel < l.length → while_it body fuel h s = none
  | [], _, _, _, _, hn => by simp at hn
  | j :: l, 0, h, s, hl, _ => by
    have e : h = some j := hl.1
    subst e
    rfl
  | j :: l, fuel + 1, h, s, hl, hn => by
    have e : h = some j := hl.1
    subst e
    simp only [while_it]
    apply while_it_none body hbody l fuel _ (body j s)
    · rw [hbody]
      exact IsList_congr l _ (fun k _ => hbody j s k) hl.2
    · simpa using hn

theorem while_mapBody_some (g : softPWMChannel → softPWMChannel)
    (w : Nat → softPWMChannel → (Nat → Nat) → Nat → Nat) (hg : ∀ c, (g c).next = c.next)
    {s s' : State} {h : Ptr} {l : List (Fin SOFTPWM_MAXCHANNELS)} {fuel : Nat}
    (hl : IsList s._softpwm_channels h l) (hnd : l.Nodup)
    (hrun : while_it (mapBody g w) fuel h s = some s') :
    l.length ≤ fuel ∧ s' = mapResult g w l s := by
  by_cases hf : l.length ≤ fuel
  · rw [while_mapBody g w hg hl hnd hf] at hrun
    exact ⟨hf, (Option.some.inj hrun).symm⟩
  · rw [while_it_none (mapBody g w) ?_ l fuel h s hl (by omega)] at hrun
    · cases hrun
    · intro i s j
      show (Function.update s._softpwm_channels i _ j).next = _
      by_cases hji : j = i
      · subst hji; rw [Function.update_same, hg]
      · rw [Function.update_noteq hji]

theorem tick_some {b : Board} {pol : Nat} {s s' : State}
    {used free : List (Fin SOFTPWM_MAXCHANNELS)} (hI : Inv b pol s used free) {fuel : Nat}
    (hrun : SoftPWM_Timer_Interrupt fuel s = some s') : used.length ≤ fuel := by
  unfold SoftPWM_Timer_Interrupt at hrun
  simp only at hrun
  split_ifs at hrun
  · rw [isr_wrap_body_eq] at hrun
    exact (while_mapBody_some isr_wrap_g (fun _ c io => isr_wrap_write c io) (fun _ => rfl)
      (s := { s with _isr_softcount := (s._isr_softcount + 1) % 256 })
      hI.used_list.isList hI.used_nodup hrun).1
  · rw [isr_tick_body_eq] at hrun
    exact (while_mapBody_some id isr_tick_write (fun _ => rfl)
      (s := { s with _isr_softcount := (s._isr_softcount + 1) % 256 })
      hI.used_list.isList hI.used_nodup hrun).1

/-! ## `SoftPWMSet` and `SoftPWMSetPolarity` on the invariant -/

theorem SoftPWMSet_found (b : Board) (fuel : Nat) {pin : Int} (value hardset : Nat) {s : State}
    {i : Fin SOFTPWM_MAXCHANNELS} (hp : 0 < pin)
    (hfind : ch_find s._softpwm_channels s.g_used pin = some i) :
    SoftPWMSet b fuel pin value hardset s =
      some (HARDRESET hardset (mapBody (set_g value) (fun _ _ io => io) i s)) := by
  unfold SoftPWMSet
  rw [if_pos hp, hfind]
  rfl

theorem SoftPWMSet_exhausted (b : Board) (fuel : Nat) {pin : Int} (value hardset : Nat)
    {s : State} (hp : 0 < pin) (hfind : ch_find s._softpwm_channels s.g_used pin = none)
    (hfree : s.g_free = none) : SoftPWMSet b fuel pin value hardset s = some s := by
  unfold SoftPWMSet
  rw [if_pos hp, hfind, hfree]
  rfl

theorem SoftPWMSet_all {b : Board} {pol : Nat} {s : State}
    {used free : List (Fin SOFTPWM_MAXCHANNELS)} (hI : Inv b pol s used free) {fuel : Nat}
    {pin : Int} (value hardset : Nat) (hp : ¬ 0 < pin) (hf : used.length ≤ fuel) :
    SoftPWMSet b fuel pin value hardset s =
      some (HARDRESET hardset (mapResult (set_g value) (fun _ _ io => io) used s)) := by
  unfold SoftPWMSet
  rw [if_neg hp, set_body_eq]
  have := while_mapBody (set_g value) (fun _ _ io => io) (fun _ => rfl) hI.used_list.isList
    hI.used_nodup hf
  unfold set_g at this
  rw [this]
  rfl

theorem set_g_keeps (value : Nat) (c : softPWMChannel) :
    (set_g value c).next = c.next ∧ (set_g value c).prev = c.prev ∧
      (set_g value c).pin = c.pin ∧ (set_g value c).outport = c.outport ∧
      (set_g value c).pinmask = c.pinmask := ⟨rfl, rfl, rfl, rfl, rfl⟩

theorem set_g_bytes {value : Nat} (hv : value < 256) (c : softPWMChannel)
    (hc : c.polarity < 256 ∧ c.pwmvalue < 256 ∧ c.checkval < 256 ∧
      c.fadeuprate < 256 ∧ c.fadedownrate < 256) :
    (set_g value c).polarity < 256 ∧ (set_g value c).pwmvalue < 256 ∧
      (set_g value c).checkval < 256 ∧ (set_g value c).fadeuprate < 256 ∧
      (set_g value c).fadedownrate < 256 := ⟨hc.1, hv, hc.2.2.1, hc.2.2.2.1, hc.2.2.2.2⟩

theorem pol_g_keeps (polarity : Nat) (c : softPWMChannel) :
    (pol_g polarity c).next = c.next ∧ (pol_g polarity c).prev = c.prev ∧
      (pol_g polarity c).pin = c.pin ∧ (pol_g polarity c).outport = c.outport ∧
      (pol_g polarity c).pinmask = c.pinmask := ⟨rfl, rfl, rfl, rfl, rfl⟩

theorem pol_g_bytes {polarity : Nat} (hv : polarity < 256) (c : softPWMChannel)
    (hc : c.polarity < 256 ∧ c.pwmvalue < 256 ∧ c.checkval < 256 ∧
      c.fadeuprate < 256 ∧ c.fadedownrate < 256) :
    (pol_g polarity c).polarity < 256 ∧ (pol_g polarity c).pwmvalue < 256 ∧
      (pol_g polarity c).checkval < 256 ∧ (pol_g polarity c).fadeuprate < 256 ∧
      (pol_g polarity c).fadedownrate < 256 := ⟨hv, hc.2.1, hc.2.2.1, hc.2.2.2.1, hc.2.2.2.2⟩

/-- The invariant is preserved by `SoftPWMSet` whenever it returns. -/
theorem Inv.set {b : Board} {pol : Nat} {s s' : State}
    {used free : List (Fin SOFTPWM_MAXCHANNELS)} (hI : Inv b pol s used free) {fuel : Nat}
    {pin : Int} {value hardset : Nat} (hpin : isInt8 pin) (hv : value < 256)
    (hrun : SoftPWMSet b fuel pin value hardset s = some s') :
    ∃ used' free', Inv b pol s' used' free' := by
  by_cases hp : 0 < pin
  · cases hfind : ch_find s._softpwm_channels s.g_used pin with
    | some i =>
      rw [SoftPWMSet_found b fuel value hardset hp hfind] at hrun
      cases hrun
      exact ⟨used, free, (hI.update_one (hI.find_eq_some hfind).1 _ _ (set_g_keeps value)
        (set_g_bytes hv)).hardreset hardset⟩
    | none =>
      cases free with
      | nil =>
        have hfree : s.g_free = none := hI.free_list
        rw [SoftPWMSet_exhausted b fuel value hardset hp hfind hfree] at hrun
        cases hrun
        exact ⟨used, [], hI⟩
      | cons k free =>
        have hfree : s.g_free = some k := hI.free_list.1
        rw [SoftPWMSet_acquire b fuel value hardset hp hfind hfree] at hrun
        cases hrun
        exact ⟨k :: used, free, (hI.acquired hp hpin.2 hv hfind).hardreset hardset⟩
  · have hrun' := hrun
    unfold SoftPWMSet at hrun'
    rw [if_neg hp, set_body_eq] at hrun'
    cases hw : while_it (mapBody (fun c => { c with pwmvalue := value }) (fun _ _ io => io)) fuel
      s.g_used s with
    | none => rw [hw] at hrun'; cases hrun'
    | some s1 =>
      have hf := (while_mapBody_some (set_g value) (fun _ _ io => io) (fun _ => rfl)
        hI.used_list.isList hI.used_nodup hw).1
      rw [SoftPWMSet_all hI value hardset hp hf] at hrun
      cases hrun
      exact ⟨used, free, (hI.map _ _ (set_g_keeps value) (set_g_bytes hv)).hardreset hardset⟩

theorem SoftPWMSetPolarity_found (fuel : Nat) {pin : Int} (polarity : Nat) {s : State}
    {i : Fin SOFTPWM_MAXCHANNELS} (hp : 0 < pin)
    (hfind : ch_find s._softpwm_channels s.g_used pin = some i) :
    SoftPWMSetPolarity fuel pin polarity s =
      some (mapBody (pol_g (if polarity ≠ SOFTPWM_NORMAL then SOFTPWM_INVERTED else polarity))
        (fun _ _ io => io) i s) := by
  unfold SoftPWMSetPolarity
  simp only [if_pos hp, hfind]
  rfl

theorem SoftPWMSetPolarity_absent (fuel : Nat) {pin : Int} (polarity : Nat) {s : State}
    (hp : 0 < pin) (hfind : ch_find s._softpwm_channels s.g_used pin = none) :
    SoftPWMSetPolarity fuel pin polarity s = some s := by
  unfold SoftPWMSetPolarity
  simp only [if_pos hp, hfind]

theorem SoftPWMSetPolarity_all {b : Board} {pol : Nat} {s : State}
    {used free : List (Fin SOFTPWM_MAXCHANNELS)} (hI : Inv b pol s used free) {fuel : Nat}
    {pin : Int} (polarity : Nat) (hp : ¬ 0 < pin) (hf : used.length ≤ fuel) :
    SoftPWMSetPolarity fuel pin polarity s =
      some (mapResult (pol_g (if polarity ≠ SOFTPWM_NORMAL then SOFTPWM_INVERTED else polarity))
        (fun _ _ io => io) used s) := by
  unfold SoftPWMSetPolarity
  simp only [if_neg hp, setPolarity_body_eq]
  exact while_mapBody (pol_g _) (fun _ _ io => io) (fun _ => rfl) hI.used_list.isList
    hI.used_nodup hf

theorem normalised_polarity_lt (polarity : Nat) :
    (if polarity ≠ SOFTPWM_NORMAL then SOFTPWM_INVERTED else polarity) < 256 := by
  unfold SOFTPWM_NORMAL SOFTPWM_INVERTED
  split_ifs <;> omega

/-- The invariant is preserved by `SoftPWMSetPolarity` whenever it returns. -/
theorem Inv.setPolarity {b : Board} {pol : Nat} {s s' : State}
    {used free : List (Fin SOFTPWM_MAXCHANNELS)} (hI : Inv b pol s used free) {fuel : Nat}
    {pin : Int} {polarity : Nat}
    (hrun : SoftPWMSetPolarity fuel pin polarity s = some s') :
    Inv b pol s' used free := by
  by_cases hp : 0 < pin
  · cases hfind : ch_find s._softpwm_channels s.g_used pin with
    | some i =>
      rw [SoftPWMSetPolarity_found fuel polarity hp hfind] at hrun
      cases hrun
      exact hI.update_one (hI.find_eq_some hfind).1 _ _ (pol_g_keeps _)
        (pol_g_bytes (normalised_polarity_lt polarity))
    | none =>
      rw [SoftPWMSetPolarity_absent fuel polarity hp hfind] at hrun
      cases hrun
      exact hI
  · have hrun' := hrun
    unfold SoftPWMSetPolarity at hrun'
    simp only [if_neg hp, setPolarity_body_eq] at hrun'
    have hf := (while_mapBody_some
      (pol_g (if polarity ≠ SOFTPWM_NORMAL then SOFTPWM_INVERTED else polarity))
      (fun _ _ io => io) (fun _ => rfl) hI.used_list.isList hI.used_nodup hrun').1
    rw [SoftPWMSetPolarity_all hI polarity hp hf] at hrun
    cases hrun
    exact hI.map _ _ (pol_g_keeps _) (pol_g_bytes (normalised_polarity_lt polarity))

/-! ## The invariant holds in every reachable state -/

theorem Inv.end {b : Board} {pol : Nat} {s s' : State}
    {used free : List (Fin SOFTPWM_MAXCHANNELS)} (hI : Inv b pol s used free) {pin : Int}
    (hrun : SoftPWMEnd b pin s = some s') : ∃ used' free', Inv b pol s' used' free' := by
  cases hfind : ch_find s._softpwm_channels s.g_used pin with
  | none =>
    rw [SoftPWMEnd_absent b hfind] at hrun
    cases hrun
    exact ⟨used, free, hI⟩
  | some k =>
    obtain ⟨hk, hp⟩ := hI.find_eq_some hfind
    obtain ⟨s'', h1, h2, -⟩ := SoftPWMEnd_spec hI hk
    rw [hp, hrun] at h1
    cases h1
    exact ⟨_, _, h2⟩

theorem Inv.step {b : Board} {pol : Nat} {s s' : State}
    {used free : List (Fin SOFTPWM_MAXCHANNELS)} (hI : Inv b pol s used free) {op : Op}
    {fuel : Nat} (hop : op.wellTyped) (hrun : op.run b fuel s = some s') :
    ∃ used' free', Inv b pol s' used' free' := by
  cases op with
  | Set pin value hardset => exact hI.set hop.1 hop.2.1 hrun
  | SetPercent pin percent hardset =>
    exact hI.set hop.1 (Nat.mod_lt _ (by decide)) hrun
  | SetFadeTime pin up down =>
    cases hrun
    exact ⟨used, free, hI.setFadeTime pin up down⟩
  | SetPolarity pin polarity => exact ⟨used, free, hI.setPolarity hrun⟩
  | End pin => exact hI.end hrun
  | Tick =>
    obtain ⟨s'', h1, h2⟩ := tick_returns hI (tick_some hI hrun)
    have hrun' : SoftPWM_Timer_Interrupt fuel s = some s' := hrun
    rw [hrun'] at h1
    cases h1
    exact ⟨used, free, h2⟩

/-- Every reachable state satisfies the invariant of the pool. -/
theorem Reachable.inv {b : Board} {pol : Nat} {s : State} (h : Reachable b pol s) :
    ∃ used free, Inv b pol s used free := by
  induction h with
  | begin s0 h0 hpol => exact ⟨_, _, SoftPWMBegin_inv b pol s0 h0 hpol⟩
  | step op fuel s s' _ hop hrun ih =>
    obtain ⟨used, free, hI⟩ := ih
    exact hI.step hop hrun

/-- From a state that satisfies the invariant every well-typed call returns once the fuel
covers the pool. -/
theorem Inv.returns {b : Board} {pol : Nat} {s : State}
    {used free : List (Fin SOFTPWM_MAXCHANNELS)} (hI : Inv b pol s used free) (op : Op)
    {fuel : Nat} (hf : SOFTPWM_MAXCHANNELS ≤ fuel) : ∃ s', op.run b fuel s = some s' := by
  have hlen : used.length ≤ fuel := le_trans hI.used_length_le hf
  have hset : ∀ pin value hardset, ∃ s', SoftPWMSet b fuel pin value hardset s = some s' := by
    intro pin value hardset
    by_cases hp : 0 < pin
    · cases hfind : ch_find s._softpwm_channels s.g_used pin with
      | some i => exact ⟨_, SoftPWMSet_found b fuel value hardset hp hfind⟩
      | none =>
        cases hfree : s.g_free with
        | none => exact ⟨_, SoftPWMSet_exhausted b fuel value hardset hp hfind hfree⟩
        | some k => exact ⟨_, SoftPWMSet_acquire b fuel value hardset hp hfind hfree⟩
    · exact ⟨_, SoftPWMSet_all hI value hardset hp hlen⟩
  cases op with
  | Set pin value hardset => exact hset pin value hardset
  | SetPercent pin percent hardset => exact hset pin _ hardset
  | SetFadeTime pin up down => exact ⟨_, rfl⟩
  | SetPolarity pin polarity =>
    by_cases hp : 0 < pin
    · cases hfind : ch_find s._softpwm_channels s.g_used pin with
      | some i => exact ⟨_, SoftPWMSetPolarity_found fuel polarity hp hfind⟩
      | none => exact ⟨_, SoftPWMSetPolarity_absent fuel polarity hp hfind⟩
    · exact ⟨_, SoftPWMSetPolarity_all hI polarity hp hlen⟩
  | End pin =>
    cases hfind : ch_find s._softpwm_channels s.g_used pin with
    | none => exact ⟨_, SoftPWMEnd_absent b hfind⟩
    | some k =>
      obtain ⟨hk, hp⟩ := hI.find_eq_some hfind
      obtain ⟨s', h1, -⟩ := SoftPWMEnd_spec hI hk
      rw [hp] at h1
      exact ⟨s', h1⟩
  | Tick =>
    obtain ⟨s', h1, -⟩ := tick_returns hI hlen
    exact ⟨s', h1⟩

/-! ## A concrete board and two concrete reachable states -/

theorem boot_wellTyped : boot.wellTyped :=
  ⟨show (0xff : Nat) < 256 by decide,
    fun _ => ⟨show (0 : Nat) < 256 by decide, show (0 : Nat) < 256 by decide⟩⟩

theorem freshPool_reachable : Reachable unoBoard SOFTPWM_NORMAL freshPool :=
  Reachable.begin boot boot_wellTyped (by decide)

theorem pin5Pool_run : (Op.Set 5 128 0).run unoBoard 0 freshPool = some pin5Pool :=
  show SoftPWMSet unoBoard 0 5 128 0 freshPool =
      some (HARDRESET 0 (acquired unoBoard 5 128 19 freshPool)) from
    SoftPWMSet_acquire unoBoard 0 128 0 (by decide) (by decide) (by decide)

theorem pin5Pool_reachable : Reachable unoBoard SOFTPWM_NORMAL pin5Pool :=
  Reachable.step (Op.Set 5 128 0) 0 freshPool pin5Pool freshPool_reachable (by decide)
    pin5Pool_run

/-! ## Pool membership and pin uniqueness -/

theorem mapBody_channels (g : softPWMChannel → softPWMChannel)
    (w : Nat → softPWMChannel → (Nat → Nat) → Nat → Nat)
    (i j : Fin SOFTPWM_MAXCHANNELS) (s : State) :
    (mapBody g w i s)._softpwm_channels j =
      if j = i then g (s._softpwm_channels j) else s._softpwm_channels j := by
  show Function.update s._softpwm_channels i _ j = _
  by_cases hji : j = i
  · subst hji; rw [Function.update_same, if_pos rfl]
  · rw [Function.update_noteq hji, if_neg hji]

/-- C1: in every state reachable from `SoftPWMBegin` by any sequence of `SoftPWMSet`,
`SoftPWMSetPercent`, `SoftPWMSetFadeTime`, `SoftPWMSetPolarity`, `SoftPWMEnd` and timer
interrupts, the `next` chains from `g_used` and `g_free` are proper lists, each of the 20
records occurs exactly once in one of them and not at all in the other, the two lengths add
up to 20 and the active list holds at most 20 records. -/
theorem pool_partition (b : Board) (pol : Nat) (s : State) (h : Reachable b pol s) :
    ∃ used free : List (Fin SOFTPWM_MAXCHANNELS),
      IsList s._softpwm_channels s.g_used used ∧ IsList s._softpwm_channels s.g_free free ∧
      (∀ i, (used.count i = 1 ∧ free.count i = 0) ∨ (used.count i = 0 ∧ free.count i = 1)) ∧
      used.length + free.length = SOFTPWM_MAXCHANNELS ∧ used.length ≤ SOFTPWM_MAXCHANNELS := by
  obtain ⟨used, free, hI⟩ := h.inv
  refine ⟨used, free, hI.used_list.isList, hI.free_list, fun i => ?_, hI.length_eq,
    hI.used_length_le⟩
  rcases hI.all i with hu | hf
  · exact Or.inl ⟨List.count_eq_one_of_mem hI.used_nodup hu,
      List.count_eq_zero_of_not_mem (hI.not_free_of_used hu)⟩
  · have hnu : i ∉ used := fun hu => hI.not_free_of_used hu hf
    exact Or.inr ⟨List.count_eq_zero_of_not_mem hnu, List.count_eq_one_of_mem hI.free_nodup hf⟩

theorem pool_partition_witness :
    Reachable unoBoard SOFTPWM_NORMAL pin5Pool ∧
    ∃ used free : List (Fin SOFTPWM_MAXCHANNELS),
      IsList pin5Pool._softpwm_channels pin5Pool.g_used used ∧
      IsList pin5Pool._softpwm_channels pin5Pool.g_free free ∧
      (∀ i, (used.count i = 1 ∧ free.count i = 0) ∨ (used.count i = 0 ∧ free.count i = 1)) ∧
      used.length + free.length = SOFTPWM_MAXCHANNELS ∧ used.length ≤ SOFTPWM_MAXCHANNELS :=
  ⟨pin5Pool_reachable, pool_partition unoBoard SOFTPWM_NORMAL pin5Pool pin5Pool_reachable⟩

/-- C2: in every reachable state the pins of the records of the active list are pairwise
distinct, and `SoftPWMSet` on the pin of an active record returns with the same active
list and the same free list: it acquires no second record for the pin. -/
theorem active_pins_unique (b : Board) (pol : Nat) (s : State) (h : Reachable b pol s) :
    ∃ used free : List (Fin SOFTPWM_MAXCHANNELS),
      IsList s._softpwm_channels s.g_used used ∧ IsList s._softpwm_channels s.g_free free ∧
      (used.map (fun i => (s._softpwm_channels i).pin)).Nodup ∧
      ∀ i ∈ used, ∀ (value hardset fuel : Nat),
        ∃ s', SoftPWMSet b fuel (s._softpwm_channels i).pin value hardset s = some s' ∧
          IsList s'._softpwm_channels s'.g_used used ∧
          IsList s'._softpwm_channels s'.g_free free ∧
          ∀ j, (s'._softpwm_channels j).pin = (s._softpwm_channels j).pin := by
  obtain ⟨used, free, hI⟩ := h.inv
  refine ⟨used, free, hI.used_list.isList, hI.free_list, ?_, ?_⟩
  · exact List.Nodup.map_on (fun i hi j hj e => hI.pin_inj i hi j hj e) hI.used_nodup
  · intro i hi value hardset fuel
    have hc : ∀ j, ((HARDRESET hardset
        (mapBody (set_g value) (fun _ _ io => io) i s))._softpwm_channels j).next =
          (s._softpwm_channels j).next ∧
        ((HARDRESET hardset
          (mapBody (set_g value) (fun _ _ io => io) i s))._softpwm_channels j).pin =
          (s._softpwm_channels j).pin := by
      intro j
      rw [HARDRESET_channels, mapBody_channels]
      split_ifs <;> exact ⟨rfl, rfl⟩
    refine ⟨_, SoftPWMSet_found b fuel value hardset (hI.used_pin i hi).1 (hI.find_some hi),
      ?_, ?_, fun j => (hc j).2⟩
    · rw [HARDRESET_g_used]
      exact IsList_congr used _ (fun j _ => (hc j).1) hI.used_list.isList
    · rw [HARDRESET_g_free]
      exact IsList_congr free _ (fun j _ => (hc j).1) hI.free_list

theorem active_pins_unique_witness :
    Reachable unoBoard SOFTPWM_NORMAL pin5Pool ∧
    ∃ used free : List (Fin SOFTPWM_MAXCHANNELS),
      IsList pin5Pool._softpwm_channels pin5Pool.g_used used ∧
      IsList pin5Pool._softpwm_channels pin5Pool.g_free free ∧
      (used.map (fun i => (pin5Pool._softpwm_channels i).pin)).Nodup ∧
      ∀ i ∈ used, ∀ (value hardset fuel : Nat),
        ∃ s', SoftPWMSet unoBoard fuel (pin5Pool._softpwm_channels i).pin value hardset
            pin5Pool = some s' ∧
          IsList s'._softpwm_channels s'.g_used used ∧
          IsList s'._softpwm_channels s'.g_free free ∧
          ∀ j, (s'._softpwm_channels j).pin = (pin5Pool._softpwm_channels j).pin :=
  ⟨pin5Pool_reachable, active_pins_unique unoBoard SOFTPWM_NORMAL pin5Pool pin5Pool_reachable⟩

/-! ## Bits of the output registers -/

theorem or_and_self (x m : Nat) : (x ||| m) &&& m = m := by
  apply Nat.eq_of_testBit_eq
  intro i
  simp only [Nat.testBit_and, Nat.testBit_or]
  cases x.testBit i <;> cases m.testBit i <;> rfl

theorem testBit_of_lt_256 {m : Nat} (hm : m < 256) {i : Nat} (hi : 8 ≤ i) :
    m.testBit i = false := by
  apply Nat.testBit_lt_two_pow
  calc m < 2 ^ 8 := hm
    _ ≤ 2 ^ i := Nat.pow_le_pow_right (by decide) hi

theorem testBit_255 (i : Nat) : Nat.testBit 255 i = decide (i < 8) := by
  have : (255 : Nat) = 2 ^ 8 - 1 := by decide
  rw [this, Nat.testBit_two_pow_sub_one]

theorem clear_and_self (x : Nat) {m : Nat} (hm : m < 256) : (x &&& (0xff ^^^ m)) &&& m = 0 := by
  apply Nat.eq_of_testBit_eq
  intro i
  simp only [Nat.testBit_and, Nat.testBit_xor, Nat.zero_testBit, testBit_255]
  by_cases hi : i < 8
  · simp [hi]
  · rw [testBit_of_lt_256 hm (by omega)]
    simp

theorem and_eq_zero_testBit {a m : Nat} (h : a &&& m = 0) (i : Nat) :
    (a.testBit i && m.testBit i) = false := by
  rw [← Nat.testBit_and, h, Nat.zero_testBit]

theorem or_and_disjoint (x : Nat) {a m : Nat} (h : a &&& m = 0) : (x ||| a) &&& m = x &&& m := by
  apply Nat.eq_of_testBit_eq
  intro i
  have := and_eq_zero_testBit h i
  simp only [Nat.testBit_and, Nat.testBit_or]
  cases x.testBit i <;> cases hm : m.testBit i <;> cases ha : a.testBit i <;> simp_all

theorem clear_and_disjoint (x : Nat) {a m : Nat} (h : a &&& m = 0) (hm : m < 256) :
    (x &&& (0xff ^^^ a)) &&& m = x &&& m := by
  apply Nat.eq_of_testBit_eq
  intro i
  have := and_eq_zero_testBit h i
  simp only [Nat.testBit_and, Nat.testBit_xor, testBit_255]
  by_cases hi : i < 8
  · cases x.testBit i <;> cases hm : m.testBit i <;> cases ha : a.testBit i <;> simp_all
  · rw [testBit_of_lt_256 hm (by omega)]
    simp

theorem portSet_self (io : Nat → Nat) (r m : Nat) : portSet io r m r &&& m = m := by
  unfold portSet
  rw [Function.update_same, or_and_self]

theorem portClear_self (io : Nat → Nat) (r : Nat) {m : Nat} (hm : m < 256) :
    portClear io r m r &&& m = 0 := by
  unfold portClear
  rw [Function.update_same, clear_and_self _ hm]

theorem portSet_other (io : Nat → Nat) {r a r' m : Nat} (h : linesDisjoint r a r' m) :
    portSet io r a r' &&& m = io r' &&& m := by
  unfold portSet
  by_cases hr : r' = r
  · subst hr
    rw [Function.update_same, or_and_disjoint _ (h rfl)]
  · rw [Function.update_noteq hr]

theorem portClear_other (io : Nat → Nat) {r a r' m : Nat} (h : linesDisjoint r a r' m)
    (hm : m < 256) : portClear io r a r' &&& m = io r' &&& m := by
  unfold portClear
  by_cases hr : r' = r
  · subst hr
    rw [Function.update_same, clear_and_disjoint _ (h rfl) hm]
  · rw [Function.update_noteq hr]

/-- The bits of line `(r, m)` after a loop of writes, when exactly the write of record `k`
concerns the line and its effect on the line is `f`. -/
theorem foldl_line (W : Fin SOFTPWM_MAXCHANNELS → (Nat → Nat) → Nat → Nat) (r m : Nat)
    (k : Fin SOFTPWM_MAXCHANNELS) (f : Nat → Nat)
    (hk : ∀ io, W k io r &&& m = f (io r &&& m)) :
    ∀ (l : List (Fin SOFTPWM_MAXCHANNELS)) (io : Nat → Nat), l.Nodup →
      (∀ i ∈ l, i ≠ k → ∀ io, W i io r &&& m = io r &&& m) →
      (l.foldl (fun io i => W i io) io) r &&& m =
        if k ∈ l then f (io r &&& m) else io r &&& m
  | [], io, _, _ => by simp
  | a :: l, io, hnd, ho => by
    have hal : a ∉ l := (List.nodup_cons.mp hnd).1
    rw [List.foldl_cons,
      foldl_line W r m k f hk l (W a io) (List.nodup_cons.mp hnd).2
        (fun i hi => ho i (List.mem_cons_of_mem a hi))]
    by_cases hak : a = k
    · subst hak
      rw [if_neg hal, if_pos (List.mem_cons_self _ _), hk]
    · have hw := ho a (List.mem_cons_self _ _) hak io
      rw [hw]
      by_cases hkl : k ∈ l
      · rw [if_pos hkl, if_pos (List.mem_cons_of_mem a hkl)]
      · have : k ∉ a :: l := fun h => by
          rcases List.mem_cons.mp h with e | h'
          · exact hak e.symm
          · exact hkl h'
        rw [if_neg hkl, if_neg this]

/-! ## The level of an active pin after one interrupt -/

theorem Inv.other_disjoint {b : Board} {pol : Nat} {s : State}
    {used free : List (Fin SOFTPWM_MAXCHANNELS)} (hI : Inv b pol s used free)
    {k : Fin SOFTPWM_MAXCHANNELS} (hk : k ∈ used)
    (hB : b.ownsLine (s._softpwm_channels k).pin) {i : Fin SOFTPWM_MAXCHANNELS} (hi : i ∈ used)
    (hik : i ≠ k) :
    linesDisjoint (s._softpwm_channels i).outport (s._softpwm_channels i).pinmask
      (b.portOutputRegister (s._softpwm_channels k).pin)
      (b.digitalPinToBitMask (s._softpwm_channels k).pin) := by
  have hp := hI.used_pin i hi
  have hl := hI.used_line i hi
  have hne : (s._softpwm_channels i).pin ≠ (s._softpwm_channels k).pin :=
    fun e => hik (hI.pin_inj i hi k hk e)
  unfold linesDisjoint
  rw [hl.1, hl.2]
  exact hB.2.2 _ hp.1 hp.2 hne

theorem isr_wrap_write_other (c : softPWMChannel) (io : Nat → Nat) {r m : Nat}
    (h : linesDisjoint c.outport c.pinmask r m) (hm : m < 256) :
    isr_wrap_write c io r &&& m = io r &&& m := by
  unfold isr_wrap_write
  split_ifs
  · exact portClear_other io h hm
  · exact portSet_other io h
  · exact portSet_other io h
  · exact portClear_other io h hm

theorem isr_tick_write_other (cnt : Nat) (c : softPWMChannel) (io : Nat → Nat) {r m : Nat}
    (h : linesDisjoint c.outport c.pinmask r m) (hm : m < 256) :
    isr_tick_write cnt c io r &&& m = io r &&& m := by
  unfold isr_tick_write
  split_ifs
  · exact portClear_other io h hm
  · exact portSet_other io h
  · rfl
  · rfl

theorem lineLevel_set (io : Nat → Nat) (r : Nat) {m : Nat} (hm : m ≠ 0) :
    lineLevel (portSet io r m) r m = HIGH := by
  unfold lineLevel
  rw [portSet_self, if_neg hm]

theorem lineLevel_clear (io : Nat → Nat) (r : Nat) {m : Nat} (hm : m < 256) :
    lineLevel (portClear io r m) r m = LOW := by
  unfold lineLevel
  rw [portClear_self io r hm, if_pos rfl]

/-- The level of the pin of active record `k` after the interrupt of a cycle wrap. -/
theorem wrap_level {b : Board} {pol : Nat} {s : State}
    {used free : List (Fin SOFTPWM_MAXCHANNELS)} (hI : Inv b pol s used free)
    {k : Fin SOFTPWM_MAXCHANNELS} (hk : k ∈ used)
    (hB : b.ownsLine (s._softpwm_channels k).pin) :
    pinLevel b (mapResult isr_wrap_g (fun _ c io => isr_wrap_write c io) used
        { s with _isr_softcount := 0 }) (s._softpwm_channels k).pin =
      if isr_newcheckval (s._softpwm_channels k) = 0
      then offLevel (s._softpwm_channels k).polarity
      else onLevel (s._softpwm_channels k).polarity := by
  have hl := hI.used_line k hk
  have hfold := foldl_line
    (fun i io => isr_wrap_write (isr_wrap_g (s._softpwm_channels i)) io)
    (b.portOutputRegister (s._softpwm_channels k).pin)
    (b.digitalPinToBitMask (s._softpwm_channels k).pin) k
    (fun _ => if isr_newcheckval (s._softpwm_channels k) = 0
      then (if (s._softpwm_channels k).polarity = SOFTPWM_NORMAL then 0
        else b.digitalPinToBitMask (s._softpwm_channels k).pin)
      else (if (s._softpwm_channels k).polarity = SOFTPWM_NORMAL
        then b.digitalPinToBitMask (s._softpwm_channels k).pin else 0))
    (by
      intro io
      show isr_wrap_write (isr_wrap_g (s._softpwm_channels k)) io _ &&& _ = _
      unfold isr_wrap_write
      simp only [isr_wrap_g, hl.1, hl.2]
      split_ifs
      · exact portClear_self io _ hB.2.1
      · exact portSet_self io _ _
      · exact portSet_self io _ _
      · exact portClear_self io _ hB.2.1)
    used s.io hI.used_nodup
    (fun i hi hik io =>
      isr_wrap_write_other _ io (hI.other_disjoint hk hB hi hik) hB.2.1)
  rw [if_pos hk] at hfold
  have hio : (mapResult isr_wrap_g (fun _ c io => isr_wrap_write c io) used
      { s with _isr_softcount := 0 }).io (b.portOutputRegister (s._softpwm_channels k).pin) &&&
        b.digitalPinToBitMask (s._softpwm_channels k).pin =
      if isr_newcheckval (s._softpwm_channels k) = 0
      then (if (s._softpwm_channels k).polarity = SOFTPWM_NORMAL then 0
        else b.digitalPinToBitMask (s._softpwm_channels k).pin)
      else (if (s._softpwm_channels k).polarity = SOFTPWM_NORMAL
        then b.digitalPinToBitMask (s._softpwm_channels k).pin else 0) := hfold
  unfold pinLevel lineLevel
  rw [hio]
  unfold offLevel onLevel
  have hm := hB.1
  split_ifs <;> simp_all

/-- The level of the pin of active record `k` after an interrupt that is not a wrap. -/
theorem nowrap_level {b : Board} {pol : Nat} {s : State}
    {used free : List (Fin SOFTPWM_MAXCHANNELS)} (hI : Inv b pol s used free)
    {k : Fin SOFTPWM_MAXCHANNELS} (hk : k ∈ used)
    (hB : b.ownsLine (s._softpwm_channels k).pin) :
    pinLevel b (mapResult id isr_tick_write used
        { s with _isr_softcount := s._isr_softcount + 1 }) (s._softpwm_channels k).pin =
      if (s._softpwm_channels k).checkval ≠ 0 ∧ (s._softpwm_channels k).checkval ≠ 255 ∧
          (s._softpwm_channels k).checkval = s._isr_softcount + 1
      then offLevel (s._softpwm_channels k).polarity
      else pinLevel b s (s._softpwm_channels k).pin := by
  have hl := hI.used_line k hk
  have hfold := foldl_line
    (fun i io => isr_tick_write (s._isr_softcount + 1) (s._softpwm_channels i) io)
    (b.portOutputRegister (s._softpwm_channels k).pin)
    (b.digitalPinToBitMask (s._softpwm_channels k).pin) k
    (fun x => if (s._softpwm_channels k).checkval ≠ 0 ∧ (s._softpwm_channels k).checkval ≠ 255 ∧
          (s._softpwm_channels k).checkval = s._isr_softcount + 1
      then (if (s._softpwm_channels k).polarity = SOFTPWM_NORMAL then 0
        else b.digitalPinToBitMask (s._softpwm_channels k).pin)
      else x)
    (by
      intro io
      show isr_tick_write _ (s._softpwm_channels k) io _ &&& _ = _
      unfold isr_tick_write
      simp only [hl.1, hl.2]
      by_cases hc : (s._softpwm_channels k).checkval ≠ 0 ∧
          (s._softpwm_channels k).checkval ≠ 255 ∧
          (s._softpwm_channels k).checkval = s._isr_softcount + 1
      · have h1 : (s._softpwm_channels k).checkval ≠ 0 ∧
            (s._softpwm_channels k).checkval ≠ 255 := ⟨hc.1, hc.2.1⟩
        rw [if_pos h1, if_pos hc.2.2, if_pos hc]
        by_cases hp : (s._softpwm_channels k).polarity = SOFTPWM_NORMAL
        · rw [if_pos hp, if_pos hp]
          exact portClear_self io _ hB.2.1
        · rw [if_neg hp, if_neg hp]
          exact portSet_self io _ _
      · rw [if_neg hc]
        by_cases h1 : (s._softpwm_channels k).checkval ≠ 0 ∧
            (s._softpwm_channels k).checkval ≠ 255
        · rw [if_pos h1, if_neg (fun e => hc ⟨h1.1, h1.2, e⟩)]
        · rw [if_neg h1])
    used s.io hI.used_nodup
    (fun i hi hik io =>
      isr_tick_write_other _ _ io (hI.other_disjoint hk hB hi hik) hB.2.1)
  rw [if_pos hk] at hfold
  have hio : (mapResult id isr_tick_write used
      { s with _isr_softcount := s._isr_softcount + 1 }).io
        (b.portOutputRegister (s._softpwm_channels k).pin) &&&
        b.digitalPinToBitMask (s._softpwm_channels k).pin =
      if (s._softpwm_channels k).checkval ≠ 0 ∧ (s._softpwm_channels k).checkval ≠ 255 ∧
          (s._softpwm_channels k).checkval = s._isr_softcount + 1
      then (if (s._softpwm_channels k).polarity = SOFTPWM_NORMAL then 0
        else b.digitalPinToBitMask (s._softpwm_channels k).pin)
      else s.io (b.portOutputRegister (s._softpwm_channels k).pin) &&&
        b.digitalPinToBitMask (s._softpwm_channels k).pin := hfold
  unfold pinLevel lineLevel
  rw [hio]
  unfold offLevel
  have hm := hB.1
  split_ifs <;> simp_all

/-! ## Runs of interrupts -/

theorem ticks_add (fuel : Nat) : ∀ (m n : Nat) (s : State),
    ticks fuel (m + n) s = (ticks fuel m s).bind (ticks fuel n)
  | 0, n, s => by simp [ticks]
  | m + 1, n, s => by
    have e : m + 1 + n = (m + n) + 1 := by omega
    rw [e]
    simp only [ticks]
    cases SoftPWM_Timer_Interrupt fuel s with
    | none => rfl
    | some s1 => exact ticks_add fuel m n s1

theorem some_bind_eq {α β : Type} (a : α) (f : α → Option β) : (some a).bind f = f a := rfl

theorem ticks_one (fuel : Nat) (s : State) :
    ticks fuel 1 s = SoftPWM_Timer_Interrupt fuel s := by
  show (SoftPWM_Timer_Interrupt fuel s).bind (ticks fuel 0) = _
  cases SoftPWM_Timer_Interrupt fuel s <;> rfl

theorem mapResult_id_channels (w : Nat → softPWMChannel → (Nat → Nat) → Nat → Nat)
    (l : List (Fin SOFTPWM_MAXCHANNELS)) (s : State) :
    (mapResult id w l s)._softpwm_channels = s._softpwm_channels := by
  funext j
  rw [mapResult_channels]
  split_ifs <;> rfl

/-- Interrupts that stay below the wrap return, leave every record alone and advance the
counter. -/
theorem ticks_below_wrap {b : Board} {pol : Nat} {used free : List (Fin SOFTPWM_MAXCHANNELS)}
    {fuel : Nat} (hf : used.length ≤ fuel) :
    ∀ (n : Nat) (s : State), Inv b pol s used free → s._isr_softcount + n ≤ 255 →
      ∃ s', ticks fuel n s = some s' ∧ Inv b pol s' used free ∧
        s'._softpwm_channels = s._softpwm_channels ∧
        s'._isr_softcount = s._isr_softcount + n
  | 0, s, hI, _ => ⟨s, rfl, hI, rfl, rfl⟩
  | n + 1, s, hI, hn => by
    have hc : s._isr_softcount ≠ 255 := by omega
    obtain ⟨s', h1, h2, h3, h4⟩ := ticks_below_wrap hf n _ (hI.nowrap hc)
      (show s._isr_softcount + 1 + n ≤ 255 by omega)
    refine ⟨s', ?_, h2, ?_, ?_⟩
    · have e : n + 1 = 1 + n := by omega
      rw [e, ticks_add, ticks_one, tick_nowrap hI hf hc, some_bind_eq, h1]
    · rw [h3, mapResult_id_channels]
    · rw [h4]
      show s._isr_softcount + 1 + n = _
      omega

/-- The interrupts up to and including the next cycle wrap: they return, and every active
record has had exactly one update of `checkval`. -/
theorem ticks_to_wrap {b : Board} {pol : Nat} {used free : List (Fin SOFTPWM_MAXCHANNELS)}
    {fuel : Nat} (hf : used.length ≤ fuel) (s : State) (hI : Inv b pol s used free) :
    ∃ s', ticks fuel (256 - s._isr_softcount) s = some s' ∧ Inv b pol s' used free ∧
      s'._isr_softcount = 0 ∧
      ∀ j, s'._softpwm_channels j =
        if j ∈ used then isr_wrap_g (s._softpwm_channels j) else s._softpwm_channels j := by
  have hc := hI.count
  obtain ⟨s1, h1, h2, h3, h4⟩ := ticks_below_wrap hf (255 - s._isr_softcount) s hI (by omega)
  have h5 : s1._isr_softcount = 255 := by omega
  have e : 256 - s._isr_softcount = (255 - s._isr_softcount) + 1 := by omega
  refine ⟨_, ?_, h2.wrap, rfl, fun j => ?_⟩
  · rw [e, ticks_add, h1, some_bind_eq, ticks_one, tick_wrap h2 hf h5]
  · rw [mapResult_channels]
    show (if j ∈ used then isr_wrap_g (s1._softpwm_channels j) else s1._softpwm_channels j) = _
    rw [h3]

/-- A full cycle of 256 interrupts that starts with a wrap. -/
theorem ticks_cycle {b : Board} {pol : Nat} {used free : List (Fin SOFTPWM_MAXCHANNELS)}
    {fuel : Nat} (hf : used.length ≤ fuel) (s : State) (hI : Inv b pol s used free)
    (hc : s._isr_softcount = 255) :
    ∃ s', ticks fuel 256 s = some s' ∧ Inv b pol s' used free ∧ s'._isr_softcount = 255 ∧
      ∀ j, s'._softpwm_channels j =
        if j ∈ used then isr_wrap_g (s._softpwm_channels j) else s._softpwm_channels j := by
  obtain ⟨s2, h1, h2, h3, h4⟩ := ticks_below_wrap hf 255 _ hI.wrap
    (show (0 : Nat) + 255 ≤ 255 by decide)
  refine ⟨s2, ?_, h2, by rw [h4]; rfl, fun j => ?_⟩
  · have e : 256 = 1 + 255 := rfl
    rw [e, ticks_add, ticks_one, tick_wrap hI hf hc, some_bind_eq, h1]
  · rw [h3, mapResult_channels]

/-- The state after `n` full cycles that start with a wrap. -/
theorem ticks_cycles {b : Board} {pol : Nat} {used free : List (Fin SOFTPWM_MAXCHANNELS)}
    {fuel : Nat} (hf : used.length ≤ fuel) :
    ∀ (n : Nat) (s : State), Inv b pol s used free → s._isr_softcount = 255 →
      ∃ s', ticks fuel (256 * n) s = some s' ∧ Inv b pol s' used free ∧
        s'._isr_softcount = 255 ∧
        ∀ j, s'._softpwm_channels j =
          if j ∈ used then isr_wrap_g^[n] (s._softpwm_channels j) else s._softpwm_channels j
  | 0, s, hI, hc => ⟨s, rfl, hI, hc, fun j => by simp⟩
  | n + 1, s, hI, hc => by
    obtain ⟨s1, h1, h2, h3, h4⟩ := ticks_cycle hf s hI hc
    obtain ⟨s2, k1, k2, k3, k4⟩ := ticks_cycles hf n s1 h2 h3
    refine ⟨s2, ?_, k2, k3, fun j => ?_⟩
    · have e : 256 * (n + 1) = 256 + 256 * n := by ring
      rw [e, ticks_add, h1, some_bind_eq, k1]
    · rw [k4, h4]
      split_ifs
      · rw [Function.iterate_succ_apply]
      · rfl

/-! ## First use of a pin -/

theorem isr_newcheckval_nofade {c : softPWMChannel} (hu : c.fadeuprate = 0)
    (hd : c.fadedownrate = 0) : isr_newcheckval c = c.pwmvalue := by
  unfold isr_newcheckval
  rw [hu, hd]
  simp

theorem IsList.ne_nil_of_head {ch : Channels} {head : Ptr}
    {l : List (Fin SOFTPWM_MAXCHANNELS)} (hl : IsList ch head l) (hh : head ≠ none) :
    l ≠ [] := by
  intro e
  subst e
  exact hh hl

/-- Acquisition of a record for a pin that is not active, in a state that satisfies the
invariant and has a free record: the call returns, the head `k` of the free list becomes
the record of `p` with the default polarity, the value, both fade rates 0 and the
`checkval` it held before. -/
theorem Inv.acquire_spec {b : Board} {pol : Nat} {s : State} {k : Fin SOFTPWM_MAXCHANNELS}
    {used free : List (Fin SOFTPWM_MAXCHANNELS)} (hI : Inv b pol s used (k :: free))
    {p : Int} (hp1 : 1 ≤ p) (hp2 : p ≤ 127)
    (hna : ch_find s._softpwm_channels s.g_used p = none) {v : Nat} (hv : v < 256)
    (hardset fuel : Nat) :
    ∃ s1, SoftPWMSet b fuel p v hardset s = some s1 ∧ Inv b pol s1 (k :: used) free ∧
      ch_find s1._softpwm_channels s1.g_used p = some k ∧
      (s1._softpwm_channels k).pin = p ∧ (s1._softpwm_channels k).pwmvalue = v ∧
      (s1._softpwm_channels k).polarity = pol ∧
      (s1._softpwm_channels k).fadeuprate = 0 ∧ (s1._softpwm_channels k).fadedownrate = 0 ∧
      (s1._softpwm_channels k).checkval = (s._softpwm_channels k).checkval := by
  have hp : 0 < p := by omega
  have hgf : s.g_free = some k := hI.free_list.1
  have hI1 : Inv b pol (HARDRESET hardset (SoftPWM.acquired b p v k s)) (k :: used) free :=
    (hI.acquired hp hp2 hv hna).hardreset hardset
  have hd := acquired_data_self b p v k s
  simp only [softPWMChannel.data, Prod.mk.injEq] at hd
  have hr := hI.free_reset k (List.mem_cons_self k free)
  have hk : k ∈ k :: used := List.mem_cons_self k used
  have hpin : ((HARDRESET hardset (SoftPWM.acquired b p v k s))._softpwm_channels k).pin = p := by
    rw [HARDRESET_channels]; exact hd.1
  refine ⟨_, SoftPWMSet_acquire b fuel v hardset hp hna hgf, hI1, ?_, hpin, ?_, ?_, ?_, ?_, ?_⟩
  · have := hI1.find_some hk
    rw [hpin] at this
    exact this
  · rw [HARDRESET_channels]; exact hd.2.2.2.2.1
  · rw [HARDRESET_channels, hd.2.1]; exact hI.defpol.1
  · rw [HARDRESET_channels, hd.2.2.2.2.2.2.1]; exact hr.2.2.2.1
  · rw [HARDRESET_channels, hd.2.2.2.2.2.2.2]; exact hr.2.2.2.2
  · rw [HARDRESET_channels]; exact hd.2.2.2.2.2.1

/-- C3: in a reachable state with a free record, `SoftPWMSet(p, v)` on a pin `1 ≤ p ≤ 127`
that is not active returns, and afterwards `ch_find` finds for `p` a record with `pin = p`,
`pwmvalue = v`, the default polarity given to `SoftPWMBegin` and both fade rates 0; the
interrupts up to the next cycle wrap (`256 - _isr_softcount` of them, between 1 and 256)
return and leave `checkval = v` in that record. -/
theorem set_new_pin (b : Board) (pol : Nat) (s : State) (h : Reachable b pol s)
    (hfree : s.g_free ≠ none) (p : Int) (hp1 : 1 ≤ p) (hp2 : p ≤ 127)
    (hna : ch_find s._softpwm_channels s.g_used p = none) (v : Nat) (hv : v < 256)
    (hardset fuel : Nat) :
    ∃ s1 k, SoftPWMSet b fuel p v hardset s = some s1 ∧
      ch_find s1._softpwm_channels s1.g_used p = some k ∧
      (s1._softpwm_channels k).pin = p ∧ (s1._softpwm_channels k).pwmvalue = v ∧
      (s1._softpwm_channels k).polarity = pol ∧
      (s1._softpwm_channels k).fadeuprate = 0 ∧ (s1._softpwm_channels k).fadedownrate = 0 ∧
      1 ≤ 256 - s1._isr_softcount ∧ 256 - s1._isr_softcount ≤ 256 ∧
      ∀ fuel', SOFTPWM_MAXCHANNELS ≤ fuel' →
        ∃ s2, ticks fuel' (256 - s1._isr_softcount) s1 = some s2 ∧ s2._isr_softcount = 0 ∧
          ch_find s2._softpwm_channels s2.g_used p = some k ∧
          (s2._softpwm_channels k).checkval = v := by
  obtain ⟨used, free, hI⟩ := h.inv
  cases free with
  | nil => exact absurd hI.free_list hfree
  | cons k free =>
    obtain ⟨s1, hrun, hI1, hfind, hpin, hpw, hpo, hup, hdn, -⟩ :=
      hI.acquire_spec hp1 hp2 hna hv hardset fuel
    have hk : k ∈ k :: used := List.mem_cons_self k used
    have hcnt := hI1.count
    refine ⟨s1, k, hrun, hfind, hpin, hpw, hpo, hup, hdn, by omega, by omega,
      fun fuel' hf' => ?_⟩
    obtain ⟨s2, t1, t2, t3, t4⟩ := ticks_to_wrap (le_trans hI1.used_length_le hf') _ hI1
    have hk2 : (s2._softpwm_channels k) = isr_wrap_g (s1._softpwm_channels k) := by
      rw [t4 k, if_pos hk]
    refine ⟨s2, t1, t3, ?_, ?_⟩
    · have := t2.find_some hk
      rw [hk2] at this
      have hp' : (isr_wrap_g (s1._softpwm_channels k)).pin = p := hpin
      rw [hp'] at this
      exact this
    · rw [hk2]
      show isr_newcheckval _ = v
      rw [isr_newcheckval_nofade hup hdn, hpw]

theorem set_new_pin_witness :
    Reachable unoBoard SOFTPWM_NORMAL freshPool ∧ freshPool.g_free ≠ none ∧
    ch_find freshPool._softpwm_channels freshPool.g_used 5 = none ∧
    ∃ s1 k, SoftPWMSet unoBoard 0 5 128 0 freshPool = some s1 ∧
      ch_find s1._softpwm_channels s1.g_used 5 = some k ∧
      (s1._softpwm_channels k).pin = 5 ∧ (s1._softpwm_channels k).pwmvalue = 128 ∧
      (s1._softpwm_channels k).polarity = SOFTPWM_NORMAL ∧
      (s1._softpwm_channels k).fadeuprate = 0 ∧ (s1._softpwm_channels k).fadedownrate = 0 ∧
      1 ≤ 256 - s1._isr_softcount ∧ 256 - s1._isr_softcount ≤ 256 ∧
      ∀ fuel', SOFTPWM_MAXCHANNELS ≤ fuel' →
        ∃ s2, ticks fuel' (256 - s1._isr_softcount) s1 = some s2 ∧ s2._isr_softcount = 0 ∧
          ch_find s2._softpwm_channels s2.g_used 5 = some k ∧
          (s2._softpwm_channels k).checkval = 128 :=
  ⟨freshPool_reachable, by decide, by decide,
    set_new_pin unoBoard SOFTPWM_NORMAL freshPool freshPool_reachable (by decide) 5 (by decide)
      (by decide) (by decide) 128 (by decide) 0 0⟩

/-! ## Pool exhaustion -/

theorem Reachable.runOps {b : Board} {pol : Nat} {fuel : Nat} :
    ∀ (ops : List Op) (s s' : State), Reachable b pol s → (∀ op ∈ ops, op.wellTyped) →
      SoftPWM.runOps b fuel ops s = some s' → Reachable b pol s'
  | [], s, s', hs, _, hrun => by
    cases hrun
    exact hs
  | op :: ops, s, s', hs, hw, hrun => by
    simp only [SoftPWM.runOps] at hrun
    cases h1 : op.run b fuel s with
    | none => rw [h1] at hrun; cases hrun
    | some s1 =>
      rw [h1, some_bind_eq] at hrun
      exact Reachable.runOps ops s1 s'
        (Reachable.step op fuel s s1 hs (hw op (List.mem_cons_self _ _)) h1)
        (fun o ho => hw o (List.mem_cons_of_mem _ ho)) hrun

set_option maxRecDepth 1000000 in
theorem fullPool_run : runOps unoBoard 0 fillOps freshPool = some fullPool := by
  have h : (runOps unoBoard 0 fillOps freshPool).isSome = true := by decide
  unfold fullPool
  cases hr : runOps unoBoard 0 fillOps freshPool with
  | none => rw [hr] at h; cases h
  | some x => rfl

theorem fullPool_reachable : Reachable unoBoard SOFTPWM_NORMAL fullPool :=
  Reachable.runOps fillOps freshPool fullPool freshPool_reachable (by decide) fullPool_run

/-- C4: in a reachable state whose free list is empty, `SoftPWMSet(p, v, hardset)` for a
pin `p ≥ 1` that is not active returns the state itself, for every value, every `hardset`
flag and every fuel; the active list of that state holds all 20 records, bound to 20
distinct pins. -/
theorem set_exhausted_noop (b : Board) (pol : Nat) (s : State) (h : Reachable b pol s)
    (hfull : s.g_free = none) (p : Int) (hp : 1 ≤ p)
    (hna : ch_find s._softpwm_channels s.g_used p = none) (v hardset fuel : Nat) :
    SoftPWMSet b fuel p v hardset s = some s ∧
    ∃ used : List (Fin SOFTPWM_MAXCHANNELS),
      IsList s._softpwm_channels s.g_used used ∧ used.length = SOFTPWM_MAXCHANNELS ∧
      (used.map (fun i => (s._softpwm_channels i).pin)).Nodup := by
  refine ⟨SoftPWMSet_exhausted b fuel v hardset (by omega) hna hfull, ?_⟩
  obtain ⟨used, free, hI⟩ := h.inv
  have hfl := hI.free_list
  rw [hfull] at hfl
  cases free with
  | cons k free => cases hfl.1
  | nil =>
    refine ⟨used, hI.used_list.isList, by simpa using hI.length_eq, ?_⟩
    exact List.Nodup.map_on (fun i hi j hj e => hI.pin_inj i hi j hj e) hI.used_nodup

set_option maxRecDepth 1000000 in
theorem set_exhausted_noop_witness :
    Reachable unoBoard SOFTPWM_NORMAL fullPool ∧ fullPool.g_free = none ∧
    ch_find fullPool._softpwm_channels fullPool.g_used 21 = none ∧
    (SoftPWMSet unoBoard 0 21 200 1 fullPool = some fullPool ∧
    ∃ used : List (Fin SOFTPWM_MAXCHANNELS),
      IsList fullPool._softpwm_channels fullPool.g_used used ∧
      used.length = SOFTPWM_MAXCHANNELS ∧
      (used.map (fun i => (fullPool._softpwm_channels i).pin)).Nodup) :=
  ⟨fullPool_reachable, by decide, by decide,
    set_exhausted_noop unoBoard SOFTPWM_NORMAL fullPool fullPool_reachable (by decide) 21
      (by decide) (by decide) 200 1 0⟩

/-! ## Release -/

theorem Inv.find_none_of {b : Board} {pol : Nat} {s : State}
    {used free : List (Fin SOFTPWM_MAXCHANNELS)} (hI : Inv b pol s used free) {p : Int}
    (h : ∀ i ∈ used, (s._softpwm_channels i).pin ≠ p) :
    ch_find s._softpwm_channels s.g_used p = none := by
  cases hf : ch_find s._softpwm_channels s.g_used p with
  | none => rfl
  | some j =>
    obtain ⟨hj, hp⟩ := hI.find_eq_some hf
    exact absurd hp (h j hj)

/-- Release of the active record `k` of pin `p`, on the invariant. -/
theorem Inv.release_spec {b : Board} {pol : Nat} {s : State}
    {used free : List (Fin SOFTPWM_MAXCHANNELS)} (hI : Inv b pol s used free) {p : Int}
    {k : Fin SOFTPWM_MAXCHANNELS} (hfind : ch_find s._softpwm_channels s.g_used p = some k) :
    ∃ s', SoftPWMEnd b p s = some s' ∧ Inv b pol s' (used.erase k) (k :: free) ∧
      ch_find s'._softpwm_channels s'.g_used p = none ∧
      (s'._softpwm_channels k).data = (ch_reset (s._softpwm_channels k)).data ∧
      (∀ j, j ≠ k → (s'._softpwm_channels j).data = (s._softpwm_channels j).data) ∧
      s'._isr_softcount = s._isr_softcount := by
  obtain ⟨hk, hp⟩ := hI.find_eq_some hfind
  obtain ⟨s', h1, h2, h3, h4, h5, -⟩ := SoftPWMEnd_spec hI hk
  rw [hp] at h1
  refine ⟨s', h1, h2, ?_, h3, h4, h5⟩
  refine h2.find_none_of (fun i hi e => ?_)
  obtain ⟨hik, hiu⟩ := (List.Nodup.mem_erase_iff hI.used_nodup).mp hi
  have hpi : (s'._softpwm_channels i).pin = (s._softpwm_channels i).pin :=
    ((data_eq_iff _ _).mp (h4 i hik)).1
  rw [hpi, ← hp] at e
  exact hik (hI.pin_inj i hiu k hk e)

/-- C5: in a reachable state, `SoftPWMEnd(p)` on an active pin `p` (record `k`) returns;
afterwards `ch_find` finds nothing for `p`, record `k` heads the free list with
`pin = -1`, polarity `SOFTPWM_NORMAL` and both fade rates 0, the active list is the former
one with `k` deleted and the order of the others kept, and every other record keeps all its
data fields. On a pin that is not active `SoftPWMEnd(p)` returns the state itself. -/
theorem end_releases (b : Board) (pol : Nat) (s : State) (h : Reachable b pol s) :
    (∀ (p : Int) (k : Fin SOFTPWM_MAXCHANNELS),
      ch_find s._softpwm_channels s.g_used p = some k →
      ∃ (s' : State) (used free : List (Fin SOFTPWM_MAXCHANNELS)),
        SoftPWMEnd b p s = some s' ∧
        IsList s._softpwm_channels s.g_used used ∧ IsList s._softpwm_channels s.g_free free ∧
        ch_find s'._softpwm_channels s'.g_used p = none ∧
        IsList s'._softpwm_channels s'.g_free (k :: free) ∧
        (s'._softpwm_channels k).pin = -1 ∧
        (s'._softpwm_channels k).polarity = SOFTPWM_NORMAL ∧
        (s'._softpwm_channels k).fadeuprate = 0 ∧ (s'._softpwm_channels k).fadedownrate = 0 ∧
        IsList s'._softpwm_channels s'.g_used (used.erase k) ∧
        ∀ j, j ≠ k → (s'._softpwm_channels j).data = (s._softpwm_channels j).data) ∧
    (∀ p : Int, ch_find s._softpwm_channels s.g_used p = none → SoftPWMEnd b p s = some s) := by
  obtain ⟨used, free, hI⟩ := h.inv
  refine ⟨fun p k hfind => ?_, fun p hna => SoftPWMEnd_absent b hna⟩
  obtain ⟨s', h1, h2, h3, h4, h5, -⟩ := hI.release_spec hfind
  have hd := (data_eq_iff _ _).mp h4
  exact ⟨s', used, free, h1, hI.used_list.isList, hI.free_list, h3, h2.free_list, hd.1, hd.2.1,
    hd.2.2.2.2.2.2.1, hd.2.2.2.2.2.2.2, h2.used_list.isList, h5⟩

theorem end_releases_witness :
    Reachable unoBoard SOFTPWM_NORMAL pin5Pool ∧
    ch_find pin5Pool._softpwm_channels pin5Pool.g_used 5 = some 19 ∧
    (∃ (s' : State) (used free : List (Fin SOFTPWM_MAXCHANNELS)),
        SoftPWMEnd unoBoard 5 pin5Pool = some s' ∧
        IsList pin5Pool._softpwm_channels pin5Pool.g_used used ∧
        IsList pin5Pool._softpwm_channels pin5Pool.g_free free ∧
        ch_find s'._softpwm_channels s'.g_used 5 = none ∧
        IsList s'._softpwm_channels s'.g_free (19 :: free) ∧
        (s'._softpwm_channels 19).pin = -1 ∧
        (s'._softpwm_channels 19).polarity = SOFTPWM_NORMAL ∧
        (s'._softpwm_channels 19).fadeuprate = 0 ∧ (s'._softpwm_channels 19).fadedownrate = 0 ∧
        IsList s'._softpwm_channels s'.g_used (used.erase 19) ∧
        ∀ j, j ≠ 19 → (s'._softpwm_channels j).data = (pin5Pool._softpwm_channels j).data) ∧
    ch_find pin5Pool._softpwm_channels pin5Pool.g_used 6 = none ∧
    SoftPWMEnd unoBoard 6 pin5Pool = some pin5Pool :=
  ⟨pin5Pool_reachable, by decide,
    (end_releases unoBoard SOFTPWM_NORMAL pin5Pool pin5Pool_reachable).1 5 19 (by decide),
    by decide,
    (end_releases unoBoard SOFTPWM_NORMAL pin5Pool pin5Pool_reachable).2 6 (by decide)⟩

/-! ## Release followed by a new acquisition -/

theorem litPool_run :
    runOps unoBoard 1 [Op.Set 5 128 0, Op.Tick] freshPool = some litPool := by
  have h : (runOps unoBoard 1 [Op.Set 5 128 0, Op.Tick] freshPool).isSome = true := by decide
  unfold litPool
  cases hr : runOps unoBoard 1 [Op.Set 5 128 0, Op.Tick] freshPool with
  | none => rw [hr] at h; cases h
  | some x => rfl

theorem litPool_reachable : Reachable unoBoard SOFTPWM_NORMAL litPool :=
  Reachable.runOps _ freshPool litPool freshPool_reachable (by decide) litPool_run

/-- C6, as stated, fails: pin 5 is active with `checkval = 128`; after `SoftPWMEnd(5)` and
`SoftPWMSet(5, 10)` its record still has `checkval = 128`, while `SoftPWMSet(5, 10)` on the
freshly begun pool gives a record with `checkval = 0`. -/
theorem reacquire_keeps_checkval :
    Reachable unoBoard SOFTPWM_NORMAL litPool ∧
    currentValue litPool 5 = some 128 ∧
    ((SoftPWMEnd unoBoard 5 litPool).bind (SoftPWMSet unoBoard 0 5 10 0)).bind
      (fun s => currentValue s 5) = some 128 ∧
    (SoftPWMSet unoBoard 0 5 10 0 freshPool).bind (fun s => currentValue s 5) = some 0 :=
  ⟨litPool_reachable, by decide, by decide, by decide⟩

theorem SoftPWMBegin_find_none (b : Board) (pol : Nat) (s0 : State) (p : Int) :
    ch_find (SoftPWMBegin b pol s0)._softpwm_channels (SoftPWMBegin b pol s0).g_used p = none :=
  rfl

/-- C6, amended: in a reachable state with pin `p` active on record `k`, `SoftPWMEnd(p)`
followed by `SoftPWMSet(p, v)` returns and gives `p` the same record `k` with `pin = p`,
the default polarity, `pwmvalue = v` and both fade rates 0, which are the values
`SoftPWMSet(p, v)` gives on a pool freshly begun with the same default polarity; `checkval`
is not reset: it is the `checkval` record `k` held before the release. -/
theorem reacquire_fields (b : Board) (pol : Nat) (s : State) (h : Reachable b pol s)
    (p : Int) (k : Fin SOFTPWM_MAXCHANNELS)
    (hfind : ch_find s._softpwm_channels s.g_used p = some k) (v : Nat) (hv : v < 256)
    (hardset fuel : Nat) :
    (∃ s1 s2, SoftPWMEnd b p s = some s1 ∧ SoftPWMSet b fuel p v hardset s1 = some s2 ∧
      ch_find s2._softpwm_channels s2.g_used p = some k ∧
      (s2._softpwm_channels k).pin = p ∧ (s2._softpwm_channels k).polarity = pol ∧
      (s2._softpwm_channels k).pwmvalue = v ∧
      (s2._softpwm_channels k).fadeuprate = 0 ∧ (s2._softpwm_channels k).fadedownrate = 0 ∧
      (s2._softpwm_channels k).checkval = (s._softpwm_channels k).checkval) ∧
    (∀ s0 : State, s0.wellTyped →
      ∃ f k', SoftPWMSet b fuel p v hardset (SoftPWMBegin b pol s0) = some f ∧
        ch_find f._softpwm_channels f.g_used p = some k' ∧
        (f._softpwm_channels k').pin = p ∧ (f._softpwm_channels k').polarity = pol ∧
        (f._softpwm_channels k').pwmvalue = v ∧
        (f._softpwm_channels k').fadeuprate = 0 ∧ (f._softpwm_channels k').fadedownrate = 0) := by
  obtain ⟨used, free, hI⟩ := h.inv
  obtain ⟨hk, hp⟩ := hI.find_eq_some hfind
  have hpr := hI.used_pin k hk
  rw [hp] at hpr
  have hp1 : 1 ≤ p := by omega
  constructor
  · obtain ⟨s1, h1, h2, h3, h4, -⟩ := hI.release_spec hfind
    obtain ⟨s2, r1, -, r3, r4, r5, r6, r7, r8, r9⟩ :=
      h2.acquire_spec hp1 hpr.2 h3 hv hardset fuel
    refine ⟨s1, s2, h1, r1, r3, r4, r6, r5, r7, r8, ?_⟩
    rw [r9]
    exact ((data_eq_iff _ _).mp h4).2.2.2.2.2.1
  · intro s0 h0
    have hIf := SoftPWMBegin_inv b pol s0 h0 hI.defpol.2
    cases hfr : (List.finRange SOFTPWM_MAXCHANNELS).reverse with
    | nil =>
      have := congrArg List.length hfr
      simp at this
    | cons k' rest =>
      rw [hfr] at hIf
      obtain ⟨f, r1, -, r3, r4, r5, r6, r7, r8, -⟩ :=
        hIf.acquire_spec hp1 hpr.2 (SoftPWMBegin_find_none b pol s0 p) hv hardset fuel
      exact ⟨f, k', r1, r3, r4, r6, r5, r7, r8⟩

theorem reacquire_fields_witness :
    Reachable unoBoard SOFTPWM_NORMAL litPool ∧
    ch_find litPool._softpwm_channels litPool.g_used 5 = some 19 ∧
    ((∃ s1 s2, SoftPWMEnd unoBoard 5 litPool = some s1 ∧
      SoftPWMSet unoBoard 0 5 10 0 s1 = some s2 ∧
      ch_find s2._softpwm_channels s2.g_used 5 = some 19 ∧
      (s2._softpwm_channels 19).pin = 5 ∧ (s2._softpwm_channels 19).polarity = SOFTPWM_NORMAL ∧
      (s2._softpwm_channels 19).pwmvalue = 10 ∧
      (s2._softpwm_channels 19).fadeuprate = 0 ∧ (s2._softpwm_channels 19).fadedownrate = 0 ∧
      (s2._softpwm_channels 19).checkval = (litPool._softpwm_channels 19).checkval) ∧
    (∀ s0 : State, s0.wellTyped →
      ∃ f k', SoftPWMSet unoBoard 0 5 10 0 (SoftPWMBegin unoBoard SOFTPWM_NORMAL s0) = some f ∧
        ch_find f._softpwm_channels f.g_used 5 = some k' ∧
        (f._softpwm_channels k').pin = 5 ∧
        (f._softpwm_channels k').polarity = SOFTPWM_NORMAL ∧
        (f._softpwm_channels k').pwmvalue = 10 ∧
        (f._softpwm_channels k').fadeuprate = 0 ∧ (f._softpwm_channels k').fadedownrate = 0)) :=
  ⟨litPool_reachable, by decide,
    reacquire_fields unoBoard SOFTPWM_NORMAL litPool litPool_reachable 5 19 (by decide) 10
      (by decide) 0 0⟩

/-! ## The fade step -/

theorem isr_newcheckval_eq_fadeSpec (c : softPWMChannel) (ht : c.pwmvalue < 256)
    (hc : c.checkval < 256) :
    (isr_newcheckval c : Int) =
      fadeSpec (c.checkval : Int) (c.pwmvalue : Int) (c.fadeuprate : Int)
        (c.fadedownrate : Int) := by
  unfold isr_newcheckval fadeSpec
  simp only [gt_iff_lt]
  split_ifs <;> omega

/-- C7: at a cycle wrap the interrupt returns and stores into `checkval` of every active
record the fade step of the specification, computed on the integers from the record's
`checkval`, `pwmvalue`, `fadeuprate` and `fadedownrate`; for all byte values of the four
fields the stored `uint8_t` is that integer, so nothing wraps around. -/
theorem fade_step (b : Board) (pol : Nat) (s : State) (h : Reachable b pol s)
    (hc : s._isr_softcount = 255) (fuel : Nat) (hf : SOFTPWM_MAXCHANNELS ≤ fuel) :
    (∀ c : softPWMChannel, c.checkval < 256 → c.pwmvalue < 256 → c.fadeuprate < 256 →
      c.fadedownrate < 256 →
      (isr_newcheckval c : Int) =
        fadeSpec (c.checkval : Int) (c.pwmvalue : Int) (c.fadeuprate : Int)
          (c.fadedownrate : Int) ∧
      isr_newcheckval c < 256) ∧
    ∃ s', SoftPWM_Timer_Interrupt fuel s = some s' ∧ s'._isr_softcount = 0 ∧
      ∀ used : List (Fin SOFTPWM_MAXCHANNELS), IsList s._softpwm_channels s.g_used used →
        ∀ k ∈ used,
          ((s'._softpwm_channels k).checkval : Int) =
            fadeSpec ((s._softpwm_channels k).checkval : Int)
              ((s._softpwm_channels k).pwmvalue : Int)
              ((s._softpwm_channels k).fadeuprate : Int)
              ((s._softpwm_channels k).fadedownrate : Int) ∧
          (s'._softpwm_channels k).pwmvalue = (s._softpwm_channels k).pwmvalue ∧
          (s'._softpwm_channels k).fadeuprate = (s._softpwm_channels k).fadeuprate ∧
          (s'._softpwm_channels k).fadedownrate = (s._softpwm_channels k).fadedownrate := by
  refine ⟨fun c h1 h2 _ _ => ⟨isr_newcheckval_eq_fadeSpec c h2 h1, isr_newcheckval_lt c h2⟩, ?_⟩
  obtain ⟨used, free, hI⟩ := h.inv
  refine ⟨_, tick_wrap hI (le_trans hI.used_length_le hf) hc, rfl, fun used' hl k hk => ?_⟩
  have e : used' = used := IsList_unique _ _ _ hl hI.used_list.isList
  subst e
  rw [mapResult_channels, if_pos hk]
  have hb := hI.bytes k
  exact ⟨isr_newcheckval_eq_fadeSpec _ hb.2.1 hb.2.2.1, rfl, rfl, rfl⟩

theorem fade_step_witness :
    Reachable unoBoard SOFTPWM_NORMAL pin5Pool ∧ pin5Pool._isr_softcount = 255 ∧
    SOFTPWM_MAXCHANNELS ≤ 20 ∧
    ((∀ c : softPWMChannel, c.checkval < 256 → c.pwmvalue < 256 → c.fadeuprate < 256 →
      c.fadedownrate < 256 →
      (isr_newcheckval c : Int) =
        fadeSpec (c.checkval : Int) (c.pwmvalue : Int) (c.fadeuprate : Int)
          (c.fadedownrate : Int) ∧
      isr_newcheckval c < 256) ∧
    ∃ s', SoftPWM_Timer_Interrupt 20 pin5Pool = some s' ∧ s'._isr_softcount = 0 ∧
      ∀ used : List (Fin SOFTPWM_MAXCHANNELS),
        IsList pin5Pool._softpwm_channels pin5Pool.g_used used →
        ∀ k ∈ used,
          ((s'._softpwm_channels k).checkval : Int) =
            fadeSpec ((pin5Pool._softpwm_channels k).checkval : Int)
              ((pin5Pool._softpwm_channels k).pwmvalue : Int)
              ((pin5Pool._softpwm_channels k).fadeuprate : Int)
              ((pin5Pool._softpwm_channels k).fadedownrate : Int) ∧
          (s'._softpwm_channels k).pwmvalue = (pin5Pool._softpwm_channels k).pwmvalue ∧
          (s'._softpwm_channels k).fadeuprate = (pin5Pool._softpwm_channels k).fadeuprate ∧
          (s'._softpwm_channels k).fadedownrate =
            (pin5Pool._softpwm_channels k).fadedownrate) :=
  ⟨pin5Pool_reachable, by decide, by decide,
    fade_step unoBoard SOFTPWM_NORMAL pin5Pool pin5Pool_reachable (by decide) 20 (by decide)⟩

/-! ## Convergence of the ramp -/

theorem isr_newcheckval_nat (c : softPWMChannel) (ht : c.pwmvalue < 256)
    (hc : c.checkval < 256) :
    isr_newcheckval c =
      if c.checkval < c.pwmvalue ∧ 0 < c.fadeuprate then
        min c.pwmvalue (c.checkval + c.fadeuprate)
      else if c.pwmvalue < c.checkval ∧ 0 < c.fadedownrate then
        max c.pwmvalue (c.checkval - c.fadedownrate)
      else c.pwmvalue := by
  unfold isr_newcheckval
  simp only [gt_iff_lt]
  split_ifs <;> omega

theorem iterate_wrap_fields (c : softPWMChannel) (ht : c.pwmvalue < 256)
    (hc : c.checkval < 256) :
    ∀ n : Nat, (isr_wrap_g^[n] c).pwmvalue = c.pwmvalue ∧
      (isr_wrap_g^[n] c).fadeuprate = c.fadeuprate ∧
      (isr_wrap_g^[n] c).fadedownrate = c.fadedownrate ∧
      (isr_wrap_g^[n] c).pin = c.pin ∧
      (isr_wrap_g^[n] c).checkval < 256
  | 0 => ⟨rfl, rfl, rfl, rfl, hc⟩
  | n + 1 => by
    obtain ⟨h1, h2, h3, h4, -⟩ := iterate_wrap_fields c ht hc n
    rw [Function.iterate_succ_apply']
    refine ⟨h1, h2, h3, h4, ?_⟩
    show isr_newcheckval _ < 256
    exact isr_newcheckval_lt _ (by rw [h1]; exact ht)

theorem iterate_wrap_succ (c : softPWMChannel) (ht : c.pwmvalue < 256)
    (hc : c.checkval < 256) (n : Nat) :
    (isr_wrap_g^[n + 1] c).checkval =
      if (isr_wrap_g^[n] c).checkval < c.pwmvalue ∧ 0 < c.fadeuprate then
        min c.pwmvalue ((isr_wrap_g^[n] c).checkval + c.fadeuprate)
      else if c.pwmvalue < (isr_wrap_g^[n] c).checkval ∧ 0 < c.fadedownrate then
        max c.pwmvalue ((isr_wrap_g^[n] c).checkval - c.fadedownrate)
      else c.pwmvalue := by
  obtain ⟨h1, h2, h3, -, h5⟩ := iterate_wrap_fields c ht hc n
  rw [Function.iterate_succ_apply']
  show isr_newcheckval _ = _
  rw [isr_newcheckval_nat _ (by rw [h1]; exact ht) h5, h1, h2, h3]

theorem iterate_wrap_up (c : softPWMChannel) (ht : c.pwmvalue < 256)
    (hle : c.checkval ≤ c.pwmvalue) (hu : 0 < c.fadeuprate) :
    ∀ n : Nat, (isr_wrap_g^[n] c).checkval = min c.pwmvalue (c.checkval + n * c.fadeuprate)
  | 0 => by
    show c.checkval = _
    omega
  | n + 1 => by
    have ih := iterate_wrap_up c ht hle hu n
    rw [iterate_wrap_succ c ht (by omega) n, ih, Nat.succ_mul]
    split_ifs <;> omega

theorem iterate_wrap_down (c : softPWMChannel) (hc : c.checkval < 256)
    (hle : c.pwmvalue ≤ c.checkval) (hd : 0 < c.fadedownrate) :
    ∀ n : Nat, (isr_wrap_g^[n] c).checkval = max c.pwmvalue (c.checkval - n * c.fadedownrate)
  | 0 => by
    show c.checkval = _
    omega
  | n + 1 => by
    have ih := iterate_wrap_down c hc hle hd n
    rw [iterate_wrap_succ c (by omega) hc n, ih, Nat.succ_mul]
    split_ifs <;> omega

theorem iterate_wrap_jump (c : softPWMChannel) (ht : c.pwmvalue < 256)
    (hc : c.checkval < 256)
    (hj : (c.checkval < c.pwmvalue ∧ c.fadeuprate = 0) ∨
      (c.pwmvalue < c.checkval ∧ c.fadedownrate = 0) ∨ c.checkval = c.pwmvalue) :
    ∀ n : Nat, 1 ≤ n → (isr_wrap_g^[n] c).checkval = c.pwmvalue
  | 0, h => by omega
  | 1, _ => by
    rw [iterate_wrap_succ c ht hc 0]
    show (if c.checkval < c.pwmvalue ∧ 0 < c.fadeuprate then _ else
      if c.pwmvalue < c.checkval ∧ 0 < c.fadedownrate then _ else _) = _
    split_ifs <;> omega
  | n + 2, _ => by
    have ih := iterate_wrap_jump c ht hc hj (n + 1) (by omega)
    rw [iterate_wrap_succ c ht hc (n + 1), ih]
    split_ifs <;> omega

theorem ceil_le_iff (a r n : Nat) (hr : 0 < r) : (a + r - 1) / r ≤ n ↔ a ≤ n * r := by
  rw [Nat.div_le_iff_le_mul_add_pred hr]
  constructor
  · intro h
    have : r * n = n * r := Nat.mul_comm r n
    omega
  · intro h
    have : r * n = n * r := Nat.mul_comm r n
    omega

theorem rampPool_run :
    runOps unoBoard 0 [Op.Set 5 255 0, Op.SetFadeTime 5 1000 0] freshPool = some rampPool := by
  have h : (runOps unoBoard 0 [Op.Set 5 255 0, Op.SetFadeTime 5 1000 0] freshPool).isSome =
      true := by decide
  unfold rampPool
  cases hr : runOps unoBoard 0 [Op.Set 5 255 0, Op.SetFadeTime 5 1000 0] freshPool with
  | none => rw [hr] at h; cases h
  | some x => rfl

theorem rampPool_reachable : Reachable unoBoard SOFTPWM_NORMAL rampPool :=
  Reachable.runOps _ freshPool rampPool freshPool_reachable (by decide) rampPool_run

/-- C8: in a reachable state that is about to wrap, with pin `p` active on record `k` and
no call in between, the state `sn` after `n` full cycles and the state after one more
cycle exist; `pwmvalue` stays the target `t`; the new `checkval` lies between the old one
and `t`, is strictly closer to `t` while the old one differs from `t`, and stays `t` once
reached. With `c0` the initial `checkval`: when `c0 ≤ t` and the fade-up rate `u > 0`,
`checkval` after `n` wraps is `min t (c0 + n * u)` and equals `t` exactly from wrap
`ceil((t - c0) / u)` on; when `t ≤ c0` and the fade-down rate `d > 0` it is
`max t (c0 - n * d)` and equals `t` exactly from wrap `ceil((c0 - t) / d)` on; when the
rate of the needed direction is 0 it equals `t` exactly from wrap 1 on. -/
theorem fade_converges (b : Board) (pol : Nat) (s : State) (h : Reachable b pol s)
    (hc : s._isr_softcount = 255) (p : Int) (k : Fin SOFTPWM_MAXCHANNELS)
    (hfind : ch_find s._softpwm_channels s.g_used p = some k) (fuel : Nat)
    (hf : SOFTPWM_MAXCHANNELS ≤ fuel) (n : Nat) :
    ∃ sn sn', ticks fuel (256 * n) s = some sn ∧ ticks fuel 256 sn = some sn' ∧
      (sn._softpwm_channels k).pwmvalue = (s._softpwm_channels k).pwmvalue ∧
      (sn'._softpwm_channels k).pwmvalue = (s._softpwm_channels k).pwmvalue ∧
      min (sn._softpwm_channels k).checkval (s._softpwm_channels k).pwmvalue ≤
        (sn'._softpwm_channels k).checkval ∧
      (sn'._softpwm_channels k).checkval ≤
        max (sn._softpwm_channels k).checkval (s._softpwm_channels k).pwmvalue ∧
      ((sn._softpwm_channels k).checkval ≠ (s._softpwm_channels k).pwmvalue →
        Int.natAbs (((s._softpwm_channels k).pwmvalue : Int) -
            ((sn'._softpwm_channels k).checkval : Int)) <
          Int.natAbs (((s._softpwm_channels k).pwmvalue : Int) -
            ((sn._softpwm_channels k).checkval : Int))) ∧
      ((sn._softpwm_channels k).checkval = (s._softpwm_channels k).pwmvalue →
        (sn'._softpwm_channels k).checkval = (s._softpwm_channels k).pwmvalue) ∧
      ((s._softpwm_channels k).checkval ≤ (s._softpwm_channels k).pwmvalue →
        0 < (s._softpwm_channels k).fadeuprate →
        (sn._softpwm_channels k).checkval =
          min (s._softpwm_channels k).pwmvalue
            ((s._softpwm_channels k).checkval + n * (s._softpwm_channels k).fadeuprate) ∧
        ((sn._softpwm_channels k).checkval = (s._softpwm_channels k).pwmvalue ↔
          ((s._softpwm_channels k).pwmvalue - (s._softpwm_channels k).checkval +
            (s._softpwm_channels k).fadeuprate - 1) / (s._softpwm_channels k).fadeuprate ≤ n)) ∧
      ((s._softpwm_channels k).pwmvalue ≤ (s._softpwm_channels k).checkval →
        0 < (s._softpwm_channels k).fadedownrate →
        (sn._softpwm_channels k).checkval =
          max (s._softpwm_channels k).pwmvalue
            ((s._softpwm_channels k).checkval - n * (s._softpwm_channels k).fadedownrate) ∧
        ((sn._softpwm_channels k).checkval = (s._softpwm_channels k).pwmvalue ↔
          ((s._softpwm_channels k).checkval - (s._softpwm_channels k).pwmvalue +
            (s._softpwm_channels k).fadedownrate - 1) /
              (s._softpwm_channels k).fadedownrate ≤ n)) ∧
      ((s._softpwm_channels k).checkval < (s._softpwm_channels k).pwmvalue →
        (s._softpwm_channels k).fadeuprate = 0 →
        ((sn._softpwm_channels k).checkval = (s._softpwm_channels k).pwmvalue ↔ 1 ≤ n)) ∧
      ((s._softpwm_channels k).pwmvalue < (s._softpwm_channels k).checkval →
        (s._softpwm_channels k).fadedownrate = 0 →
        ((sn._softpwm_channels k).checkval = (s._softpwm_channels k).pwmvalue ↔ 1 ≤ n)) := by
  obtain ⟨used, free, hI⟩ := h.inv
  obtain ⟨hk, -⟩ := hI.find_eq_some hfind
  have hlen := le_trans hI.used_length_le hf
  obtain ⟨sn, t1, t2, t3, t4⟩ := ticks_cycles hlen n s hI hc
  obtain ⟨sn', r1, -, -, r4⟩ := ticks_cycle hlen sn t2 t3
  have hb := hI.bytes k
  have e1 : sn._softpwm_channels k = isr_wrap_g^[n] (s._softpwm_channels k) := by
    rw [t4 k, if_pos hk]
  have e2 : sn'._softpwm_channels k = isr_wrap_g^[n + 1] (s._softpwm_channels k) := by
    rw [r4 k, if_pos hk, e1, Function.iterate_succ_apply']
  obtain ⟨f1, -, -, -, f5⟩ := iterate_wrap_fields _ hb.2.1 hb.2.2.1 n
  obtain ⟨g1, -, -, -, -⟩ := iterate_wrap_fields _ hb.2.1 hb.2.2.1 (n + 1)
  have hstep := iterate_wrap_succ _ hb.2.1 hb.2.2.1 n
  rw [← e1, ← e2] at hstep
  rw [← e1] at f1 f5
  rw [← e2] at g1
  refine ⟨sn, sn', t1, r1, f1, g1, ?_, ?_, ?_, ?_, ?_, ?_, ?_, ?_⟩
  · rw [hstep]; split_ifs <;> omega
  · rw [hstep]; split_ifs <;> omega
  · intro hne; rw [hstep]; split_ifs <;> omega
  · intro he; rw [hstep]; split_ifs <;> omega
  · intro hle hu
    have hcl := iterate_wrap_up _ hb.2.1 hle hu n
    rw [← e1] at hcl
    refine ⟨hcl, ?_⟩
    rw [ceil_le_iff _ _ _ hu, hcl]
    omega
  · intro hle hd
    have hcl := iterate_wrap_down _ hb.2.2.1 hle hd n
    rw [← e1] at hcl
    refine ⟨hcl, ?_⟩
    rw [ceil_le_iff _ _ _ hd, hcl]
    omega
  · intro hlt hu
    constructor
    · intro he
      rcases Nat.eq_zero_or_pos n with h0 | h0
      · subst h0
        have : sn._softpwm_channels k = s._softpwm_channels k := e1
        rw [this] at he
        omega
      · exact h0
    · intro h1
      have := iterate_wrap_jump _ hb.2.1 hb.2.2.1 (Or.inl ⟨hlt, hu⟩) n h1
      rw [← e1] at this
      exact this
  · intro hlt hd
    constructor
    · intro he
      rcases Nat.eq_zero_or_pos n with h0 | h0
      · subst h0
        have : sn._softpwm_channels k = s._softpwm_channels k := e1
        rw [this] at he
        omega
      · exact h0
    · intro h1
      have := iterate_wrap_jump _ hb.2.1 hb.2.2.1 (Or.inr (Or.inl ⟨hlt, hd⟩)) n h1
      rw [← e1] at this
      exact this

theorem fade_converges_witness :
    Reachable unoBoard SOFTPWM_NORMAL rampPool ∧ rampPool._isr_softcount = 255 ∧
    ch_find rampPool._softpwm_channels rampPool.g_used 5 = some 19 ∧
    (rampPool._softpwm_channels 19).checkval = 0 ∧
    (rampPool._softpwm_channels 19).pwmvalue = 255 ∧
    (rampPool._softpwm_channels 19).fadeuprate = 4 ∧
    (∃ sn, ticks 20 (256 * 10) rampPool = some sn ∧ (sn._softpwm_channels 19).checkval = 40) ∧
    (∃ sn, ticks 20 (256 * 63) rampPool = some sn ∧ (sn._softpwm_channels 19).checkval = 252) ∧
    (∃ sn, ticks 20 (256 * 64) rampPool = some sn ∧ (sn._softpwm_channels 19).checkval = 255) ∧
    (∃ sn, ticks 20 (256 * 200) rampPool = some sn ∧
      (sn._softpwm_channels 19).checkval = 255) := by
  have hfind : ch_find rampPool._softpwm_channels rampPool.g_used 5 = some 19 := by decide
  have hc : rampPool._isr_softcount = 255 := by decide
  have e0 : (rampPool._softpwm_channels 19).checkval = 0 := by decide
  have et : (rampPool._softpwm_channels 19).pwmvalue = 255 := by decide
  have eu : (rampPool._softpwm_channels 19).fadeuprate = 4 := by decide
  have key : ∀ n : Nat, ∃ sn, ticks 20 (256 * n) rampPool = some sn ∧
      (sn._softpwm_channels 19).checkval = min 255 (0 + n * 4) := by
    intro n
    obtain ⟨sn, -, h1, -, -, -, -, -, -, -, hup, -⟩ :=
      fade_converges unoBoard SOFTPWM_NORMAL rampPool rampPool_reachable hc 5 19 hfind 20
        (by decide) n
    rw [e0, et, eu] at hup
    exact ⟨sn, h1, (hup (by decide) (by decide)).1⟩
  exact ⟨rampPool_reachable, hc, hfind, e0, et, eu, key 10, key 63, key 64, key 200⟩

/-! ## Duty cycle -/

theorem duty_run {b : Board} {pol : Nat} {s : State}
    {used free : List (Fin SOFTPWM_MAXCHANNELS)} (hI : Inv b pol s used free)
    (hc : s._isr_softcount = 255) {k : Fin SOFTPWM_MAXCHANNELS} (hk : k ∈ used)
    (hu : (s._softpwm_channels k).fadeuprate = 0)
    (hd : (s._softpwm_channels k).fadedownrate = 0)
    (hB : b.ownsLine (s._softpwm_channels k).pin) {fuel : Nat} (hf : used.length ≤ fuel) :
    ∀ j : Nat, 1 ≤ j → j ≤ 256 →
      ∃ sj, ticks fuel j s = some sj ∧ Inv b pol sj used free ∧
        sj._softpwm_channels k = isr_wrap_g (s._softpwm_channels k) ∧
        sj._isr_softcount = j - 1 ∧
        pinLevel b sj (s._softpwm_channels k).pin =
          dutyLevel (s._softpwm_channels k).polarity (s._softpwm_channels k).pwmvalue j := by
  have hv : isr_newcheckval (s._softpwm_channels k) = (s._softpwm_channels k).pwmvalue :=
    isr_newcheckval_nofade hu hd
  intro j hj
  induction j, hj using Nat.le_induction with
  | base =>
    intro _
    refine ⟨_, ?_, hI.wrap, ?_, rfl, ?_⟩
    · rw [ticks_one, tick_wrap hI hf hc]
    · rw [mapResult_channels, if_pos hk]
    · rw [wrap_level hI hk hB, hv]
      unfold dutyLevel
      have := (hI.bytes k).2.1
      split_ifs <;> first | rfl | omega
  | succ j hj ih =>
    intro hj2
    obtain ⟨sj, h1, h2, h3, h4, h5⟩ := ih (by omega)
    have hcj : sj._isr_softcount ≠ 255 := by omega
    have hpin : (sj._softpwm_channels k).pin = (s._softpwm_channels k).pin := by rw [h3]; rfl
    have hpol : (sj._softpwm_channels k).polarity = (s._softpwm_channels k).polarity := by
      rw [h3]; rfl
    have hcv : (sj._softpwm_channels k).checkval = (s._softpwm_channels k).pwmvalue := by
      rw [h3]; exact hv
    have hB' : b.ownsLine (sj._softpwm_channels k).pin := by rw [hpin]; exact hB
    have hl := nowrap_level h2 hk hB'
    rw [hpin, hpol, hcv, h5] at hl
    refine ⟨_, ?_, h2.nowrap hcj, ?_, ?_, ?_⟩
    · rw [ticks_add, h1, some_bind_eq, ticks_one, tick_nowrap h2 hf hcj]
    · rw [mapResult_id_channels, h3]
    · show sj._isr_softcount + 1 = j + 1 - 1
      omega
    · rw [hl]
      unfold dutyLevel
      split_ifs <;> first | rfl | omega

/-- C9: in a reachable state that is about to wrap, for pin `p` active on record `k` with
both fade rates 0 and target `v = pwmvalue`, on a board that gives `p` an output line of
its own: each interrupt `j = 1, ..., 256` of the cycle returns, `checkval` is `v` after
each of them, and the level of the pin after interrupt `j` is the on level for `j ≤ v`
and the off level for `j > v` when `0 < v < 255`, the on level throughout when `v = 255`
and the off level throughout when `v = 0`; the on level is `HIGH` and the off level `LOW`
for polarity `SOFTPWM_NORMAL`, and the two are exchanged for any other polarity. -/
theorem duty_cycle (b : Board) (pol : Nat) (s : State) (h : Reachable b pol s)
    (hc : s._isr_softcount = 255) (p : Int) (k : Fin SOFTPWM_MAXCHANNELS)
    (hfind : ch_find s._softpwm_channels s.g_used p = some k)
    (hu : (s._softpwm_channels k).fadeuprate = 0)
    (hd : (s._softpwm_channels k).fadedownrate = 0) (hB : b.ownsLine p) (fuel : Nat)
    (hf : SOFTPWM_MAXCHANNELS ≤ fuel) (j : Nat) (hj1 : 1 ≤ j) (hj2 : j ≤ 256) :
    (∃ sj, ticks fuel j s = some sj ∧
      ch_find sj._softpwm_channels sj.g_used p = some k ∧
      (sj._softpwm_channels k).checkval = (s._softpwm_channels k).pwmvalue ∧
      (sj._softpwm_channels k).pwmvalue = (s._softpwm_channels k).pwmvalue ∧
      (sj._softpwm_channels k).polarity = (s._softpwm_channels k).polarity ∧
      pinLevel b sj p =
        if (s._softpwm_channels k).pwmvalue = 0 then offLevel (s._softpwm_channels k).polarity
        else if (s._softpwm_channels k).pwmvalue = 255 then
          onLevel (s._softpwm_channels k).polarity
        else if j ≤ (s._softpwm_channels k).pwmvalue then
          onLevel (s._softpwm_channels k).polarity
        else offLevel (s._softpwm_channels k).polarity) ∧
    (onLevel SOFTPWM_NORMAL = HIGH ∧ offLevel SOFTPWM_NORMAL = LOW) ∧
    (∀ polarity, polarity ≠ SOFTPWM_NORMAL → onLevel polarity = LOW ∧ offLevel polarity = HIGH) ∧
    onLevel SOFTPWM_INVERTED = offLevel SOFTPWM_NORMAL ∧
    offLevel SOFTPWM_INVERTED = onLevel SOFTPWM_NORMAL := by
  obtain ⟨used, free, hI⟩ := h.inv
  obtain ⟨hk, hp⟩ := hI.find_eq_some hfind
  subst hp
  obtain ⟨sj, h1, h2, h3, -, h5⟩ :=
    duty_run hI hc hk hu hd hB (le_trans hI.used_length_le hf) j hj1 hj2
  refine ⟨⟨sj, h1, ?_, ?_, ?_, ?_, h5⟩, ⟨rfl, rfl⟩, fun polarity hne => ?_, rfl, rfl⟩
  · have := h2.find_some hk
    rw [h3] at this
    exact this
  · rw [h3]
    exact isr_newcheckval_nofade hu hd
  · rw [h3]; rfl
  · rw [h3]; rfl
  · unfold onLevel offLevel
    rw [if_neg hne, if_neg hne]
    exact ⟨rfl, rfl⟩

theorem unoBoard_ownsLine_5 : unoBoard.ownsLine 5 := by
  refine ⟨by decide, by decide, fun q h1 h2 h3 h4 => ?_⟩
  have h5 : (5 : Int) / 8 = 0 := by decide
  have h6 : (q / 8).toNat = 0 := by
    have : (0x25 : Nat) + (q / 8).toNat = 0x25 + ((5 : Int) / 8).toNat := h4
    rw [h5] at this
    simpa using this
  have h7 : q < 8 := by omega
  show 2 ^ (q % 8).toNat &&& 2 ^ ((5 : Int) % 8).toNat = 0
  interval_cases q <;> first | decide | exact absurd rfl h3

theorem duty_cycle_witness :
    Reachable unoBoard SOFTPWM_NORMAL pin5Pool ∧ pin5Pool._isr_softcount = 255 ∧
    ch_find pin5Pool._softpwm_channels pin5Pool.g_used 5 = some 19 ∧
    (pin5Pool._softpwm_channels 19).fadeuprate = 0 ∧
    (pin5Pool._softpwm_channels 19).fadedownrate = 0 ∧
    (pin5Pool._softpwm_channels 19).pwmvalue = 128 ∧
    (pin5Pool._softpwm_channels 19).polarity = SOFTPWM_NORMAL ∧
    unoBoard.ownsLine 5 ∧
    (∃ sj, ticks 20 1 pin5Pool = some sj ∧ (sj._softpwm_channels 19).checkval = 128 ∧
      pinLevel unoBoard sj 5 = HIGH) ∧
    (∃ sj, ticks 20 128 pin5Pool = some sj ∧ (sj._softpwm_channels 19).checkval = 128 ∧
      pinLevel unoBoard sj 5 = HIGH) ∧
    (∃ sj, ticks 20 129 pin5Pool = some sj ∧ (sj._softpwm_channels 19).checkval = 128 ∧
      pinLevel unoBoard sj 5 = LOW) ∧
    (∃ sj, ticks 20 256 pin5Pool = some sj ∧ (sj._softpwm_channels 19).checkval = 128 ∧
      pinLevel unoBoard sj 5 = LOW) := by
  have hfind : ch_find pin5Pool._softpwm_channels pin5Pool.g_used 5 = some 19 := by decide
  have hc : pin5Pool._isr_softcount = 255 := by decide
  have hu : (pin5Pool._softpwm_channels 19).fadeuprate = 0 := by decide
  have hd : (pin5Pool._softpwm_channels 19).fadedownrate = 0 := by decide
  have ev : (pin5Pool._softpwm_channels 19).pwmvalue = 128 := by decide
  have ep : (pin5Pool._softpwm_channels 19).polarity = SOFTPWM_NORMAL := by decide
  have key : ∀ j : Nat, 1 ≤ j → j ≤ 256 →
      ∃ sj, ticks 20 j pin5Pool = some sj ∧ (sj._softpwm_channels 19).checkval = 128 ∧
        pinLevel unoBoard sj 5 = if j ≤ 128 then HIGH else LOW := by
    intro j hj1 hj2
    obtain ⟨⟨sj, h1, -, h3, -, -, h6⟩, -⟩ :=
      duty_cycle unoBoard SOFTPWM_NORMAL pin5Pool pin5Pool_reachable hc 5 19 hfind hu hd
        unoBoard_ownsLine_5 20 (by decide) j hj1 hj2
    rw [ev] at h3
    rw [ev, ep] at h6
    refine ⟨sj, h1, h3, ?_⟩
    rw [h6]
    simp [onLevel, offLevel]
  have k1 := key 1 (by decide) (by decide)
  have k2 := key 128 (by decide) (by decide)
  have k3 := key 129 (by decide) (by decide)
  have k4 := key 256 (by decide) (by decide)
  simp only [Nat.reduceLeDiff, if_true, if_false] at k1 k2 k3 k4
  exact ⟨pin5Pool_reachable, hc, hfind, hu, hd, ev, ep, unoBoard_ownsLine_5, k1, k2, k3, k4⟩

/-! ## Hard reset -/

theorem fadingPool_run :
    runOps unoBoard 0 [Op.Set 5 0 0, Op.SetFadeTime 5 1000 1000] freshPool =
      some fadingPool := by
  have h : (runOps unoBoard 0 [Op.Set 5 0 0, Op.SetFadeTime 5 1000 1000] freshPool).isSome =
      true := by decide
  unfold fadingPool
  cases hr : runOps unoBoard 0 [Op.Set 5 0 0, Op.SetFadeTime 5 1000 1000] freshPool with
  | none => rw [hr] at h; cases h
  | some x => rfl

theorem fadingPool_reachable : Reachable unoBoard SOFTPWM_NORMAL fadingPool :=
  Reachable.runOps _ freshPool fadingPool freshPool_reachable (by decide) fadingPool_run

/-- C10, as stated, fails: pin 5 is active with `checkval = 0` and fade-up rate 4; after
`SoftPWMSet(5, 255, hardset = 1)` the next interrupt is a cycle wrap (it leaves
`_isr_softcount = 0`) and leaves `checkval = 4`, not 255. -/
theorem hardset_still_ramps :
    Reachable unoBoard SOFTPWM_NORMAL fadingPool ∧
    currentValue fadingPool 5 = some 0 ∧
    ((SoftPWMSet unoBoard 20 5 255 1 fadingPool).bind (SoftPWM_Timer_Interrupt 20)).bind
      (fun s => currentValue s 5) = some 4 ∧
    ((SoftPWMSet unoBoard 20 5 255 1 fadingPool).bind (SoftPWM_Timer_Interrupt 20)).map
      (fun s => s._isr_softcount) = some 0 :=
  ⟨fadingPool_reachable, by decide, by decide, by decide⟩

/-- C10, amended: in a reachable state with pin `p` active on record `k`,
`SoftPWMSet(p, v, hardset)` with a non-zero `hardset` returns with `TCNT = 0` and
`_isr_softcount = 0xff`, so that the very next interrupt is a cycle wrap; that interrupt
returns and leaves in `checkval` one fade step from the former `checkval` towards `v`
(the step of the specification with the record's fade rates), which is `v` itself when
both fade rates are 0. -/
theorem hardset_restarts_cycle (b : Board) (pol : Nat) (s : State) (h : Reachable b pol s)
    (p : Int) (k : Fin SOFTPWM_MAXCHANNELS)
    (hfind : ch_find s._softpwm_channels s.g_used p = some k) (v : Nat) (hv : v < 256)
    (hardset : Nat) (hh : hardset ≠ 0) (fuel : Nat) (hf : SOFTPWM_MAXCHANNELS ≤ fuel) :
    ∃ s1 s2, SoftPWMSet b fuel p v hardset s = some s1 ∧
      s1.TCNT = 0 ∧ s1._isr_softcount = 0xff ∧
      SoftPWM_Timer_Interrupt fuel s1 = some s2 ∧ s2._isr_softcount = 0 ∧
      ch_find s2._softpwm_channels s2.g_used p = some k ∧
      ((s2._softpwm_channels k).checkval : Int) =
        fadeSpec ((s._softpwm_channels k).checkval : Int) (v : Int)
          ((s._softpwm_channels k).fadeuprate : Int)
          ((s._softpwm_channels k).fadedownrate : Int) ∧
      ((s._softpwm_channels k).fadeuprate = 0 → (s._softpwm_channels k).fadedownrate = 0 →
        (s2._softpwm_channels k).checkval = v) := by
  obtain ⟨used, free, hI⟩ := h.inv
  obtain ⟨hk, hp⟩ := hI.find_eq_some hfind
  have hpos := (hI.used_pin k hk).1
  rw [hp] at hpos
  have hI1 : Inv b pol (HARDRESET hardset (mapBody (set_g v) (fun _ _ io => io) k s)) used free :=
    (hI.update_one hk _ _ (set_g_keeps v) (set_g_bytes hv)).hardreset hardset
  have hch : (HARDRESET hardset (mapBody (set_g v) (fun _ _ io => io) k s))._softpwm_channels k =
      set_g v (s._softpwm_channels k) := by
    rw [HARDRESET_channels, mapBody_channels, if_pos rfl]
  have hcnt : (HARDRESET hardset (mapBody (set_g v) (fun _ _ io => io) k s))._isr_softcount =
      0xff := by
    unfold HARDRESET
    rw [if_pos hh]
  have htc : (HARDRESET hardset (mapBody (set_g v) (fun _ _ io => io) k s)).TCNT = 0 := by
    unfold HARDRESET
    rw [if_pos hh]
  have hb := hI.bytes k
  have hk2 : (mapResult isr_wrap_g (fun _ c io => isr_wrap_write c io) used
      { HARDRESET hardset (mapBody (set_g v) (fun _ _ io => io) k s) with
        _isr_softcount := 0 })._softpwm_channels k =
      isr_wrap_g (set_g v (s._softpwm_channels k)) := by
    rw [mapResult_channels, if_pos hk]
    show isr_wrap_g ((HARDRESET hardset _)._softpwm_channels k) = _
    rw [hch]
  refine ⟨_, _, SoftPWMSet_found b fuel v hardset hpos hfind, htc, hcnt,
    tick_wrap hI1 (le_trans hI1.used_length_le hf) hcnt, rfl, ?_, ?_, ?_⟩
  · have := hI1.wrap.find_some hk
    rw [hk2] at this
    have hp' : (isr_wrap_g (set_g v (s._softpwm_channels k))).pin = p := hp
    rw [hp'] at this
    exact this
  · rw [hk2]
    exact isr_newcheckval_eq_fadeSpec (set_g v (s._softpwm_channels k)) hv hb.2.2.1
  · intro hu hd
    rw [hk2]
    exact isr_newcheckval_nofade (c := set_g v (s._softpwm_channels k)) hu hd

theorem hardset_restarts_cycle_witness :
    Reachable unoBoard SOFTPWM_NORMAL fadingPool ∧
    ch_find fadingPool._softpwm_channels fadingPool.g_used 5 = some 19 ∧
    (255 : Nat) < 256 ∧ (1 : Nat) ≠ 0 ∧ SOFTPWM_MAXCHANNELS ≤ 20 ∧
    ∃ s1 s2, SoftPWMSet unoBoard 20 5 255 1 fadingPool = some s1 ∧
      s1.TCNT = 0 ∧ s1._isr_softcount = 0xff ∧
      SoftPWM_Timer_Interrupt 20 s1 = some s2 ∧ s2._isr_softcount = 0 ∧
      ch_find s2._softpwm_channels s2.g_used 5 = some 19 ∧
      ((s2._softpwm_channels 19).checkval : Int) =
        fadeSpec ((fadingPool._softpwm_channels 19).checkval : Int) ((255 : Nat) : Int)
          ((fadingPool._softpwm_channels 19).fadeuprate : Int)
          ((fadingPool._softpwm_channels 19).fadedownrate : Int) ∧
      ((fadingPool._softpwm_channels 19).fadeuprate = 0 →
        (fadingPool._softpwm_channels 19).fadedownrate = 0 →
        (s2._softpwm_channels 19).checkval = 255) :=
  ⟨fadingPool_reachable, by decide, by decide, by decide, by decide,
    hardset_restarts_cycle unoBoard SOFTPWM_NORMAL fadingPool fadingPool_reachable 5 19
      (by decide) 255 (by decide) 1 (by decide) 20 (by decide)⟩

/-! ## `SoftPWMSetPercent` -/

/-- C15: for every pin argument, every percent from 0 to 100, every `hardset` flag, every
fuel and every state, `SoftPWMSetPercent(pin, percent, hardset)` gives exactly the result
of `SoftPWMSet(pin, percent * 255 / 100, hardset)`; the `uint16_t` product does not
overflow, the scaled value is at most 255, 0 percent gives 0 and 100 percent gives
255. -/
theorem setPercent_eq_set (b : Board) (fuel : Nat) (pin : Int) (percent hardset : Nat)
    (s : State) (hp : percent ≤ 100) :
    SoftPWMSetPercent b fuel pin percent hardset s =
      SoftPWMSet b fuel pin (percent * 255 / 100) hardset s ∧
    percent * 255 < 65536 ∧ percent * 255 / 100 ≤ 255 ∧
    SoftPWMSetPercent b fuel pin 0 hardset s = SoftPWMSet b fuel pin 0 hardset s ∧
    SoftPWMSetPercent b fuel pin 100 hardset s = SoftPWMSet b fuel pin 255 hardset s := by
  have h1 : percent * 255 < 65536 := by omega
  have h2 : percent * 255 / 100 ≤ 255 := by omega
  have h3 : ((percent * 255) % 65536 / 100) % 256 = percent * 255 / 100 := by
    rw [Nat.mod_eq_of_lt h1, Nat.mod_eq_of_lt (by omega)]
  refine ⟨?_, h1, h2, rfl, rfl⟩
  unfold SoftPWMSetPercent
  rw [h3]

theorem setPercent_eq_set_witness :
    (50 : Nat) ≤ 100 ∧
    (SoftPWMSetPercent unoBoard 20 5 50 0 pin5Pool =
      SoftPWMSet unoBoard 20 5 (50 * 255 / 100) 0 pin5Pool ∧
    50 * 255 < 65536 ∧ 50 * 255 / 100 ≤ 255 ∧
    SoftPWMSetPercent unoBoard 20 5 0 0 pin5Pool = SoftPWMSet unoBoard 20 5 0 0 pin5Pool ∧
    SoftPWMSetPercent unoBoard 20 5 100 0 pin5Pool =
      SoftPWMSet unoBoard 20 5 255 0 pin5Pool) :=
  ⟨by decide, setPercent_eq_set unoBoard 20 5 50 0 pin5Pool (by decide)⟩

/-! ## `SoftPWMBegin` from any memory image -/

/-- C16: for every prior state (any records active, any link values, any field values) and
every default polarity, after `SoftPWMBegin` the active list is empty, the `next` chain
from `g_free` is a proper list that holds each of the 20 records exactly once, and every
record has `pin = -1`, polarity `SOFTPWM_NORMAL` and both fade rates 0. -/
theorem begin_reinitialises (b : Board) (defaultPolarity : Nat) (s0 : State) :
    (SoftPWMBegin b defaultPolarity s0).g_used = none ∧
    IsList (SoftPWMBegin b defaultPolarity s0)._softpwm_channels none [] ∧
    ∃ free : List (Fin SOFTPWM_MAXCHANNELS),
      IsList (SoftPWMBegin b defaultPolarity s0)._softpwm_channels
        (SoftPWMBegin b defaultPolarity s0).g_free free ∧
      (∀ i, free.count i = 1) ∧ free.length = SOFTPWM_MAXCHANNELS ∧
      ∀ i, ((SoftPWMBegin b defaultPolarity s0)._softpwm_channels i).pin = -1 ∧
        ((SoftPWMBegin b defaultPolarity s0)._softpwm_channels i).polarity = SOFTPWM_NORMAL ∧
        ((SoftPWMBegin b defaultPolarity s0)._softpwm_channels i).fadeuprate = 0 ∧
        ((SoftPWMBegin b defaultPolarity s0)._softpwm_channels i).fadedownrate = 0 := by
  have h := SoftPWMBegin_loop_spec (List.finRange SOFTPWM_MAXCHANNELS) s0._softpwm_channels
    none [] rfl (by simp) (by simpa using List.nodup_finRange SOFTPWM_MAXCHANNELS)
  simp only [List.append_nil] at h
  obtain ⟨h1, h2, -⟩ := h
  have hnd : (List.finRange SOFTPWM_MAXCHANNELS).reverse.Nodup := by
    simpa using List.nodup_finRange SOFTPWM_MAXCHANNELS
  have hall : ∀ i : Fin SOFTPWM_MAXCHANNELS, i ∈ (List.finRange SOFTPWM_MAXCHANNELS).reverse :=
    fun i => List.mem_reverse.mpr (List.mem_finRange i)
  refine ⟨rfl, rfl, (List.finRange SOFTPWM_MAXCHANNELS).reverse, h1,
    fun i => List.count_eq_one_of_mem hnd (hall i), by simp, fun i => ?_⟩
  obtain ⟨r1, r2, -, r4, r5⟩ := h2 i (hall i)
  exact ⟨r1, r2, r4, r5⟩

/-! ## Well-formed lists have no repetition -/

theorem IsList.suffix {ch : Channels} :
    ∀ (l1 l2 : List (Fin SOFTPWM_MAXCHANNELS)) (head : Ptr) (j : Fin SOFTPWM_MAXCHANNELS),
      IsList ch head (l1 ++ j :: l2) → IsList ch (ch j).next l2
  | [], _, _, _, hl => hl.2
  | _ :: l1, l2, _, j, hl => IsList.suffix l1 l2 _ j hl.2

/-- A `next` chain that ends in `NULL` visits no record twice. -/
theorem IsList.nodup {ch : Channels} :
    ∀ (l : List (Fin SOFTPWM_MAXCHANNELS)) (head : Ptr), IsList ch head l → l.Nodup
  | [], _, _ => List.nodup_nil
  | j :: l, _, hl => by
    refine List.nodup_cons.mpr ⟨fun hj => ?_, IsList.nodup l _ hl.2⟩
    obtain ⟨l1, l2, e⟩ := List.append_of_mem hj
    have h2 : IsList ch (ch j).next l2 := IsList.suffix l1 l2 _ j (e ▸ hl.2)
    have e2 : l = l2 := IsList_unique l l2 _ hl.2 h2
    have := congrArg List.length e
    rw [← e2] at this
    simp at this
    omega

/-! ## List removal -/

/-- C19: for every array, every head and every sequence `l` such that the list from the
head is doubly linked and well-formed (the head has no `prev`, every other record's `prev`
is its predecessor, the `next` chain spells `l` and ends in `NULL`), and every item of
`l` (sole element, head, tail or middle), `ch_remove` returns; `l` has no repetition, the
new list is well-formed again and spells `l` with that item erased, the removed item has
`next` and `prev` cleared, no record outside `l` is touched and no data field of any
record changes. -/
theorem remove_unlinks (ch : Channels) (head : Ptr) (l : List (Fin SOFTPWM_MAXCHANNELS))
    (item : Fin SOFTPWM_MAXCHANNELS) (hl : IsDList ch none head l) (hm : item ∈ l) :
    ∃ ch' head', ch_remove ch head item = some (ch', head') ∧ l.Nodup ∧
      IsDList ch' none head' (l.erase item) ∧ item ∉ l.erase item ∧
      (∀ j, j ≠ item → (j ∈ l.erase item ↔ j ∈ l)) ∧
      (ch' item).next = none ∧ (ch' item).prev = none ∧
      (∀ j, j ∉ l → ch' j = ch j) ∧ (∀ j, (ch' j).data = (ch j).data) := by
  have hnd : l.Nodup := IsList.nodup l head hl.isList
  obtain ⟨ch', head', h1, h2, h3, h4, h5, h6⟩ := ch_remove_spec item hl hnd hm
  refine ⟨ch', head', h1, hnd, h2, ?_, fun j hj => ?_, h5, h6, h3, h4⟩
  · intro h
    exact ((List.Nodup.mem_erase_iff hnd).mp h).1 rfl
  · rw [List.Nodup.mem_erase_iff hnd]
    exact ⟨fun h => h.2, fun h => ⟨hj, h⟩⟩

set_option maxRecDepth 1000000 in
theorem remove_unlinks_witness :
    IsDList fourPool._softpwm_channels none fourPool.g_used [16, 17, 18, 19] ∧
    ((17 : Fin SOFTPWM_MAXCHANNELS) ∈ [16, 17, 18, 19]) ∧
    ∃ ch' head', ch_remove fourPool._softpwm_channels fourPool.g_used 17 = some (ch', head') ∧
      ([16, 17, 18, 19] : List (Fin SOFTPWM_MAXCHANNELS)).Nodup ∧
      IsDList ch' none head' (([16, 17, 18, 19] : List (Fin SOFTPWM_MAXCHANNELS)).erase 17) ∧
      (17 : Fin SOFTPWM_MAXCHANNELS) ∉
        ([16, 17, 18, 19] : List (Fin SOFTPWM_MAXCHANNELS)).erase 17 ∧
      (∀ j, j ≠ 17 →
        (j ∈ ([16, 17, 18, 19] : List (Fin SOFTPWM_MAXCHANNELS)).erase 17 ↔
          j ∈ ([16, 17, 18, 19] : List (Fin SOFTPWM_MAXCHANNELS)))) ∧
      (ch' 17).next = none ∧ (ch' 17).prev = none ∧
      (∀ j, j ∉ ([16, 17, 18, 19] : List (Fin SOFTPWM_MAXCHANNELS)) →
        ch' j = fourPool._softpwm_channels j) ∧
      (∀ j, (ch' j).data = (fourPool._softpwm_channels j).data) :=
  ⟨by decide, by decide,
    remove_unlinks fourPool._softpwm_channels fourPool.g_used [16, 17, 18, 19] 17 (by decide)
      (by decide)⟩

/-! ## The exact effect of `SoftPWMSetFadeTime` -/

theorem SoftPWMSetFadeTime_loop_none (b : Board) {pin : Int} (hp : 0 ≤ pin) (up down : Nat) :
    ∀ (rest : List (Fin SOFTPWM_MAXCHANNELS)) (ch : Channels),
      (∀ i ∈ rest, (ch i).pin ≠ pin) → SoftPWMSetFadeTime_loop b pin up down rest ch = ch
  | [], _, _ => rfl
  | i :: rest, ch, h => by
    unfold SoftPWMSetFadeTime_loop
    have hc : ¬ ((pin < 0 ∧ (ch i).pin ≥ 0) ∨ (pin ≥ 0 ∧ (ch i).pin = pin)) := by
      have := h i (List.mem_cons_self _ _)
      rintro (⟨h1, -⟩ | ⟨-, h2⟩)
      · omega
      · exact this h2
    rw [if_neg hc]
    exact SoftPWMSetFadeTime_loop_none b hp up down rest ch
      (fun j hj => h j (List.mem_cons_of_mem _ hj))

theorem SoftPWMSetFadeTime_loop_one (b : Board) {pin : Int} (hp : 0 ≤ pin) (up down : Nat)
    (k : Fin SOFTPWM_MAXCHANNELS) :
    ∀ (rest : List (Fin SOFTPWM_MAXCHANNELS)) (ch : Channels), k ∈ rest → (ch k).pin = pin →
      (∀ i ∈ rest, (ch i).pin = pin → i = k) →
      SoftPWMSetFadeTime_loop b pin up down rest ch = Function.update ch k (fade_g b up down (ch k))
  | [], _, hk, _, _ => by simp at hk
  | i :: rest, ch, hk, hpk, hu => by
    unfold SoftPWMSetFadeTime_loop
    by_cases hik : i = k
    · subst hik
      have hc : (pin < 0 ∧ (ch i).pin ≥ 0) ∨ (pin ≥ 0 ∧ (ch i).pin = pin) := Or.inr ⟨hp, hpk⟩
      rw [if_pos hc]
      simp only
      rw [if_pos hp]
      rfl
    · have hne : (ch i).pin ≠ pin := fun e => hik (hu i (List.mem_cons_self _ _) e)
      have hc : ¬ ((pin < 0 ∧ (ch i).pin ≥ 0) ∨ (pin ≥ 0 ∧ (ch i).pin = pin)) := by
        rintro (⟨h1, -⟩ | ⟨-, h2⟩)
        · omega
        · exact hne h2
      rw [if_neg hc]
      have hk' : k ∈ rest := by
        rcases List.mem_cons.mp hk with e | h
        · exact absurd e.symm hik
        · exact h
      exact SoftPWMSetFadeTime_loop_one b hp up down k rest ch hk' hpk
        (fun j hj => hu j (List.mem_cons_of_mem _ hj))

theorem SoftPWMSetFadeTime_loop_all (b : Board) {pin : Int} (hp : pin < 0) (up down : Nat) :
    ∀ (rest : List (Fin SOFTPWM_MAXCHANNELS)) (ch : Channels) (j : Fin SOFTPWM_MAXCHANNELS),
      rest.Nodup →
      SoftPWMSetFadeTime_loop b pin up down rest ch j =
        if j ∈ rest ∧ 0 ≤ (ch j).pin then fade_g b up down (ch j) else ch j
  | [], _, _, _ => by simp [SoftPWMSetFadeTime_loop]
  | i :: rest, ch, j, hnd => by
    have hir : i ∉ rest := (List.nodup_cons.mp hnd).1
    have hnp : ¬ pin ≥ 0 := by omega
    unfold SoftPWMSetFadeTime_loop
    by_cases hc : (pin < 0 ∧ (ch i).pin ≥ 0) ∨ (pin ≥ 0 ∧ (ch i).pin = pin)
    · have hpi : 0 ≤ (ch i).pin := by
        rcases hc with ⟨-, h⟩ | ⟨h, -⟩
        · exact h
        · omega
      rw [if_pos hc]
      simp only
      rw [if_neg hnp, SoftPWMSetFadeTime_loop_all b hp up down rest _ j (List.nodup_cons.mp hnd).2]
      by_cases hji : j = i
      · subst hji
        rw [Function.update_same]
        simp [hir, hpi, fade_g]
      · rw [Function.update_noteq hji]
        simp [hji]
    · rw [if_neg hc, SoftPWMSetFadeTime_loop_all b hp up down rest ch j (List.nodup_cons.mp hnd).2]
      by_cases hji : j = i
      · subst hji
        have hpi : ¬ 0 ≤ (ch j).pin := fun h => hc (Or.inl ⟨hp, h⟩)
        simp [hir, hpi]
      · simp [hji]

theorem isReset_pin_ne {c : softPWMChannel} (hr : c.isReset) {pin : Int} (hp : 0 ≤ pin) :
    c.pin ≠ pin := by
  have : c.pin = -1 := hr.1
  omega

/-- On the invariant, `SoftPWMSetFadeTime` on the pin of the active record `k` replaces
the two fade rates of that record and nothing else. -/
theorem Inv.setFadeTime_found {b : Board} {pol : Nat} {s : State}
    {used free : List (Fin SOFTPWM_MAXCHANNELS)} (hI : Inv b pol s used free) {p : Int}
    {k : Fin SOFTPWM_MAXCHANNELS} (hfind : ch_find s._softpwm_channels s.g_used p = some k)
    (up down : Nat) :
    SoftPWMSetFadeTime b p up down s =
      { s with _softpwm_channels :=
          Function.update s._softpwm_channels k (fade_g b up down (s._softpwm_channels k)) } := by
  obtain ⟨hk, hp⟩ := hI.find_eq_some hfind
  have hpos := (hI.used_pin k hk).1
  rw [hp] at hpos
  unfold SoftPWMSetFadeTime
  simp only
  rw [SoftPWMSetFadeTime_loop_one b (le_of_lt hpos) up down k _ _ (List.mem_finRange k) hp]
  intro i _ hi
  rcases hI.all i with hu | hf
  · exact hI.pin_inj i hu k hk (hi.trans hp.symm)
  · exact absurd hi (isReset_pin_ne (hI.free_reset i hf) (le_of_lt hpos))

/-- On the invariant, `SoftPWMSetFadeTime` on a pin `≥ 0` that is not active changes
nothing. -/
theorem Inv.setFadeTime_absent {b : Board} {pol : Nat} {s : State}
    {used free : List (Fin SOFTPWM_MAXCHANNELS)} (hI : Inv b pol s used free) {p : Int}
    (hp : 0 ≤ p) (hfind : ch_find s._softpwm_channels s.g_used p = none) (up down : Nat) :
    SoftPWMSetFadeTime b p up down s = s := by
  unfold SoftPWMSetFadeTime
  simp only
  rw [SoftPWMSetFadeTime_loop_none b hp up down]
  intro i _
  rcases hI.all i with hu | hf
  · exact hI.find_eq_none hfind i hu
  · exact isReset_pin_ne (hI.free_reset i hf) hp

/-- On the invariant, `SoftPWMSetFadeTime` on a negative pin argument replaces the two fade
rates of every active record and nothing else. -/
theorem Inv.setFadeTime_all {b : Board} {pol : Nat} {s : State}
    {used free : List (Fin SOFTPWM_MAXCHANNELS)} (hI : Inv b pol s used free) {p : Int}
    (hp : p < 0) (up down : Nat) :
    SoftPWMSetFadeTime b p up down s =
      { s with _softpwm_channels := fun j =>
          if j ∈ used then fade_g b up down (s._softpwm_channels j) else s._softpwm_channels j } := by
  unfold SoftPWMSetFadeTime
  simp only
  congr 1
  funext j
  rw [SoftPWMSetFadeTime_loop_all b hp up down _ _ j (List.nodup_finRange _)]
  rcases hI.all j with hu | hf
  · have := (hI.used_pin j hu).1
    rw [if_pos ⟨List.mem_finRange j, le_of_lt this⟩, if_pos hu]
  · have hnu : j ∉ used := fun hu => hI.not_free_of_used hu hf
    have hpin : (s._softpwm_channels j).pin = -1 := (hI.free_reset j hf).1
    rw [if_neg hnu, if_neg]
    rw [hpin]
    rintro ⟨-, h⟩
    omega

/-! ## The fade rate at 16 MHz -/

theorem fadeAmount_16MHz {b : Board} (hF : b.F_CPU = 16000000) (d : Nat) :
    fadeAmount b d = if d > 0 then (4080 / d) % 256 else 0 := by
  unfold fadeAmount SOFTPWM_OCR
  rw [hF]
  rfl

theorem rate_of_long {d : Nat} (hd : 16 ≤ d) : (4080 / d) % 256 = 4080 / d ∧ 4080 / d ≤ 255 := by
  have h : 4080 / d < 256 := (Nat.div_lt_iff_lt_mul (by omega)).mpr (by omega)
  exact ⟨Nat.mod_eq_of_lt h, by omega⟩

/-! ## The stored fade rate -/

/-- C13, as stated, fails: on the 16 MHz board, with pin 5 active, a ramp-up duration of
15 ms stores the rate 16 and a ramp-down duration of 1 ms stores 240, where the clamped
formula gives 255 for both; the longer duration 16 ms stores 255, so the shorter duration
15 ms gets the smaller rate. -/
theorem fade_rate_wraps :
    Reachable unoBoard SOFTPWM_NORMAL pin5Pool ∧
    ch_find pin5Pool._softpwm_channels pin5Pool.g_used 5 = some 19 ∧
    ((SoftPWMSetFadeTime unoBoard 5 15 1 pin5Pool)._softpwm_channels 19).fadeuprate = 16 ∧
    ((SoftPWMSetFadeTime unoBoard 5 15 1 pin5Pool)._softpwm_channels 19).fadedownrate = 240 ∧
    min 255 (255 * 16 / 15) = 255 ∧ min 255 (255 * 16 / 1) = 255 ∧
    ((SoftPWMSetFadeTime unoBoard 5 16 16 pin5Pool)._softpwm_channels 19).fadeuprate = 255 :=
  ⟨pin5Pool_reachable, by decide, by decide, by decide, by decide, by decide, by decide⟩

theorem fade_g_rates (b : Board) (up down : Nat) (c : softPWMChannel) :
    (fade_g b up down c).fadeuprate = fadeAmount b up ∧
      (fade_g b up down c).fadedownrate = fadeAmount b down := ⟨rfl, rfl⟩

/-- C13, amended: at `F_CPU` = 16 MHz the cycle period in whole milliseconds is 16, and in
a reachable state with pin `p` active on record `k`, `SoftPWMSetFadeTime` stores for each
of the two durations `d` the rate `(255 * 16 / d) % 256` when `d > 0` and 0 when `d = 0`:
the quotient is truncated to 8 bits, not clamped. For every `d ≥ 16` this is
`min 255 (255 * 16 / d)`, it is 255 for `d = 16`, and among durations of at least 16 ms a
shorter one never gets a smaller rate than a longer one. -/
theorem fade_rate_stored (b : Board) (pol : Nat) (s : State) (h : Reachable b pol s)
    (hF : b.F_CPU = 16000000) (p : Int) (k : Fin SOFTPWM_MAXCHANNELS)
    (hfind : ch_find s._softpwm_channels s.g_used p = some k) (up down : Nat) :
    (SOFTPWM_OCR b * 256) % 2 ^ 32 / (b.F_CPU / 8000) = 16 ∧
    ((SoftPWMSetFadeTime b p up down s)._softpwm_channels k).fadeuprate =
      (if up > 0 then (255 * 16 / up) % 256 else 0) ∧
    ((SoftPWMSetFadeTime b p up down s)._softpwm_channels k).fadedownrate =
      (if down > 0 then (255 * 16 / down) % 256 else 0) ∧
    (∀ d : Nat, 16 ≤ d → fadeAmount b d = min 255 (255 * 16 / d)) ∧
    fadeAmount b 16 = 255 ∧
    (∀ d1 d2 : Nat, 16 ≤ d1 → d1 ≤ d2 → fadeAmount b d2 ≤ fadeAmount b d1) := by
  obtain ⟨used, free, hI⟩ := h.inv
  have hlong : ∀ d : Nat, 16 ≤ d → fadeAmount b d = 4080 / d := by
    intro d hd
    rw [fadeAmount_16MHz hF, if_pos (by omega), (rate_of_long hd).1]
  refine ⟨?_, ?_, ?_, fun d hd => ?_, ?_, fun d1 d2 h1 h2 => ?_⟩
  · unfold SOFTPWM_OCR
    rw [hF]
    rfl
  · rw [hI.setFadeTime_found hfind]
    simp only [Function.update_same]
    rw [(fade_g_rates b up down _).1, fadeAmount_16MHz hF]
  · rw [hI.setFadeTime_found hfind]
    simp only [Function.update_same]
    rw [(fade_g_rates b up down _).2, fadeAmount_16MHz hF]
  · rw [hlong d hd]
    have := (rate_of_long hd).2
    show 4080 / d = min 255 (4080 / d)
    omega
  · rw [hlong 16 (le_refl 16)]
  · rw [hlong d1 h1, hlong d2 (le_trans h1 h2)]
    exact Nat.div_le_div_left h2 (by omega)

theorem fade_rate_stored_witness :
    Reachable unoBoard SOFTPWM_NORMAL pin5Pool ∧ unoBoard.F_CPU = 16000000 ∧
    ch_find pin5Pool._softpwm_channels pin5Pool.g_used 5 = some 19 ∧
    ((SOFTPWM_OCR unoBoard * 256) % 2 ^ 32 / (unoBoard.F_CPU / 8000) = 16 ∧
    ((SoftPWMSetFadeTime unoBoard 5 1000 15 pin5Pool)._softpwm_channels 19).fadeuprate =
      (if 1000 > 0 then (255 * 16 / 1000) % 256 else 0) ∧
    ((SoftPWMSetFadeTime unoBoard 5 1000 15 pin5Pool)._softpwm_channels 19).fadedownrate =
      (if 15 > 0 then (255 * 16 / 15) % 256 else 0) ∧
    (∀ d : Nat, 16 ≤ d → fadeAmount unoBoard d = min 255 (255 * 16 / d)) ∧
    fadeAmount unoBoard 16 = 255 ∧
    (∀ d1 d2 : Nat, 16 ≤ d1 → d1 ≤ d2 → fadeAmount unoBoard d2 ≤ fadeAmount unoBoard d1)) :=
  ⟨pin5Pool_reachable, by decide, by decide,
    fade_rate_stored unoBoard SOFTPWM_NORMAL pin5Pool pin5Pool_reachable (by decide) 5 19
      (by decide) 1000 15⟩

/-- C20, as stated, fails: on the 16 MHz board, with pin 5 active at `checkval = 0` and
target 128, the non-zero durations 5000 ms store the fade rate 0, and the next cycle wrap
jumps `checkval` to 128. -/
theorem long_fade_jumps :
    Reachable unoBoard SOFTPWM_NORMAL pin5Pool ∧
    currentValue pin5Pool 5 = some 0 ∧
    ((SoftPWMSetFadeTime unoBoard 5 5000 5000 pin5Pool)._softpwm_channels 19).fadeuprate = 0 ∧
    ((SoftPWMSetFadeTime unoBoard 5 5000 5000 pin5Pool)._softpwm_channels 19).fadedownrate = 0 ∧
    (SoftPWM_Timer_Interrupt 20 (SoftPWMSetFadeTime unoBoard 5 5000 5000 pin5Pool)).bind
      (fun s => currentValue s 5) = some 128 :=
  ⟨pin5Pool_reachable, by decide, by decide, by decide, by decide⟩

theorem rate_pos_of_le {d : Nat} (h1 : 1 ≤ d) (h2 : d ≤ 4080) : 1 ≤ (4080 / d) % 256 := by
  by_cases hd : 16 ≤ d
  · rw [(rate_of_long hd).1]
    exact Nat.div_pos h2 (by omega)
  · have hlt : d < 16 := by omega
    interval_cases d <;> decide

/-- C20, amended: at `F_CPU` = 16 MHz, in a reachable state with pin `p` active on record
`k`, `SoftPWMSetFadeTime` stores a fade rate of at least 1 for every duration from 1 to
4080 ms, and the rate 0 for every duration above 4080 ms (the integer quotient
`255 * 16 / d` is 0) as for the duration 0. -/
theorem fade_rate_positive (b : Board) (pol : Nat) (s : State) (h : Reachable b pol s)
    (hF : b.F_CPU = 16000000) (p : Int) (k : Fin SOFTPWM_MAXCHANNELS)
    (hfind : ch_find s._softpwm_channels s.g_used p = some k) (up down : Nat) :
    (1 ≤ up → up ≤ 4080 →
      1 ≤ ((SoftPWMSetFadeTime b p up down s)._softpwm_channels k).fadeuprate) ∧
    (1 ≤ down → down ≤ 4080 →
      1 ≤ ((SoftPWMSetFadeTime b p up down s)._softpwm_channels k).fadedownrate) ∧
    (4080 < up ∨ up = 0 →
      ((SoftPWMSetFadeTime b p up down s)._softpwm_channels k).fadeuprate = 0) ∧
    (4080 < down ∨ down = 0 →
      ((SoftPWMSetFadeTime b p up down s)._softpwm_channels k).fadedownrate = 0) := by
  obtain ⟨used, free, hI⟩ := h.inv
  have hz : ∀ d : Nat, 4080 < d ∨ d = 0 → fadeAmount b d = 0 := by
    intro d hd
    rw [fadeAmount_16MHz hF]
    rcases hd with hd | hd
    · rw [if_pos (by omega), Nat.div_eq_of_lt hd]
    · rw [if_neg (by omega)]
  have hpos : ∀ d : Nat, 1 ≤ d → d ≤ 4080 → 1 ≤ fadeAmount b d := by
    intro d h1 h2
    rw [fadeAmount_16MHz hF, if_pos (by omega)]
    exact rate_pos_of_le h1 h2
  rw [hI.setFadeTime_found hfind]
  simp only [Function.update_same]
  rw [(fade_g_rates b up down _).1, (fade_g_rates b up down _).2]
  exact ⟨hpos up, hpos down, hz up, hz down⟩

theorem fade_rate_positive_witness :
    Reachable unoBoard SOFTPWM_NORMAL pin5Pool ∧ unoBoard.F_CPU = 16000000 ∧
    ch_find pin5Pool._softpwm_channels pin5Pool.g_used 5 = some 19 ∧
    ((1 ≤ 4080 → 4080 ≤ 4080 →
      1 ≤ ((SoftPWMSetFadeTime unoBoard 5 4080 4081 pin5Pool)._softpwm_channels 19).fadeuprate) ∧
    (1 ≤ 4081 → 4081 ≤ 4080 →
      1 ≤ ((SoftPWMSetFadeTime unoBoard 5 4080 4081 pin5Pool)._softpwm_channels 19).fadedownrate) ∧
    (4080 < 4080 ∨ 4080 = 0 →
      ((SoftPWMSetFadeTime unoBoard 5 4080 4081 pin5Pool)._softpwm_channels 19).fadeuprate = 0) ∧
    (4080 < 4081 ∨ 4081 = 0 →
      ((SoftPWMSetFadeTime unoBoard 5 4080 4081 pin5Pool)._softpwm_channels 19).fadedownrate =
        0)) :=
  ⟨pin5Pool_reachable, by decide, by decide,
    fade_rate_positive unoBoard SOFTPWM_NORMAL pin5Pool pin5Pool_reachable (by decide) 5 19
      (by decide) 4080 4081⟩

/-! ## Fade rates are per-channel state -/

/-- C14: in a reachable state, `SoftPWMSetFadeTime(p, up, down)` on an active pin `p`
(record `k`) yields the same state with only the two fade rates of record `k` replaced
(`fade_g` is the record with `fadeuprate` and `fadedownrate` set to the computed rates); on
a pin `p ≥ 0` that is not active it yields the state itself; with `ALL` it yields the same
state with only the two fade rates of every record of the active list replaced, so that no
free record, link, `pwmvalue` or `checkval` changes. After any of these calls a record
acquired by `SoftPWMSet` for a pin that is not active starts with both fade rates 0. -/
theorem fade_rates_per_channel (b : Board) (pol : Nat) (s : State) (h : Reachable b pol s)
    (up down : Nat) :
    (∀ (p : Int) (k : Fin SOFTPWM_MAXCHANNELS),
      ch_find s._softpwm_channels s.g_used p = some k →
      SoftPWMSetFadeTime b p up down s =
        { s with
          _softpwm_channels :=
            Function.update s._softpwm_channels k (fade_g b up down (s._softpwm_channels k)) }) ∧
    (∀ p : Int, 0 ≤ p → ch_find s._softpwm_channels s.g_used p = none →
      SoftPWMSetFadeTime b p up down s = s) ∧
    (∃ used free : List (Fin SOFTPWM_MAXCHANNELS),
      IsList s._softpwm_channels s.g_used used ∧ IsList s._softpwm_channels s.g_free free ∧
      SoftPWMSetFadeTime b ALL up down s =
        { s with
          _softpwm_channels := fun j =>
            if j ∈ used then fade_g b up down (s._softpwm_channels j)
            else s._softpwm_channels j } ∧
      IsList (SoftPWMSetFadeTime b ALL up down s)._softpwm_channels
        (SoftPWMSetFadeTime b ALL up down s).g_used used ∧
      IsList (SoftPWMSetFadeTime b ALL up down s)._softpwm_channels
        (SoftPWMSetFadeTime b ALL up down s).g_free free ∧
      ∀ j, j ∈ free → (SoftPWMSetFadeTime b ALL up down s)._softpwm_channels j =
        s._softpwm_channels j) ∧
    (∀ (q p : Int) (v hardset fuel : Nat), 1 ≤ p → p ≤ 127 → v < 256 →
      ch_find (SoftPWMSetFadeTime b q up down s)._softpwm_channels
        (SoftPWMSetFadeTime b q up down s).g_used p = none →
      (SoftPWMSetFadeTime b q up down s).g_free ≠ none →
      ∃ s' k, SoftPWMSet b fuel p v hardset (SoftPWMSetFadeTime b q up down s) = some s' ∧
        ch_find s'._softpwm_channels s'.g_used p = some k ∧
        (s'._softpwm_channels k).fadeuprate = 0 ∧ (s'._softpwm_channels k).fadedownrate = 0) := by
  obtain ⟨used, free, hI⟩ := h.inv
  refine ⟨fun p k hfind => hI.setFadeTime_found hfind up down,
    fun p hp hna => hI.setFadeTime_absent hp hna up down, ?_, ?_⟩
  · have hall := hI.setFadeTime_all (show ALL < 0 by decide) up down
    have hI' := hI.setFadeTime ALL up down
    refine ⟨used, free, hI.used_list.isList, hI.free_list, hall, hI'.used_list.isList,
      hI'.free_list, fun j hj => ?_⟩
    rw [hall]
    show (if j ∈ used then _ else _) = _
    rw [if_neg (fun hu => hI.not_free_of_used hu hj)]
  · intro q p v hardset fuel hp1 hp2 hv hna hfree
    have hI' := hI.setFadeTime q up down
    cases free with
    | nil => exact absurd hI'.free_list hfree
    | cons k free =>
      obtain ⟨s', r1, -, r3, -, -, -, r7, r8, -⟩ := hI'.acquire_spec hp1 hp2 hna hv hardset fuel
      exact ⟨s', k, r1, r3, r7, r8⟩

theorem fade_rates_per_channel_witness :
    Reachable unoBoard SOFTPWM_NORMAL pin5Pool ∧
    ch_find pin5Pool._softpwm_channels pin5Pool.g_used 5 = some 19 ∧
    SoftPWMSetFadeTime unoBoard 5 1000 500 pin5Pool =
      { pin5Pool with
        _softpwm_channels :=
          Function.update pin5Pool._softpwm_channels 19
            (fade_g unoBoard 1000 500 (pin5Pool._softpwm_channels 19)) } ∧
    ch_find pin5Pool._softpwm_channels pin5Pool.g_used 6 = none ∧
    SoftPWMSetFadeTime unoBoard 6 1000 500 pin5Pool = pin5Pool ∧
    ∃ s' k, SoftPWMSet unoBoard 0 6 77 0 (SoftPWMSetFadeTime unoBoard ALL 1000 500 pin5Pool) =
        some s' ∧
      ch_find s'._softpwm_channels s'.g_used 6 = some k ∧
      (s'._softpwm_channels k).fadeuprate = 0 ∧ (s'._softpwm_channels k).fadedownrate = 0 :=
  ⟨pin5Pool_reachable, by decide,
    (fade_rates_per_channel unoBoard SOFTPWM_NORMAL pin5Pool pin5Pool_reachable 1000 500).1 5 19
      (by decide),
    by decide,
    (fade_rates_per_channel unoBoard SOFTPWM_NORMAL pin5Pool pin5Pool_reachable 1000 500).2.1 6
      (by decide) (by decide),
    (fade_rates_per_channel unoBoard SOFTPWM_NORMAL pin5Pool pin5Pool_reachable 1000 500).2.2.2
      ALL 6 77 0 0 (by decide) (by decide) (by decide) (by decide) (by decide)⟩

/-! ## Which channels a pin argument selects -/

set_option maxRecDepth 1000000 in
theorem fourPool_run :
    runOps unoBoard 0 [Op.Set 1 10 0, Op.Set 2 20 0, Op.Set 3 30 0, Op.Set 4 40 0] freshPool =
      some fourPool := by
  have h : (runOps unoBoard 0 [Op.Set 1 10 0, Op.Set 2 20 0, Op.Set 3 30 0, Op.Set 4 40 0]
      freshPool).isSome = true := by decide
  unfold fourPool
  cases hr : runOps unoBoard 0 [Op.Set 1 10 0, Op.Set 2 20 0, Op.Set 3 30 0, Op.Set 4 40 0]
      freshPool with
  | none => rw [hr] at h; cases h
  | some x => rfl

theorem fourPool_reachable : Reachable unoBoard SOFTPWM_NORMAL fourPool :=
  Reachable.runOps _ freshPool fourPool freshPool_reachable (by decide) fourPool_run

/-- C11, as stated, fails: with pin 5 active at target 128 and polarity `SOFTPWM_NORMAL`,
`SoftPWMSet(-2, 200)` and `SoftPWMSet(0, 200)` set the target of pin 5 to 200, and
`SoftPWMSetPolarity(-2, SOFTPWM_INVERTED)` and `SoftPWMSetPolarity(0, SOFTPWM_INVERTED)`
invert pin 5. -/
theorem nonpositive_pin_is_wildcard :
    Reachable unoBoard SOFTPWM_NORMAL pin5Pool ∧
    targetValue pin5Pool 5 = some 128 ∧ channelPolarity pin5Pool 5 = some SOFTPWM_NORMAL ∧
    (SoftPWMSet unoBoard 20 (-2) 200 0 pin5Pool).bind (fun s => targetValue s 5) = some 200 ∧
    (SoftPWMSet unoBoard 20 0 200 0 pin5Pool).bind (fun s => targetValue s 5) = some 200 ∧
    (SoftPWMSetPolarity 20 (-2) SOFTPWM_INVERTED pin5Pool).bind
      (fun s => channelPolarity s 5) = some SOFTPWM_INVERTED ∧
    (SoftPWMSetPolarity 20 0 SOFTPWM_INVERTED pin5Pool).bind
      (fun s => channelPolarity s 5) = some SOFTPWM_INVERTED :=
  ⟨pin5Pool_reachable, by decide, by decide, by decide, by decide, by decide, by decide⟩

theorem HARDRESET_data (RST : Nat) (s : State) (j : Fin SOFTPWM_MAXCHANNELS) :
    ((HARDRESET RST s)._softpwm_channels j).data = (s._softpwm_channels j).data := by
  rw [HARDRESET_channels]

/-- C11, amended: in a reachable state, for every pin argument `p ≥ 1`,
`SoftPWMSet(p, v)` returns and leaves the data fields (the target among them) of every
active record bound to a pin other than `p` as they were, and `SoftPWMSetPolarity(p, _)`
returns and leaves every record bound to a pin other than `p` as it was; for every
negative pin argument (not only -1) `SoftPWMSet` sets the target of every active record
and `SoftPWMSetPolarity` the polarity of every active record. -/
theorem pin_argument_selects (b : Board) (pol : Nat) (s : State) (h : Reachable b pol s)
    (p : Int) (v hardset polarity fuel : Nat) :
    (1 ≤ p →
      (∃ s', SoftPWMSet b fuel p v hardset s = some s' ∧
        ∀ used : List (Fin SOFTPWM_MAXCHANNELS), IsList s._softpwm_channels s.g_used used →
          ∀ j ∈ used, (s._softpwm_channels j).pin ≠ p →
            (s'._softpwm_channels j).data = (s._softpwm_channels j).data) ∧
      (∃ s', SoftPWMSetPolarity fuel p polarity s = some s' ∧
        ∀ j, (s._softpwm_channels j).pin ≠ p →
          s'._softpwm_channels j = s._softpwm_channels j)) ∧
    (p < 0 → SOFTPWM_MAXCHANNELS ≤ fuel →
      (∃ s', SoftPWMSet b fuel p v hardset s = some s' ∧
        ∀ used : List (Fin SOFTPWM_MAXCHANNELS), IsList s._softpwm_channels s.g_used used →
          ∀ j ∈ used, (s'._softpwm_channels j).pwmvalue = v) ∧
      (∃ s', SoftPWMSetPolarity fuel p polarity s = some s' ∧
        ∀ used : List (Fin SOFTPWM_MAXCHANNELS), IsList s._softpwm_channels s.g_used used →
          ∀ j ∈ used, (s'._softpwm_channels j).polarity =
            if polarity ≠ SOFTPWM_NORMAL then SOFTPWM_INVERTED else polarity)) := by
  obtain ⟨used, free, hI⟩ := h.inv
  have huniq : ∀ used' : List (Fin SOFTPWM_MAXCHANNELS),
      IsList s._softpwm_channels s.g_used used' → used' = used :=
    fun used' hl => IsList_unique _ _ _ hl hI.used_list.isList
  constructor
  · intro hp1
    have hp : 0 < p := by omega
    constructor
    · cases hfind : ch_find s._softpwm_channels s.g_used p with
      | some k =>
        refine ⟨_, SoftPWMSet_found b fuel v hardset hp hfind, fun used' hl j _ hne => ?_⟩
        have hjk : j ≠ k := fun e => hne (e ▸ (hI.find_eq_some hfind).2)
        rw [HARDRESET_channels, mapBody_channels, if_neg hjk]
      | none =>
        cases hfree : s.g_free with
        | none =>
          exact ⟨s, SoftPWMSet_exhausted b fuel v hardset hp hfind hfree, fun _ _ _ _ _ => rfl⟩
        | some k =>
          refine ⟨_, SoftPWMSet_acquire b fuel v hardset hp hfind hfree,
            fun used' hl j hj _ => ?_⟩
          rw [huniq used' hl] at hj
          have hkf : k ∈ free := by
            have hfl := hI.free_list
            rw [hfree] at hfl
            exact hfl.head_mem
          have hjk : j ≠ k := fun e => hI.not_free_of_used hj (e ▸ hkf)
          rw [HARDRESET_data, acquired_data_of_ne b p v s hjk]
    · cases hfind : ch_find s._softpwm_channels s.g_used p with
      | some k =>
        refine ⟨_, SoftPWMSetPolarity_found fuel polarity hp hfind, fun j hne => ?_⟩
        have hjk : j ≠ k := fun e => hne (e ▸ (hI.find_eq_some hfind).2)
        rw [mapBody_channels, if_neg hjk]
      | none =>
        exact ⟨s, SoftPWMSetPolarity_absent fuel polarity hp hfind, fun _ _ => rfl⟩
  · intro hp hf
    have hnp : ¬ 0 < p := by omega
    have hlen := le_trans hI.used_length_le hf
    constructor
    · refine ⟨_, SoftPWMSet_all hI v hardset hnp hlen, fun used' hl j hj => ?_⟩
      rw [huniq used' hl] at hj
      rw [HARDRESET_channels, mapResult_channels, if_pos hj]
      rfl
    · refine ⟨_, SoftPWMSetPolarity_all hI polarity hnp hlen, fun used' hl j hj => ?_⟩
      rw [huniq used' hl] at hj
      rw [mapResult_channels, if_pos hj]
      rfl

set_option maxRecDepth 1000000 in
theorem pin_argument_selects_witness :
    Reachable unoBoard SOFTPWM_NORMAL fourPool ∧
    IsList fourPool._softpwm_channels fourPool.g_used [16, 17, 18, 19] ∧
    (fourPool._softpwm_channels 17).pin ≠ 2 ∧
    ((∃ s', SoftPWMSet unoBoard 20 2 200 0 fourPool = some s' ∧
        ∀ used : List (Fin SOFTPWM_MAXCHANNELS),
          IsList fourPool._softpwm_channels fourPool.g_used used →
          ∀ j ∈ used, (fourPool._softpwm_channels j).pin ≠ 2 →
            (s'._softpwm_channels j).data = (fourPool._softpwm_channels j).data) ∧
      (∃ s', SoftPWMSetPolarity 20 2 1 fourPool = some s' ∧
        ∀ j, (fourPool._softpwm_channels j).pin ≠ 2 →
          s'._softpwm_channels j = fourPool._softpwm_channels j)) ∧
    ((∃ s', SoftPWMSet unoBoard 20 (-7) 200 0 fourPool = some s' ∧
        ∀ used : List (Fin SOFTPWM_MAXCHANNELS),
          IsList fourPool._softpwm_channels fourPool.g_used used →
          ∀ j ∈ used, (s'._softpwm_channels j).pwmvalue = 200) ∧
      (∃ s', SoftPWMSetPolarity 20 (-7) 1 fourPool = some s' ∧
        ∀ used : List (Fin SOFTPWM_MAXCHANNELS),
          IsList fourPool._softpwm_channels fourPool.g_used used →
          ∀ j ∈ used, (s'._softpwm_channels j).polarity =
            if 1 ≠ SOFTPWM_NORMAL then SOFTPWM_INVERTED else 1)) :=
  ⟨fourPool_reachable, by decide, by decide,
    (pin_argument_selects unoBoard SOFTPWM_NORMAL fourPool fourPool_reachable 2 200 0 1 20).1
      (by decide),
    (pin_argument_selects unoBoard SOFTPWM_NORMAL fourPool fourPool_reachable (-7) 200 0 1 20).2
      (by decide) (by decide)⟩

/-! ## Wildcard set -/

theorem foldl_keep {α β : Type} (a : α) : ∀ l : List β, l.foldl (fun x _ => x) a = a
  | [] => rfl
  | _ :: l => foldl_keep a l

theorem HARDRESET_zero (s : State) : HARDRESET 0 s = s := by
  unfold HARDRESET
  rw [if_neg (by decide)]

/-- The result of `SoftPWMSet(ALL, v)` without `hardset`, on the invariant. -/
theorem Inv.set_all_eq {b : Board} {pol : Nat} {s : State}
    {used free : List (Fin SOFTPWM_MAXCHANNELS)} (hI : Inv b pol s used free) {fuel : Nat}
    (v : Nat) (hf : used.length ≤ fuel) :
    SoftPWMSet b fuel ALL v 0 s =
      some { s with
        _softpwm_channels := fun j =>
          if j ∈ used then set_g v (s._softpwm_channels j) else s._softpwm_channels j } := by
  rw [SoftPWMSet_all hI v 0 (show ¬ 0 < ALL by decide) hf, HARDRESET_zero]
  unfold mapResult
  rw [foldl_keep]

/-- C12: in a reachable state, `SoftPWMSet(ALL, v)` returns the same state with
`pwmvalue = v` in every record of the active list and nothing else changed (`set_g` is the
record with `pwmvalue` replaced): no other field of an active record, no free record, no
head, no link, so both lists are the same sequences as before; a record acquired afterwards
by `SoftPWMSet(p, w)` has `pwmvalue = w`. -/
theorem set_all_frame (b : Board) (pol : Nat) (s : State) (h : Reachable b pol s) (v : Nat)
    (hv : v < 256) (fuel : Nat) (hf : SOFTPWM_MAXCHANNELS ≤ fuel) :
    ∃ (s' : State) (used free : List (Fin SOFTPWM_MAXCHANNELS)),
      SoftPWMSet b fuel ALL v 0 s = some s' ∧
      IsList s._softpwm_channels s.g_used used ∧ IsList s._softpwm_channels s.g_free free ∧
      s' = { s with
        _softpwm_channels := fun j =>
          if j ∈ used then set_g v (s._softpwm_channels j) else s._softpwm_channels j } ∧
      (∀ j ∈ used, (s'._softpwm_channels j).pwmvalue = v) ∧
      (∀ j ∈ free, s'._softpwm_channels j = s._softpwm_channels j) ∧
      IsList s'._softpwm_channels s'.g_used used ∧ IsList s'._softpwm_channels s'.g_free free ∧
      ∀ (p : Int) (w hardset fuel' : Nat), 1 ≤ p → p ≤ 127 → w < 256 →
        ch_find s'._softpwm_channels s'.g_used p = none → s'.g_free ≠ none →
        ∃ s'' k, SoftPWMSet b fuel' p w hardset s' = some s'' ∧
          ch_find s''._softpwm_channels s''.g_used p = some k ∧
          (s''._softpwm_channels k).pwmvalue = w := by
  obtain ⟨used, free, hI⟩ := h.inv
  have hlen := le_trans hI.used_length_le hf
  have hI' : Inv b pol (mapResult (set_g v) (fun _ _ io => io) used s) used free :=
    hI.map _ _ (set_g_keeps v) (set_g_bytes hv)
  have he : mapResult (set_g v) (fun _ _ io => io) used s =
      { s with
        _softpwm_channels := fun j =>
          if j ∈ used then set_g v (s._softpwm_channels j) else s._softpwm_channels j } := by
    unfold mapResult
    rw [foldl_keep]
  rw [he] at hI'
  refine ⟨_, used, free, hI.set_all_eq v hlen, hI.used_list.isList, hI.free_list, rfl,
    fun j hj => ?_, fun j hj => ?_, hI'.used_list.isList, hI'.free_list, ?_⟩
  · show (if j ∈ used then set_g v (s._softpwm_channels j) else _).pwmvalue = v
    rw [if_pos hj]
    rfl
  · show (if j ∈ used then set_g v (s._softpwm_channels j) else _) = _
    rw [if_neg (fun hu => hI.not_free_of_used hu hj)]
  · intro p w hardset fuel' hp1 hp2 hw hna hfree
    cases free with
    | nil => exact absurd hI'.free_list hfree
    | cons k free =>
      obtain ⟨s'', r1, -, r3, -, r5, -⟩ := hI'.acquire_spec hp1 hp2 hna hw hardset fuel'
      exact ⟨s'', k, r1, r3, r5⟩

set_option maxRecDepth 1000000 in
theorem set_all_frame_witness :
    Reachable unoBoard SOFTPWM_NORMAL fourPool ∧ (200 : Nat) < 256 ∧
    SOFTPWM_MAXCHANNELS ≤ 20 ∧
    ∃ (s' : State) (used free : List (Fin SOFTPWM_MAXCHANNELS)),
      SoftPWMSet unoBoard 20 ALL 200 0 fourPool = some s' ∧
      IsList fourPool._softpwm_channels fourPool.g_used used ∧
      IsList fourPool._softpwm_channels fourPool.g_free free ∧
      s' = { fourPool with
        _softpwm_channels := fun j =>
          if j ∈ used then set_g 200 (fourPool._softpwm_channels j)
          else fourPool._softpwm_channels j } ∧
      (∀ j ∈ used, (s'._softpwm_channels j).pwmvalue = 200) ∧
      (∀ j ∈ free, s'._softpwm_channels j = fourPool._softpwm_channels j) ∧
      IsList s'._softpwm_channels s'.g_used used ∧ IsList s'._softpwm_channels s'.g_free free ∧
      ∀ (p : Int) (w hardset fuel' : Nat), 1 ≤ p → p ≤ 127 → w < 256 →
        ch_find s'._softpwm_channels s'.g_used p = none → s'.g_free ≠ none →
        ∃ s'' k, SoftPWMSet unoBoard fuel' p w hardset s' = some s'' ∧
          ch_find s''._softpwm_channels s''.g_used p = some k ∧
          (s''._softpwm_channels k).pwmvalue = w :=
  ⟨fourPool_reachable, by decide, by decide,
    set_all_frame unoBoard SOFTPWM_NORMAL fourPool fourPool_reachable 200 (by decide) 20
      (by decide)⟩

/-! ## The level written at release -/

/-- C17: the code at the failing input. After `SoftPWMBegin(SOFTPWM_NORMAL);
SoftPWMSet(5, 128)` pin 5 has polarity `SOFTPWM_NORMAL` and the acquisition has driven it
`LOW`, its idle level; `SoftPWMEnd(5)` returns with pin 5 driven `HIGH` and switched to
`INPUT`. -/
theorem end_writes_high :
    Reachable unoBoard SOFTPWM_NORMAL pin5Pool ∧
    channelPolarity pin5Pool 5 = some SOFTPWM_NORMAL ∧
    pinLevel unoBoard pin5Pool 5 = LOW ∧ pin5Pool.pinmode 5 = OUTPUT ∧
    offLevel SOFTPWM_NORMAL = LOW ∧
    (SoftPWMEnd unoBoard 5 pin5Pool).map (fun s => pinLevel unoBoard s 5) = some HIGH ∧
    (SoftPWMEnd unoBoard 5 pin5Pool).map (fun s => s.pinmode 5) = some INPUT :=
  ⟨pin5Pool_reachable, by decide, by decide, by decide, by decide, by decide, by decide⟩

end SoftPWM
